import Mathlib

/-!
# memory_pool: fixed-block pool allocator, `unique_ptr`, `shared_ptr`

A shallow embedding of `src/src/PoolAllocator.cpp`, `include/memory_pool/UniquePtr.h`,
`include/memory_pool/SharedPtr.h` and `include/memory_pool/PoolDeleter.h`, and the
properties of the specification checked against it.

Conventions of the embedding:

* addresses and `size_t` values are natural numbers; pointers are 64 bits wide
  (`PTR_MOD = 2 ^ 64`), the null pointer is `0`;
* memory is byte addressed; a `Node*` link occupies `PTR_SIZE = 8` bytes
  (little endian);
* C++ objects that are accessed through `this` / references live in a store
  indexed by their address, so that aliasing (`this == &other`) is visible.
-/

namespace MemoryPool

/-! ## Raw memory -/

/-- Number of values of a `size_t` / pointer on the 64-bit target. -/
def PTR_MOD : Nat := 2 ^ 64

/-- Size in bytes of `PoolAllocator::Node` (one `Node*`). -/
def PTR_SIZE : Nat := 8

/-- Byte addressed memory: the byte stored at each address. -/
abbrev Memory := Nat → Nat

/-- Byte `k` (little endian) of the pointer value `v`. -/
def ptrByte (v k : Nat) : Nat := (v / 256 ^ k) % 256

/-- Effect of `node->next = v` for `node == a`: the 8 bytes `a .. a+7` receive the
little-endian representation of the pointer `v`. -/
def storePtr (m : Memory) (a v : Nat) : Memory :=
  fun x => if a ≤ x ∧ x < a + PTR_SIZE then ptrByte v (x - a) else m x

/-- Value of `node->next` for `node == a`: the pointer read from bytes `a .. a+7`. -/
def loadPtr (m : Memory) (a : Nat) : Nat :=
  m a % 256 + 256 * (m (a + 1) % 256 + 256 * (m (a + 2) % 256 + 256 * (m (a + 3) % 256
    + 256 * (m (a + 4) % 256 + 256 * (m (a + 5) % 256 + 256 * (m (a + 6) % 256
    + 256 * (m (a + 7) % 256)))))))

/-- The link words at `a` and `b` share no byte. -/
def WordsDisjoint (a b : Nat) : Prop := a + PTR_SIZE ≤ b ∨ b + PTR_SIZE ≤ a

instance (a b : Nat) : Decidable (WordsDisjoint a b) := by
  unfold WordsDisjoint; infer_instance

/-! ## PoolAllocator -/

/-- The data members of `class PoolAllocator` (PoolAllocator.h). `m_memory_pool` is the
address of the backing buffer, `m_free_list` the head of the intrusive free list
(`0` is `nullptr`). -/
structure PoolAllocator where
  m_block_size : Nat
  m_block_count : Nat
  m_memory_pool : Nat
  m_free_list : Nat
  deriving DecidableEq, Repr

namespace PoolAllocator

/-- Address of block `i`: `m_memory_pool + (i * block_size)`, the product being a
`size_t` product. -/
def blockAddr (base block_size i : Nat) : Nat := base + (i * block_size) % PTR_MOD

/-- The constructor's loop `for (i ...; i < block_count; ++i)`, with `n` iterations left,
`i` the loop counter, `fl` the current `m_free_list`. The buffer is the `len` bytes at
`base`; a link written outside of it is undefined behaviour, modelled as `none`. -/
def initLoop (block_size base len : Nat) : Nat → Nat → Nat → Memory → Option (Nat × Memory)
  | 0, _, fl, mem => some (fl, mem)
  | n + 1, i, fl, mem =>
    let block := blockAddr base block_size i
    if block + PTR_SIZE ≤ base + len then
      initLoop block_size base len n (i + 1) block (storePtr mem block fl)
    else none

/-- `PoolAllocator::PoolAllocator(block_size, block_count)`. `base` is the address that
`new char[block_size * block_count]` returned (the size is a `size_t` product); operator
new returns neither null nor a buffer that leaves the address space, and a failed
allocation throws, so no pool exists then (`none`). -/
def new (block_size block_count base : Nat) (mem : Memory) : Option (PoolAllocator × Memory) :=
  let len := (block_size * block_count) % PTR_MOD
  if base = 0 ∨ PTR_MOD < base + len then none
  else
    match initLoop block_size base len block_count 0 0 mem with
    | none => none
    | some (fl, mem') =>
      some ({ m_block_size := block_size, m_block_count := block_count,
              m_memory_pool := base, m_free_list := fl }, mem')

/-- `PoolAllocator::allocate()`: the returned address and the allocator afterwards.
Memory is only read. -/
def allocate (p : PoolAllocator) (mem : Memory) : Nat × PoolAllocator :=
  if p.m_free_list = 0 then (0, p)
  else (p.m_free_list, { p with m_free_list := loadPtr mem p.m_free_list })

/-- `PoolAllocator::deallocate(ptr)`: the allocator and the memory afterwards. -/
def deallocate (p : PoolAllocator) (mem : Memory) (ptr : Nat) : PoolAllocator × Memory :=
  if ptr = 0 then (p, mem)
  else ({ p with m_free_list := ptr }, storePtr mem ptr p.m_free_list)

/-- The results of `k` consecutive `allocate()` calls, in call order, and the allocator
afterwards. -/
def allocateMany (mem : Memory) : Nat → PoolAllocator → List Nat × PoolAllocator
  | 0, p => ([], p)
  | k + 1, p =>
    let r := p.allocate mem
    let rest := allocateMany mem k r.2
    (r.1 :: rest.1, rest.2)

/-- The free list starting at `head` consists of exactly the blocks `l`, in order:
every block is non-null, each link leads to the next block and the last link is null. -/
def IsFreeList (mem : Memory) : Nat → List Nat → Prop
  | head, [] => head = 0
  | head, a :: l => head = a ∧ a ≠ 0 ∧ IsFreeList mem (loadPtr mem a) l

instance instDecidableIsFreeList (mem : Memory) :
    (head : Nat) → (l : List Nat) → Decidable (IsFreeList mem head l)
  | head, [] => by unfold IsFreeList; infer_instance
  | head, a :: l => by
    unfold IsFreeList
    have := instDecidableIsFreeList mem (loadPtr mem a) l
    infer_instance

/-- The block addresses of a pool, block `0` first. -/
def blocks (base block_size block_count : Nat) : List Nat :=
  (List.range block_count).map (blockAddr base block_size)

end PoolAllocator

/-- A call made by a client of the pool. -/
inductive PoolOp where
  | alloc
  | dealloc (ptr : Nat)
  deriving DecidableEq, Repr

/-- A pool in use: the allocator, the memory, and (ghost state, not in the code) the
addresses that `allocate()` returned and that were not given back since. -/
structure PoolState where
  pool : PoolAllocator
  mem : Memory
  outstanding : List Nat

namespace PoolState

/-- One client call. -/
def step (s : PoolState) : PoolOp → PoolState
  | PoolOp.alloc =>
    let r := s.pool.allocate s.mem
    { pool := r.2, mem := s.mem,
      outstanding := if r.1 = 0 then s.outstanding else r.1 :: s.outstanding }
  | PoolOp.dealloc ptr =>
    let r := s.pool.deallocate s.mem ptr
    { pool := r.1, mem := r.2, outstanding := s.outstanding.erase ptr }

/-- A sequence of client calls, executed in order. -/
def run (s : PoolState) (ops : List PoolOp) : PoolState := ops.foldl step s

/-- The caller's obligation: every `deallocate` is given null or an address that is
outstanding at that moment. -/
def Admissible : PoolState → List PoolOp → Prop
  | _, [] => True
  | s, PoolOp.alloc :: ops => Admissible (s.step PoolOp.alloc) ops
  | s, PoolOp.dealloc ptr :: ops =>
    (ptr = 0 ∨ ptr ∈ s.outstanding) ∧ Admissible (s.step (PoolOp.dealloc ptr)) ops

instance instDecidableAdmissible : (s : PoolState) → (ops : List PoolOp) →
    Decidable (Admissible s ops)
  | _, [] => by unfold Admissible; infer_instance
  | s, PoolOp.alloc :: ops => by
    unfold Admissible
    exact instDecidableAdmissible (s.step PoolOp.alloc) ops
  | s, PoolOp.dealloc ptr :: ops => by
    unfold Admissible
    have := instDecidableAdmissible (s.step (PoolOp.dealloc ptr)) ops
    infer_instance

/-- The state right after construction: nothing is outstanding. -/
def fresh (p : PoolAllocator) (mem : Memory) : PoolState :=
  { pool := p, mem := mem, outstanding := [] }

/-- The blocks of the pool are split between the free list and the outstanding
addresses: the free list followed by the outstanding addresses is a rearrangement of
the block addresses. -/
def Inv (base block_size block_count : Nat) (s : PoolState) : Prop :=
  ∃ l, PoolAllocator.IsFreeList s.mem s.pool.m_free_list l ∧
    List.Perm (l ++ s.outstanding) (PoolAllocator.blocks base block_size block_count)

end PoolState

/-! ### A concrete pool, used to exercise the statements -/

/-- The allocator that `PoolAllocator(16, 3)` yields when operator new returns 4096. -/
def examplePool : PoolAllocator :=
  { m_block_size := 16, m_block_count := 3, m_memory_pool := 4096, m_free_list := 4128 }

/-- The memory after that construction, starting from zeroed memory. -/
def exampleMem : Memory :=
  storePtr (storePtr (storePtr (fun _ => 0) 4096 0) 4112 4096) 4128 4112

/-- Two allocations, the first block given back, null given back, one more allocation. -/
def exampleOps : List PoolOp :=
  [PoolOp.alloc, PoolOp.alloc, PoolOp.dealloc 4128, PoolOp.dealloc 0, PoolOp.alloc]

/-! ## unique_ptr -/

/-- The data members of `unique_ptr<T, Deleter>` (UniquePtr.h). `D` is the deleter type;
the deleter types of this repository (`default_delete`, `PoolDeleter`) are trivially
copyable, so `std::move` of a deleter leaves the source as it was and is a copy. -/
structure unique_ptr (D : Type) where
  m_ptr : Nat
  m_deleter : D
  deriving DecidableEq, Repr

/-- The log of release-action invocations `deleter(ptr)`, oldest first. -/
abbrev Calls (D : Type) := List (D × Nat)

/-- Recording interpretation of `deleter(ptr)`: the call is appended to the log. -/
def record {D : Type} (d : D) (ptr : Nat) (log : Calls D) : Calls D := log ++ [(d, ptr)]

/-- A program state for `unique_ptr` code: the `unique_ptr` objects by object address
(so that `this == &other` is visible) and the world `σ` that release actions act on. -/
structure UState (D σ : Type) where
  objs : Nat → unique_ptr D
  world : σ

/-- Assignment to the object at address `this`. -/
def UState.set {D σ : Type} (st : UState D σ) (this : Nat) (v : unique_ptr D) : UState D σ :=
  { st with objs := fun x => if x = this then v else st.objs x }

namespace unique_ptr

variable {D σ : Type}

/-- `explicit unique_ptr(T* ptr = nullptr)`, constructing the object at `this`. -/
def ctor [Inhabited D] (this ptr : Nat) (st : UState D σ) : UState D σ :=
  st.set this { m_ptr := ptr, m_deleter := default }

/-- `unique_ptr(T* ptr, Deleter deleter)`, constructing the object at `this`. -/
def ctor_deleter (this ptr : Nat) (deleter : D) (st : UState D σ) : UState D σ :=
  let s1 := st.set this { st.objs this with m_ptr := ptr }
  s1.set this { s1.objs this with m_deleter := deleter }

/-- `~unique_ptr()`. `call d p` is the effect of `m_deleter(m_ptr)` on the world. -/
def dtor (call : D → Nat → σ → σ) (this : Nat) (st : UState D σ) : UState D σ :=
  if (st.objs this).m_ptr ≠ 0 then
    { st with world := call (st.objs this).m_deleter (st.objs this).m_ptr st.world }
  else st

/-- `unique_ptr(unique_ptr&& other)`, constructing the object at `this`. -/
def move_ctor (this other : Nat) (st : UState D σ) : UState D σ :=
  let s1 := st.set this { st.objs this with m_ptr := (st.objs other).m_ptr }
  let s2 := s1.set this { s1.objs this with m_deleter := (s1.objs other).m_deleter }
  s2.set other { s2.objs other with m_ptr := 0 }

/-- `unique_ptr& operator=(unique_ptr&& other)`. -/
def move_assign (call : D → Nat → σ → σ) (this other : Nat) (st : UState D σ) : UState D σ :=
  if this ≠ other then
    let s0 : UState D σ :=
      if (st.objs this).m_ptr ≠ 0 then
        { st with world := call (st.objs this).m_deleter (st.objs this).m_ptr st.world }
      else st
    let s1 := s0.set this { s0.objs this with m_ptr := (s0.objs other).m_ptr }
    s1.set other { s1.objs other with m_ptr := 0 }
  else st

/-- `T* get() const`. -/
def get (this : Nat) (st : UState D σ) : Nat := (st.objs this).m_ptr

/-- `explicit operator bool() const`. -/
def toBool (this : Nat) (st : UState D σ) : Bool := decide ((st.objs this).m_ptr ≠ 0)

/-- `Deleter& get_deleter()`. -/
def get_deleter (this : Nat) (st : UState D σ) : D := (st.objs this).m_deleter

/-- `T* release()`: the returned address and the state afterwards. -/
def release (this : Nat) (st : UState D σ) : Nat × UState D σ :=
  let temp := (st.objs this).m_ptr
  (temp, st.set this { st.objs this with m_ptr := 0 })

/-- `void reset(T* ptr = nullptr)`. -/
def reset (call : D → Nat → σ → σ) (this ptr : Nat) (st : UState D σ) : UState D σ :=
  let s0 : UState D σ :=
    if (st.objs this).m_ptr ≠ 0 then
      { st with world := call (st.objs this).m_deleter (st.objs this).m_ptr st.world }
    else st
  s0.set this { s0.objs this with m_ptr := ptr }

/-- `void swap(unique_ptr& other)`. -/
def swap (this other : Nat) (st : UState D σ) : UState D σ :=
  let temp := (st.objs this).m_ptr
  let s1 := st.set this { st.objs this with m_ptr := (st.objs other).m_ptr }
  let s2 := s1.set other { s1.objs other with m_ptr := temp }
  let temp_deleter := (s2.objs other).m_deleter
  let s3 := s2.set this { s2.objs this with m_deleter := temp_deleter }
  s3.set other { s3.objs other with m_deleter := temp_deleter }

end unique_ptr

/-- The data member of `PoolDeleter<T>` (PoolDeleter.h): the address of the bound pool,
`0` for a default-constructed deleter. -/
structure PoolDeleter where
  m_pool : Nat
  deriving DecidableEq, Repr

/-- Two `unique_ptr<T, PoolDeleter<T>>` objects, at addresses 28672 and 28688: the first
holds block 4128 with a deleter bound to the pool object at 512, the second holds block
8192 with a deleter bound to the pool object at 768; no release action ran yet. -/
def exampleUState : UState PoolDeleter (Calls PoolDeleter) :=
  { objs := fun x =>
      if x = 28672 then { m_ptr := 4128, m_deleter := { m_pool := 512 } }
      else if x = 28688 then { m_ptr := 8192, m_deleter := { m_pool := 768 } }
      else { m_ptr := 0, m_deleter := { m_pool := 0 } },
    world := [] }

/-! ## shared_ptr -/

/-- A control block (SharedPtr.h): the two counts of `ControlBlock`, the payload address
`ptr`, and the deleter of a `DeleterControlBlock` (`none` for a `DefaultControlBlock`). -/
structure ControlBlock (D : Type) where
  shared_count : Nat
  weak_count : Nat
  ptr : Nat
  deleter : Option D
  deriving DecidableEq, Repr

/-- The data members of `shared_ptr<T>`; `m_control_block = 0` is `nullptr`. -/
structure shared_ptr where
  m_ptr : Nat
  m_control_block : Nat
  deriving DecidableEq, Repr

/-- What releasing a payload does to the world `σ`: `del p` is the effect of `delete p`
(`DefaultControlBlock`), `call d p` the effect of `deleter(p)` (`DeleterControlBlock`). -/
structure Fx (D σ : Type) where
  del : Nat → σ → σ
  call : D → Nat → σ → σ

/-- The virtual `ControlBlock::destroy_object()`. -/
def ControlBlock.destroy_object {D σ : Type} (fx : Fx D σ) (blk : ControlBlock D) (w : σ) : σ :=
  match blk.deleter with
  | none => fx.del blk.ptr w
  | some d => fx.call d blk.ptr w

/-- A program state for `shared_ptr` code. `live` lists the addresses of the existing
`shared_ptr` objects and `objs` gives their members; `heap` holds the control blocks
that exist, by address; `next` is the address operator new hands out for the next
control block (addresses are not reused); `trace` logs every `destroy_object()` call as
(control block, payload address), oldest first; `world` is what release actions act on. -/
structure SState (D σ : Type) where
  live : List Nat
  objs : Nat → shared_ptr
  heap : Nat → Option (ControlBlock D)
  next : Nat
  trace : List (Nat × Nat)
  world : σ

namespace shared_ptr

variable {D σ : Type}

/-- The state of a program that has not created any `shared_ptr` yet. -/
def init (w : σ) : SState D σ :=
  { live := [], objs := fun _ => { m_ptr := 0, m_control_block := 0 }, heap := fun _ => none,
    next := 1, trace := [], world := w }

/-- Assignment `m_ptr = v` in the object at `this`. -/
def set_m_ptr (this v : Nat) (st : SState D σ) : SState D σ :=
  { st with objs := Function.update st.objs this { st.objs this with m_ptr := v } }

/-- Assignment `m_control_block = v` in the object at `this`. -/
def set_m_control_block (this v : Nat) (st : SState D σ) : SState D σ :=
  { st with objs := Function.update st.objs this { st.objs this with m_control_block := v } }

/-- `new DefaultControlBlock<T>(p)` / `new DeleterControlBlock<T, Deleter>(p, d)`: the
address of the new block and the state afterwards. `shared_count = 1` and
`weak_count = 0` are the default member initialisers of `ControlBlock`. -/
def new_control_block (p : Nat) (d : Option D) (st : SState D σ) : Nat × SState D σ :=
  let blk : ControlBlock D := { shared_count := 1, weak_count := 0, ptr := p, deleter := d }
  (st.next, { st with heap := Function.update st.heap st.next (some blk), next := st.next + 1 })

/-- The object at `this` comes into existence with the member values `obj` (the member
initialiser list of a constructor). -/
def create (this : Nat) (obj : shared_ptr) (st : SState D σ) : SState D σ :=
  { st with live := this :: st.live, objs := Function.update st.objs this obj }

/-- A new object can be created at `this`: a valid address that no existing object
occupies. -/
def Fresh (this : Nat) (st : SState D σ) : Prop :=
  this ∉ st.live ∧ 0 < this ∧ this < PTR_MOD

instance (this : Nat) (st : SState D σ) : Decidable (Fresh this st) := by
  unfold Fresh; infer_instance

/-- `void increment_ref_count()`. Using a control block that no longer exists is
undefined behaviour (`none`). -/
def increment_ref_count (this : Nat) (st : SState D σ) : Option (SState D σ) :=
  if (st.objs this).m_control_block ≠ 0 then
    match st.heap (st.objs this).m_control_block with
    | none => none
    | some blk =>
      let cb := (st.objs this).m_control_block
      let blk1 := { blk with shared_count := (blk.shared_count + 1) % PTR_MOD }
      some { st with heap := Function.update st.heap cb (some blk1) }
  else some st

/-- `void decrement_ref_count()`. Using a control block that no longer exists is
undefined behaviour (`none`). -/
def decrement_ref_count (fx : Fx D σ) (this : Nat) (st : SState D σ) : Option (SState D σ) :=
  if (st.objs this).m_control_block ≠ 0 then
    match st.heap (st.objs this).m_control_block with
    | none => none
    | some blk =>
      let cb := (st.objs this).m_control_block
      let blk1 := { blk with shared_count := (blk.shared_count + PTR_MOD - 1) % PTR_MOD }
      let st1 := { st with heap := Function.update st.heap cb (some blk1) }
      if blk1.shared_count = 0 then
        let w := blk1.destroy_object fx st1.world
        let st2 := { st1 with world := w, trace := st1.trace ++ [(cb, blk1.ptr)] }
        let st3 :=
          if blk1.weak_count = 0 then { st2 with heap := Function.update st2.heap cb none }
          else st2
        some (set_m_control_block this 0 (set_m_ptr this 0 st3))
      else some st1
  else some st

/-- `shared_ptr(T* ptr = nullptr)`, constructing the object at `this`. -/
def ctor (this ptr : Nat) (st : SState D σ) : Option (SState D σ) :=
  if Fresh this st then
    let st1 := create this { m_ptr := ptr, m_control_block := 0 } st
    if ptr ≠ 0 then
      let r := new_control_block ptr none st1
      some (set_m_control_block this r.1 r.2)
    else some st1
  else none

/-- `shared_ptr(T* ptr, Deleter deleter)`, constructing the object at `this`. -/
def ctor_deleter (this ptr : Nat) (deleter : D) (st : SState D σ) : Option (SState D σ) :=
  if Fresh this st then
    let st1 := create this { m_ptr := ptr, m_control_block := 0 } st
    if ptr ≠ 0 then
      let r := new_control_block ptr (some deleter) st1
      some (set_m_control_block this r.1 r.2)
    else some st1
  else none

/-- `~shared_ptr()`: the decrement, after which the object at `this` no longer exists. -/
def dtor (fx : Fx D σ) (this : Nat) (st : SState D σ) : Option (SState D σ) :=
  if this ∈ st.live then
    match decrement_ref_count fx this st with
    | none => none
    | some st1 => some { st1 with live := st1.live.erase this }
  else none

/-- `shared_ptr(const shared_ptr& other)`, constructing the object at `this`. -/
def copy_ctor (this other : Nat) (st : SState D σ) : Option (SState D σ) :=
  if Fresh this st ∧ other ∈ st.live then
    let st1 := create this
      { m_ptr := (st.objs other).m_ptr, m_control_block := (st.objs other).m_control_block } st
    increment_ref_count this st1
  else none

/-- `shared_ptr& operator=(const shared_ptr& other)`. -/
def copy_assign (fx : Fx D σ) (this other : Nat) (st : SState D σ) : Option (SState D σ) :=
  if this ∈ st.live ∧ other ∈ st.live then
    if this ≠ other then
      match decrement_ref_count fx this st with
      | none => none
      | some st1 =>
        let st2 := set_m_ptr this (st1.objs other).m_ptr st1
        let st3 := set_m_control_block this (st2.objs other).m_control_block st2
        increment_ref_count this st3
    else some st
  else none

/-- `shared_ptr(shared_ptr&& other)`, constructing the object at `this`. -/
def move_ctor (this other : Nat) (st : SState D σ) : Option (SState D σ) :=
  if Fresh this st ∧ other ∈ st.live then
    let st1 := create this
      { m_ptr := (st.objs other).m_ptr, m_control_block := (st.objs other).m_control_block } st
    some (set_m_control_block other 0 (set_m_ptr other 0 st1))
  else none

/-- `shared_ptr& operator=(shared_ptr&& other)`. -/
def move_assign (fx : Fx D σ) (this other : Nat) (st : SState D σ) : Option (SState D σ) :=
  if this ∈ st.live ∧ other ∈ st.live then
    if this ≠ other then
      match decrement_ref_count fx this st with
      | none => none
      | some st1 =>
        let st2 := set_m_ptr this (st1.objs other).m_ptr st1
        let st3 := set_m_control_block this (st2.objs other).m_control_block st2
        some (set_m_control_block other 0 (set_m_ptr other 0 st3))
    else some st
  else none

/-- `T* get() const`. -/
def get (this : Nat) (st : SState D σ) : Nat := (st.objs this).m_ptr

/-- `size_t use_count() const`; `none` when the control block no longer exists
(undefined behaviour). -/
def use_count (this : Nat) (st : SState D σ) : Option Nat :=
  if (st.objs this).m_control_block ≠ 0 then
    match st.heap (st.objs this).m_control_block with
    | none => none
    | some blk => some blk.shared_count
  else some 0

/-- `explicit operator bool() const`. -/
def toBool (this : Nat) (st : SState D σ) : Bool := decide ((st.objs this).m_ptr ≠ 0)

/-- `void reset(T* ptr = nullptr)`. -/
def reset (fx : Fx D σ) (this ptr : Nat) (st : SState D σ) : Option (SState D σ) :=
  if this ∈ st.live then
    match decrement_ref_count fx this st with
    | none => none
    | some st1 =>
      let st2 := set_m_ptr this ptr st1
      if ptr ≠ 0 then
        let r := new_control_block ptr none st2
        some (set_m_control_block this r.1 r.2)
      else some (set_m_control_block this 0 st2)
  else none

/-- `void swap(shared_ptr& other)`. -/
def swap (this other : Nat) (st : SState D σ) : Option (SState D σ) :=
  if this ∈ st.live ∧ other ∈ st.live then
    let tmp_ptr := (st.objs this).m_ptr
    let st1 := set_m_ptr this (st.objs other).m_ptr st
    let st2 := set_m_ptr other tmp_ptr st1
    let tmp_cb := (st2.objs this).m_control_block
    let st3 := set_m_control_block this (st2.objs other).m_control_block st2
    some (set_m_control_block other tmp_cb st3)
  else none

end shared_ptr

/-- A statement of a program that uses `shared_ptr` objects; `this` and `other` are
object addresses. -/
inductive SOp (D : Type) where
  | ctor (this ptr : Nat)
  | ctor_deleter (this ptr : Nat) (deleter : D)
  | dtor (this : Nat)
  | copy_ctor (this other : Nat)
  | copy_assign (this other : Nat)
  | move_ctor (this other : Nat)
  | move_assign (this other : Nat)
  | reset (this ptr : Nat)
  | swap (this other : Nat)
  deriving DecidableEq, Repr

namespace SState

variable {D σ : Type}

/-- One statement; `none` when it has undefined behaviour (it names an object that does
not exist, constructs over an existing one, or reaches a freed control block). -/
def step (fx : Fx D σ) (st : SState D σ) : SOp D → Option (SState D σ)
  | SOp.ctor this ptr => shared_ptr.ctor this ptr st
  | SOp.ctor_deleter this ptr d => shared_ptr.ctor_deleter this ptr d st
  | SOp.dtor this => shared_ptr.dtor fx this st
  | SOp.copy_ctor this other => shared_ptr.copy_ctor this other st
  | SOp.copy_assign this other => shared_ptr.copy_assign fx this other st
  | SOp.move_ctor this other => shared_ptr.move_ctor this other st
  | SOp.move_assign this other => shared_ptr.move_assign fx this other st
  | SOp.reset this ptr => shared_ptr.reset fx this ptr st
  | SOp.swap this other => shared_ptr.swap this other st

/-- A sequence of statements, executed in order. -/
def run (fx : Fx D σ) : SState D σ → List (SOp D) → Option (SState D σ)
  | st, [] => some st
  | st, op :: ops =>
    match step fx st op with
    | none => none
    | some st1 => run fx st1 ops

/-- Number of existing `shared_ptr` objects whose control block is `c`. -/
def refs (st : SState D σ) (c : Nat) : Nat :=
  st.live.countP (fun x => decide ((st.objs x).m_control_block = c))

/-- The owner count of control block `c`: its `shared_count` while the block exists,
`0` once it is gone. -/
def owner_count (st : SState D σ) (c : Nat) : Nat :=
  match st.heap c with
  | none => 0
  | some blk => blk.shared_count

/-- Number of `destroy_object()` calls made so far on control block `c`. -/
def destroyed (st : SState D σ) (c : Nat) : Nat :=
  st.trace.countP (fun e => decide (e.1 = c))

/-- Well-formedness of a `shared_ptr` program state: the existing objects have distinct
valid addresses; control blocks exist only below `next`; every existing control block
has `weak_count = 0` (nothing in the repository creates an observer) and a
`shared_count` equal to the number of existing objects that refer to it, which is at
least one; no existing object refers to a control block that is gone; and the control
blocks that were handed out and are gone are exactly those whose `destroy_object()`
ran, each once. -/
structure WF (st : SState D σ) : Prop where
  nodup : st.live.Nodup
  addr : ∀ x ∈ st.live, 0 < x ∧ x < PTR_MOD
  next_pos : 0 < st.next
  heap_fresh : ∀ c, st.next ≤ c → st.heap c = none
  heap_null : st.heap 0 = none
  dangling : ∀ c, c ≠ 0 → st.heap c = none → st.refs c = 0
  counts : ∀ c blk, st.heap c = some blk →
    blk.shared_count = st.refs c ∧ 0 < st.refs c ∧ blk.weak_count = 0
  traced : ∀ c, st.destroyed c = if 0 < c ∧ c < st.next ∧ (st.heap c).isNone then 1 else 0

/-- How the control blocks evolve from `st` to `st'`: addresses are handed out in
increasing order, a control block disappears only when its owner count was 1, and a
control block that is gone does not come back. -/
def Evolves (st st' : SState D σ) : Prop :=
  st.next ≤ st'.next ∧
  (∀ c blk, st.heap c = some blk → st'.heap c = none → blk.shared_count = 1) ∧
  (∀ c, c < st.next → st.heap c = none → st'.heap c = none)

end SState

namespace SState

variable {D σ : Type}

/-- The objects a statement names exist, and the object it constructs does not yet. -/
def Enabled (st : SState D σ) : SOp D → Prop
  | SOp.ctor this _ => shared_ptr.Fresh this st
  | SOp.ctor_deleter this _ _ => shared_ptr.Fresh this st
  | SOp.dtor this => this ∈ st.live
  | SOp.copy_ctor this other => shared_ptr.Fresh this st ∧ other ∈ st.live
  | SOp.copy_assign this other => this ∈ st.live ∧ other ∈ st.live
  | SOp.move_ctor this other => shared_ptr.Fresh this st ∧ other ∈ st.live
  | SOp.move_assign this other => this ∈ st.live ∧ other ∈ st.live
  | SOp.reset this _ => this ∈ st.live
  | SOp.swap this other => this ∈ st.live ∧ other ∈ st.live

/-- The control blocks of `s'` below address `n` existed in `s` with the same payload
address. -/
def HeapKeeps (s s' : SState D σ) (n : Nat) : Prop :=
  ∀ c blk', s'.heap c = some blk' → c < n → ∃ blk, s.heap c = some blk ∧ blk.ptr = blk'.ptr

/-- From `st` to `st'` no control block changes its payload address, and every new
entry of the `destroy_object()` log names a control block of `st` together with its
payload address. -/
def Keeps (st st' : SState D σ) : Prop :=
  HeapKeeps st st' st.next ∧
  ∀ e ∈ st'.trace, e ∈ st.trace ∨ ∃ blk, st.heap e.1 = some blk ∧ e.2 = blk.ptr

end SState

/-- The statement is a copy-construction or a destruction. -/
def SOp.isCopyOrDestroy {D : Type} : SOp D → Bool
  | SOp.copy_ctor _ _ => true
  | SOp.dtor _ => true
  | _ => false

/-- Recording interpretation of the release actions: every `delete p` and every
`deleter(p)` is appended to a log. -/
def recordFx (D : Type) : Fx D (List (Option D × Nat)) :=
  { del := fun p w => w ++ [(none, p)], call := fun d p w => w ++ [(some d, p)] }

/-! ### A concrete `shared_ptr` program, used to exercise the statements -/

/-- The state after `shared_ptr<T> sp1(p)` with `p = 4128` and `sp1` at address 28672. -/
def exampleS0 : SState PoolDeleter (List (Option PoolDeleter × Nat)) :=
  ((shared_ptr.ctor 28672 4128 (shared_ptr.init [])).getD (shared_ptr.init []))

/-- Two copies of `sp1` are made (at 28688 and 28704), then the second copy and the
first copy are destroyed. -/
def exampleSOps : List (SOp PoolDeleter) :=
  [SOp.copy_ctor 28688 28672, SOp.copy_ctor 28704 28672, SOp.dtor 28704, SOp.dtor 28688]

/-- The state after `exampleSOps`. -/
def exampleS1 : SState PoolDeleter (List (Option PoolDeleter × Nat)) :=
  ((SState.run (recordFx PoolDeleter) exampleS0 exampleSOps).getD (shared_ptr.init []))

/-- The state after `exampleSOps` and the destruction of `sp1`. -/
def exampleS2 : SState PoolDeleter (List (Option PoolDeleter × Nat)) :=
  ((SState.step (recordFx PoolDeleter) exampleS1 (SOp.dtor 28672)).getD (shared_ptr.init []))

/-- The state after `shared_ptr<T> sp1(p)` and one copy `sp2(sp1)`, `sp2` at address
28688: two owners of the control block for payload 4128. -/
def exampleS0c : SState PoolDeleter (List (Option PoolDeleter × Nat)) :=
  ((shared_ptr.copy_ctor 28688 28672 exampleS0).getD (shared_ptr.init []))

/-- The state after `sp2 = std::move(sp1)` in `exampleS0c`. -/
def exampleS0m : SState PoolDeleter (List (Option PoolDeleter × Nat)) :=
  ((shared_ptr.move_assign (recordFx PoolDeleter) 28688 28672 exampleS0c).getD
    (shared_ptr.init []))

/-- Two unrelated owners: `sp1` (at 28672) owns payload 4128 and `sp3` (at 28704) owns
payload 8192, each through a control block of its own. -/
def exampleS0d : SState PoolDeleter (List (Option PoolDeleter × Nat)) :=
  ((SState.run (recordFx PoolDeleter) (shared_ptr.init [])
    [SOp.ctor 28672 4128, SOp.ctor 28704 8192]).getD (shared_ptr.init []))

/-! ## PoolDeleter and the pool factories -/

/-- What the pool-aware code does to payloads and pools, as observable events:
the payload constructor ran at `p` (placement new), the payload destructor ran on `p`
(`ptr->~T()`), `deallocate(p)` was called on the pool object at address `pool`, and the
memory at `p` was given to `operator delete` (the second half of `delete p`). -/
inductive PoolEvent where
  | constructed (p : Nat)
  | destructed (p : Nat)
  | deallocated (pool p : Nat)
  | freed (p : Nat)
  deriving DecidableEq, Repr

/-- The world that `PoolDeleter` and the factories act on: the `PoolAllocator` objects by
object address (a `PoolDeleter` holds such an address), the memory, and the events so
far, oldest first. -/
structure PoolWorld where
  pools : Nat → PoolAllocator
  mem : Memory
  events : List PoolEvent

/-- Memory after `bytes` were written at `a .. a + bytes.length - 1`. -/
def writeBytes (m : Memory) (a : Nat) (bytes : List Nat) : Memory :=
  fun x => if a ≤ x ∧ x < a + bytes.length then bytes.getD (x - a) 0 else m x

/-- Placement new `new (memory) T(args...)` at `a`: the constructor fills the
`sizeof(T)` bytes at `a` with the object representation `rep` that it builds from the
arguments (`rep.length` is `sizeof(T)`). -/
def construct_at (rep : List Nat) (a : Nat) (w : PoolWorld) : PoolWorld :=
  { w with mem := writeBytes w.mem a rep, events := w.events ++ [PoolEvent.constructed a] }

namespace PoolDeleter

/-- `explicit PoolDeleter(PoolAllocator& pool)`; `pool` is the address `&pool`. -/
def ctor (pool : Nat) : PoolDeleter := { m_pool := pool }

/-- `PoolDeleter()`. -/
def ctor_default : PoolDeleter := { m_pool := 0 }

/-- `void operator()(T* ptr) const`. The payload destructor is the client's code; it is
recorded as an event. -/
def call (d : PoolDeleter) (ptr : Nat) (w : PoolWorld) : PoolWorld :=
  if ptr ≠ 0 ∧ d.m_pool ≠ 0 then
    let w1 : PoolWorld := { w with events := w.events ++ [PoolEvent.destructed ptr] }
    let r := (w1.pools d.m_pool).deallocate w1.mem ptr
    { pools := Function.update w1.pools d.m_pool r.1, mem := r.2,
      events := w1.events ++ [PoolEvent.deallocated d.m_pool ptr] }
  else w

end PoolDeleter

/-- The release actions of `shared_ptr` control blocks over a `PoolWorld`: `delete p`
runs the payload destructor and frees `p`; a `PoolDeleter` is called. -/
def poolFx : Fx PoolDeleter PoolWorld :=
  { del := fun p w =>
      { w with events := w.events ++ [PoolEvent.destructed p, PoolEvent.freed p] },
    call := PoolDeleter.call }

/-- `pool.allocate()` on the pool object at address `pool`: the returned address and the
world afterwards. -/
def PoolWorld.allocate (pool : Nat) (w : PoolWorld) : Nat × PoolWorld :=
  let r := (w.pools pool).allocate w.mem
  (r.1, { w with pools := Function.update w.pools pool r.2 })

/-- `make_unique_from_pool<T>(pool, args...)`: `pool` is the address of the pool object,
`rep` the object representation that `T(args...)` builds, and the returned `unique_ptr`
is constructed at `this`. -/
def make_unique_from_pool (this pool : Nat) (rep : List Nat)
    (st : UState PoolDeleter PoolWorld) : UState PoolDeleter PoolWorld :=
  let r := st.world.allocate pool
  let st1 : UState PoolDeleter PoolWorld := { st with world := r.2 }
  if r.1 = 0 then unique_ptr.ctor_deleter this 0 (PoolDeleter.ctor pool) st1
  else
    let st2 : UState PoolDeleter PoolWorld :=
      { st1 with world := construct_at rep r.1 st1.world }
    unique_ptr.ctor_deleter this r.1 (PoolDeleter.ctor pool) st2

/-- `make_shared_from_pool<T>(pool, args...)`, the returned `shared_ptr` being constructed
at `this`. -/
def make_shared_from_pool (this pool : Nat) (rep : List Nat)
    (st : SState PoolDeleter PoolWorld) : Option (SState PoolDeleter PoolWorld) :=
  let r := st.world.allocate pool
  let st1 : SState PoolDeleter PoolWorld := { st with world := r.2 }
  if r.1 = 0 then shared_ptr.ctor this 0 st1
  else
    let st2 : SState PoolDeleter PoolWorld :=
      { st1 with world := construct_at rep r.1 st1.world }
    shared_ptr.ctor_deleter this r.1 (PoolDeleter.ctor pool) st2

/-- The world right after `PoolAllocator pool(16, 3)`, the pool object being at address
512 and its buffer at 4096; no other pool exists and nothing else has happened. -/
def exampleWorld : PoolWorld :=
  { pools := fun a =>
      if a = 512 then examplePool
      else { m_block_size := 0, m_block_count := 0, m_memory_pool := 0, m_free_list := 0 },
    mem := exampleMem, events := [] }

/-- The world `exampleWorld` after three `allocate()` calls on the pool at 512: all
three blocks are outstanding and the free list is empty. -/
def exampleWorldFull : PoolWorld :=
  (((exampleWorld.allocate 512).2.allocate 512).2.allocate 512).2

/-- A `unique_ptr` program state over `exampleWorldFull` in which no object holds
anything. -/
def exampleUFull : UState PoolDeleter PoolWorld :=
  { objs := fun _ => { m_ptr := 0, m_deleter := { m_pool := 0 } }, world := exampleWorldFull }

/-- Consecutive `make_shared_from_pool` calls on the pool at `pool`, one per entry of the
list: the object address that receives the returned `shared_ptr`, and the object
representation of the payload. -/
def make_shared_many (pool : Nat) :
    List (Nat × List Nat) → SState PoolDeleter PoolWorld → Option (SState PoolDeleter PoolWorld)
  | [], st => some st
  | r :: rs, st =>
    match make_shared_from_pool r.1 pool r.2 st with
    | none => none
    | some st1 => make_shared_many pool rs st1

/-- Consecutive `make_unique_from_pool` calls on the pool at `pool`, one per entry of the
list (object address, payload representation). -/
def make_unique_many (pool : Nat) :
    List (Nat × List Nat) → UState PoolDeleter PoolWorld → UState PoolDeleter PoolWorld
  | [], st => st
  | r :: rs, st => make_unique_many pool rs (make_unique_from_pool r.1 pool r.2 st)

/-- The existing object at `x` is the only owner of the non-null payload it holds, through
a control block whose release action is the `PoolDeleter` bound to the pool at `P`. -/
def shared_ptr.OwnsPooled (P : Nat) (st : SState PoolDeleter PoolWorld) (x : Nat) : Prop :=
  x ∈ st.live ∧ (st.objs x).m_ptr ≠ 0 ∧ 0 < (st.objs x).m_control_block ∧
  (st.objs x).m_control_block < st.next ∧
  st.heap (st.objs x).m_control_block
    = some { shared_count := 1, weak_count := 0, ptr := (st.objs x).m_ptr,
             deleter := some (PoolDeleter.ctor P) }

instance (P : Nat) (st : SState PoolDeleter PoolWorld) (x : Nat) :
    Decidable (shared_ptr.OwnsPooled P st x) := by
  unfold shared_ptr.OwnsPooled; infer_instance

/-- Three factory requests: the returned pointers are constructed at the object
addresses 28672, 28688 and 28704; every payload is 16 bytes of value 7. -/
def exampleReqs : List (Nat × List Nat) :=
  [(28672, List.replicate 16 7), (28688, List.replicate 16 7), (28704, List.replicate 16 7)]

/-! ## Raw memory: lemmas -/

theorem loadPtr_lt (m : Memory) (a : Nat) : loadPtr m a < PTR_MOD := by
  unfold loadPtr PTR_MOD
  omega

theorem loadPtr_storePtr_same (m : Memory) (a v : Nat) (hv : v < PTR_MOD) :
    loadPtr (storePtr m a v) a = v := by
  unfold PTR_MOD at hv
  simp only [loadPtr, storePtr, ptrByte, PTR_SIZE]
  simp
  omega

theorem loadPtr_storePtr_disjoint (m : Memory) (a b v : Nat) (h : WordsDisjoint a b) :
    loadPtr (storePtr m a v) b = loadPtr m b := by
  unfold WordsDisjoint PTR_SIZE at h
  have hx : ∀ k, k < 8 → storePtr m a v (b + k) = m (b + k) := by
    intro k hk
    unfold storePtr PTR_SIZE
    rw [if_neg]
    omega
  have h0 := hx 0 (by omega)
  simp only [Nat.add_zero] at h0
  simp only [loadPtr, h0, hx 1 (by omega), hx 2 (by omega), hx 3 (by omega), hx 4 (by omega),
    hx 5 (by omega), hx 6 (by omega), hx 7 (by omega)]

/-! ## PoolAllocator: the free list built by the constructor -/

namespace PoolAllocator

theorem initLoop_bounds (bs base len : Nat) :
    ∀ (n i fl : Nat) (mem : Memory) (r : Nat × Memory),
      initLoop bs base len n i fl mem = some r →
      ∀ j, i ≤ j → j < i + n → blockAddr base bs j + PTR_SIZE ≤ base + len := by
  intro n
  induction n with
  | zero => intro i fl mem r _ j h1 h2; omega
  | succ n ih =>
    intro i fl mem r h j h1 h2
    simp only [initLoop] at h
    split at h
    · rename_i hb
      rcases Nat.eq_or_lt_of_le h1 with rfl | hlt
      · exact hb
      · exact ih (i + 1) _ _ r h j hlt (by omega)
    · cases h

/-- Arithmetic behind the constructor: when every link lies inside the buffer of
`(block_size * block_count) % 2^64` bytes, no two links share a byte, even if the
offsets `i * block_size` wrapped around. -/
theorem blockAddr_disjoint (bs base N : Nat)
    (hb : ∀ j, j < N → blockAddr base bs j + PTR_SIZE ≤ base + (bs * N) % PTR_MOD)
    (i j : Nat) (hij : i < j) (hj : j < N) :
    WordsDisjoint (blockAddr base bs i) (blockAddr base bs j) := by
  have hi := hb i (by omega)
  have hk := hb (j - i) (by omega)
  have hk' := hb (N - (j - i)) (by omega)
  have hjb := hb j hj
  have e1 : (j * bs) % PTR_MOD = ((i * bs) % PTR_MOD + ((j - i) * bs) % PTR_MOD) % PTR_MOD := by
    rw [← Nat.add_mod, ← Nat.add_mul]
    congr 2
    omega
  have e2 : (bs * N) % PTR_MOD
      = (((N - (j - i)) * bs) % PTR_MOD + ((j - i) * bs) % PTR_MOD) % PTR_MOD := by
    rw [← Nat.add_mod, ← Nat.add_mul, Nat.mul_comm]
    congr 2
    omega
  unfold WordsDisjoint
  unfold blockAddr at *
  generalize (i * bs) % PTR_MOD = x at *
  generalize (j * bs) % PTR_MOD = y at *
  generalize ((j - i) * bs) % PTR_MOD = d at *
  generalize ((N - (j - i)) * bs) % PTR_MOD = z at *
  generalize (bs * N) % PTR_MOD = len at *
  unfold PTR_SIZE at *
  unfold PTR_MOD at *
  omega

theorem isFreeList_storePtr (mem : Memory) (a v : Nat) :
    ∀ (l : List Nat) (head : Nat), IsFreeList mem head l → (∀ b ∈ l, WordsDisjoint a b) →
      IsFreeList (storePtr mem a v) head l := by
  intro l
  induction l with
  | nil => intro head h _; exact h
  | cons b l ih =>
    intro head h hd
    obtain ⟨h1, h2, h3⟩ := h
    refine ⟨h1, h2, ?_⟩
    rw [loadPtr_storePtr_disjoint mem a b v (hd b (List.mem_cons_self _ _))]
    exact ih _ h3 (fun c hc => hd c (List.mem_cons_of_mem _ hc))

theorem isFreeList_unique (mem : Memory) :
    ∀ (l l' : List Nat) (head : Nat), IsFreeList mem head l → IsFreeList mem head l' → l = l' := by
  intro l
  induction l with
  | nil =>
    intro l' head h h'
    cases l' with
    | nil => rfl
    | cons b l' => exact absurd (h'.1 ▸ h) h'.2.1
  | cons a l ih =>
    intro l' head h h'
    cases l' with
    | nil => exact absurd (h.1 ▸ h') h.2.1
    | cons b l' =>
      have hab : a = b := h.1.symm.trans h'.1
      subst hab
      rw [ih l' _ h.2.2 h'.2.2]

theorem initLoop_freeList (bs base len : Nat) :
    ∀ (n i fl : Nat) (mem : Memory) (rest : List Nat) (fl' : Nat) (mem' : Memory),
      initLoop bs base len n i fl mem = some (fl', mem') →
      IsFreeList mem fl rest → fl < PTR_MOD →
      (∀ j, i ≤ j → j < i + n → blockAddr base bs j ≠ 0 ∧ blockAddr base bs j < PTR_MOD) →
      (∀ j, i ≤ j → j < i + n → ∀ b ∈ rest, WordsDisjoint (blockAddr base bs j) b) →
      (∀ a b, i ≤ a → a < b → b < i + n →
        WordsDisjoint (blockAddr base bs a) (blockAddr base bs b)) →
      IsFreeList mem' fl' (((List.range' i n).map (blockAddr base bs)).reverse ++ rest) := by
  intro n
  induction n with
  | zero =>
    intro i fl mem rest fl' mem' h hfl _ _ _ _
    simp only [initLoop, Option.some.injEq, Prod.mk.injEq] at h
    obtain ⟨rfl, rfl⟩ := h
    simpa using hfl
  | succ n ih =>
    intro i fl mem rest fl' mem' h hfl hlt hnz hrest hpair
    simp only [initLoop] at h
    split at h
    · have key := ih (i + 1) (blockAddr base bs i) (storePtr mem (blockAddr base bs i) fl)
        (blockAddr base bs i :: rest) fl' mem' h
        ⟨rfl, (hnz i (le_refl _) (by omega)).1, by
          rw [loadPtr_storePtr_same _ _ _ hlt]
          exact isFreeList_storePtr mem _ _ rest fl hfl (hrest i (le_refl _) (by omega))⟩
        (hnz i (le_refl _) (by omega)).2
        (fun j h1 h2 => hnz j (by omega) (by omega))
        (fun j h1 h2 b hb => by
          rcases List.mem_cons.1 hb with rfl | hb
          · have := hpair i j (le_refl _) (by omega) (by omega)
            unfold WordsDisjoint at *
            omega
          · exact hrest j (by omega) (by omega) b hb)
        (fun a b h1 h2 h3 => hpair a b (by omega) h2 (by omega))
      simpa [List.range'_succ, List.append_assoc] using key
    · cases h

/-- What a successful construction establishes: the fields are set, the free list holds
the blocks in descending index order, every link lies inside the buffer. -/
theorem new_spec (bs N base : Nat) (mem : Memory) (p : PoolAllocator) (mem' : Memory)
    (h : PoolAllocator.new bs N base mem = some (p, mem')) :
    p.m_block_size = bs ∧ p.m_block_count = N ∧ p.m_memory_pool = base ∧ 0 < base ∧
    (∀ j, j < N → blockAddr base bs j + PTR_SIZE ≤ base + (bs * N) % PTR_MOD) ∧
    base + (bs * N) % PTR_MOD ≤ PTR_MOD ∧
    IsFreeList mem' p.m_free_list (blocks base bs N).reverse := by
  unfold PoolAllocator.new at h
  simp only at h
  split at h
  · cases h
  · rename_i hc
    have hc' : 0 < base ∧ base + (bs * N) % PTR_MOD ≤ PTR_MOD := by omega
    split at h
    · cases h
    · rename_i fl m2 hloop
      simp only [Option.some.injEq, Prod.mk.injEq] at h
      obtain ⟨rfl, rfl⟩ := h
      have hb : ∀ j, j < N → blockAddr base bs j + PTR_SIZE ≤ base + (bs * N) % PTR_MOD :=
        fun j hj => initLoop_bounds bs base _ N 0 0 mem _ hloop j (Nat.zero_le _) (by omega)
      refine ⟨rfl, rfl, rfl, hc'.1, hb, hc'.2, ?_⟩
      have key := initLoop_freeList bs base _ N 0 0 mem [] fl m2 hloop rfl
        (by unfold PTR_MOD; omega)
        (fun j _ hj => by
          have := hb j (by omega)
          unfold blockAddr PTR_SIZE at *
          omega)
        (fun _ _ _ b hb' => by cases hb')
        (fun a b _ hab hbN => blockAddr_disjoint bs base N hb a b hab (by omega))
      simpa [blocks, List.range_eq_range'] using key

/-- Construction succeeds whenever the blocks can hold a link, the buffer size does not
overflow and the buffer returned by operator new lies in the address space. -/
theorem new_isSome (bs N base : Nat) (mem : Memory) (hW : PTR_SIZE ≤ bs) (hbase : 0 < base)
    (hfit : base + bs * N ≤ PTR_MOD) : (PoolAllocator.new bs N base mem).isSome = true := by
  have hlen : (bs * N) % PTR_MOD = bs * N := Nat.mod_eq_of_lt (by omega)
  have hloop : ∀ (n i fl : Nat) (m : Memory), i + n ≤ N →
      (initLoop bs base (bs * N) n i fl m).isSome = true := by
    intro n
    induction n with
    | zero => intro i fl m _; rfl
    | succ n ih =>
      intro i fl m hin
      simp only [initLoop]
      have h1 : (i + 1) * bs ≤ bs * N := by
        rw [Nat.mul_comm bs N]
        exact Nat.mul_le_mul_right bs (by omega)
      have h2 : (i * bs) % PTR_MOD = i * bs := Nat.mod_eq_of_lt (by
        have : i * bs ≤ (i + 1) * bs := Nat.mul_le_mul_right bs (by omega)
        omega)
      rw [if_pos]
      · exact ih (i + 1) _ _ (by omega)
      · unfold blockAddr
        rw [h2]
        rw [Nat.add_mul] at h1
        omega
  unfold PoolAllocator.new
  simp only [hlen]
  rw [if_neg (by omega)]
  have := hloop N 0 0 mem (by omega)
  revert this
  cases initLoop bs base (bs * N) N 0 0 mem with
  | none => intro h; cases h
  | some r => intro _; rfl

theorem allocateMany_freeList (mem : Memory) :
    ∀ (l : List Nat) (p : PoolAllocator), IsFreeList mem p.m_free_list l →
      allocateMany mem l.length p = (l, { p with m_free_list := 0 }) := by
  intro l
  induction l with
  | nil =>
    intro p h
    have h0 : p.m_free_list = 0 := h
    cases p
    simp only at h0
    subst h0
    rfl
  | cons a l ih =>
    intro p h
    obtain ⟨h1, h2, h3⟩ := h
    have hne : p.m_free_list ≠ 0 := h1 ▸ h2
    simp only [List.length_cons, allocateMany, allocate, if_neg hne]
    rw [ih _ (by simpa [h1] using h3)]
    simp [h1]

/-- C1 (pool capacity). On every pool that `PoolAllocator(block_size, N)` constructed,
the first `N` consecutive `allocate()` calls all return a non-null address and the
`(N+1)`-th call returns null. (A construction with `N ≥ 1` only succeeds when a block
holds a link, so `block_size ≥ PTR_SIZE` needs no separate mention.) -/
theorem pool_capacity (block_size N base : Nat) (mem : Memory) (p : PoolAllocator)
    (mem' : Memory) (h : PoolAllocator.new block_size N base mem = some (p, mem')) :
    (allocateMany mem' N p).1.length = N ∧
    (∀ a ∈ (allocateMany mem' N p).1, a ≠ 0) ∧
    ((allocateMany mem' N p).2.allocate mem').1 = 0 := by
  obtain ⟨_, _, _, hbase, _, _, hfl⟩ := new_spec block_size N base mem p mem' h
  have hlen : (blocks base block_size N).reverse.length = N := by simp [blocks]
  have hrun := allocateMany_freeList mem' _ p hfl
  rw [hlen] at hrun
  rw [hrun]
  refine ⟨hlen, ?_, ?_⟩
  · intro a ha
    simp only [blocks, List.mem_reverse, List.mem_map] at ha
    obtain ⟨j, _, rfl⟩ := ha
    unfold blockAddr
    omega
  · simp [allocate]

/-- C1, at a concrete pool: three blocks of 16 bytes at address 4096. -/
theorem pool_capacity_witness :
    PoolAllocator.new 16 3 4096 (fun _ => 0) = some (examplePool, exampleMem) ∧
    (allocateMany exampleMem 3 examplePool).1.length = 3 ∧
    (∀ a ∈ (allocateMany exampleMem 3 examplePool).1, a ≠ 0) ∧
    ((allocateMany exampleMem 3 examplePool).2.allocate exampleMem).1 = 0 :=
  ⟨rfl, pool_capacity 16 3 4096 (fun _ => 0) examplePool exampleMem rfl⟩

/-- `deallocate(a)` followed by `allocate()`, in any allocator state and for any
non-null `a`: the call returns `a` and restores the allocator; a free list none of whose
link words overlaps the link word at `a` is the same list afterwards. -/
theorem dealloc_alloc (p : PoolAllocator) (mem : Memory) (a : Nat) (ha : a ≠ 0)
    (hp : p.m_free_list < PTR_MOD) :
    ((p.deallocate mem a).1.allocate (p.deallocate mem a).2).1 = a ∧
    ((p.deallocate mem a).1.allocate (p.deallocate mem a).2).2 = p ∧
    ∀ l, IsFreeList mem p.m_free_list l → (∀ b ∈ l, WordsDisjoint a b) →
      IsFreeList (p.deallocate mem a).2
        ((p.deallocate mem a).1.allocate (p.deallocate mem a).2).2.m_free_list l := by
  have hd : p.deallocate mem a
      = ({ p with m_free_list := a }, storePtr mem a p.m_free_list) := by
    simp [deallocate, ha]
  rw [hd]
  have hal : allocate { p with m_free_list := a } (storePtr mem a p.m_free_list) = (a, p) := by
    simp only [allocate, if_neg ha, loadPtr_storePtr_same _ _ _ hp]
  rw [hal]
  refine ⟨rfl, rfl, ?_⟩
  intro l hl hdis
  exact isFreeList_storePtr mem a _ l _ hl hdis

end PoolAllocator

/-! ## PoolAllocator: sequences of calls -/

namespace PoolState

open PoolAllocator

theorem wordsDisjoint_symm {a b : Nat} (h : WordsDisjoint a b) : WordsDisjoint b a :=
  Or.symm h

/-- Facts about the block addresses of a constructed pool. -/
theorem blocks_facts (bs N base : Nat) (mem : Memory) (p : PoolAllocator) (mem' : Memory)
    (h : PoolAllocator.new bs N base mem = some (p, mem')) :
    (∀ b ∈ blocks base bs N, b ≠ 0 ∧ b < PTR_MOD) ∧
    (blocks base bs N).Pairwise WordsDisjoint := by
  obtain ⟨_, _, _, hbase, hb, hfit, _⟩ := new_spec bs N base mem p mem' h
  constructor
  · intro b hb'
    simp only [blocks, List.mem_map, List.mem_range] at hb'
    obtain ⟨j, hj, rfl⟩ := hb'
    have := hb j hj
    unfold blockAddr PTR_SIZE at *
    omega
  · unfold blocks
    rw [List.pairwise_map]
    have hlt : (List.range N).Pairwise (fun a b => a < b) := List.pairwise_lt_range N
    have hmem : ∀ x ∈ List.range N, x < N := fun x hx => List.mem_range.1 hx
    revert hmem hlt
    generalize List.range N = L
    intro hlt hmem
    induction L with
    | nil => exact List.Pairwise.nil
    | cons x L ih =>
      rw [List.pairwise_cons] at hlt ⊢
      refine ⟨fun y hy => ?_, ih hlt.2 (fun z hz => hmem z (List.mem_cons_of_mem _ hz))⟩
      exact blockAddr_disjoint bs base N hb x y (hlt.1 y hy)
        (hmem y (List.mem_cons_of_mem _ hy))

theorem nodup_of_pairwise_wordsDisjoint {l : List Nat} (h : l.Pairwise WordsDisjoint) :
    l.Nodup := by
  unfold List.Nodup
  refine h.imp ?_
  intro a b hab heq
  subst heq
  unfold WordsDisjoint PTR_SIZE at hab
  omega

theorem isFreeList_head_lt (mem : Memory) (head : Nat) (l : List Nat)
    (h : IsFreeList mem head l) (hl : ∀ b ∈ l, b < PTR_MOD) : head < PTR_MOD := by
  cases l with
  | nil =>
    have h0 : head = 0 := h
    subst h0
    unfold PTR_MOD
    omega
  | cons a l => exact h.1 ▸ hl a (List.mem_cons_self _ _)

/-- One admissible call preserves the split of the blocks. -/
theorem inv_step (base bs N : Nat)
    (hnz : ∀ b ∈ blocks base bs N, b ≠ 0 ∧ b < PTR_MOD)
    (hpw : (blocks base bs N).Pairwise WordsDisjoint)
    (s : PoolState) (op : PoolOp) (hinv : Inv base bs N s)
    (hop : ∀ ptr, op = PoolOp.dealloc ptr → ptr = 0 ∨ ptr ∈ s.outstanding) :
    Inv base bs N (s.step op) := by
  obtain ⟨l, hfl, hperm⟩ := hinv
  have hmemB : ∀ b, b ∈ l ++ s.outstanding → b ∈ blocks base bs N :=
    fun b hb => hperm.subset hb
  cases op with
  | alloc =>
    cases l with
    | nil =>
      have h0 : s.pool.m_free_list = 0 := hfl
      refine ⟨[], ?_, ?_⟩
      · simp only [step, allocate, h0, if_true]
        rfl
      · simpa [step, allocate, h0] using hperm
    | cons a l =>
      obtain ⟨h1, h2, h3⟩ := hfl
      have hne : s.pool.m_free_list ≠ 0 := h1 ▸ h2
      refine ⟨l, ?_, ?_⟩
      · simp only [step, allocate, if_neg hne]
        simpa [h1] using h3
      · simp only [step, allocate, if_neg hne, h1, if_neg h2]
        exact List.perm_middle.trans hperm
  | dealloc ptr =>
    rcases hop ptr rfl with h0 | hmem
    · subst h0
      have hnot : (0 : Nat) ∉ s.outstanding := fun hc =>
        (hnz 0 (hmemB 0 (List.mem_append_right _ hc))).1 rfl
      refine ⟨l, ?_, ?_⟩
      · simpa [step, deallocate] using hfl
      · simpa [step, deallocate, List.erase_of_not_mem hnot] using hperm
    · have hptr := hnz ptr (hmemB ptr (List.mem_append_right _ hmem))
      have hpw' : (l ++ s.outstanding).Pairwise WordsDisjoint :=
        hperm.symm.pairwise hpw (fun h => wordsDisjoint_symm h)
      have hdis : ∀ b ∈ l, WordsDisjoint ptr b := by
        intro b hb
        have := (List.pairwise_append.1 hpw').2.2 b hb ptr hmem
        exact wordsDisjoint_symm this
      have hhead : s.pool.m_free_list < PTR_MOD :=
        isFreeList_head_lt _ _ l hfl
          (fun b hb => (hnz b (hmemB b (List.mem_append_left _ hb))).2)
      refine ⟨ptr :: l, ?_, ?_⟩
      · simp only [step, deallocate, if_neg hptr.1]
        refine ⟨rfl, hptr.1, ?_⟩
        rw [loadPtr_storePtr_same _ _ _ hhead]
        exact isFreeList_storePtr _ _ _ l _ hfl hdis
      · simp only [step, deallocate, if_neg hptr.1]
        have h1 : List.Perm (ptr :: l ++ s.outstanding.erase ptr)
            (l ++ ptr :: s.outstanding.erase ptr) := List.perm_middle.symm
        have h2 : List.Perm (l ++ ptr :: s.outstanding.erase ptr) (l ++ s.outstanding) :=
          List.Perm.append_left l (List.perm_cons_erase hmem).symm
        exact (h1.trans h2).trans hperm

/-- Every prefix of an admissible sequence of calls preserves the split of the blocks. -/
theorem inv_run (base bs N : Nat)
    (hnz : ∀ b ∈ blocks base bs N, b ≠ 0 ∧ b < PTR_MOD)
    (hpw : (blocks base bs N).Pairwise WordsDisjoint) :
    ∀ (ops : List PoolOp) (s : PoolState), Inv base bs N s → Admissible s ops →
      ∀ k, Inv base bs N (s.run (ops.take k)) := by
  intro ops
  induction ops with
  | nil => intro s hinv _ k; simpa [run] using hinv
  | cons op ops ih =>
    intro s hinv hadm k
    cases k with
    | zero => simpa [run] using hinv
    | succ k =>
      have hstep : Inv base bs N (s.step op) ∧ Admissible (s.step op) ops := by
        cases op with
        | alloc =>
          exact ⟨inv_step base bs N hnz hpw s _ hinv (fun _ h => by cases h), hadm⟩
        | dealloc ptr =>
          exact ⟨inv_step base bs N hnz hpw s _ hinv
            (fun q h => by cases h; exact hadm.1), hadm.2⟩
      have := ih (s.step op) hstep.1 hstep.2 k
      simpa [run] using this

/-- The state right after a successful construction satisfies the invariant. -/
theorem inv_fresh (bs N base : Nat) (mem : Memory) (p : PoolAllocator) (mem' : Memory)
    (h : PoolAllocator.new bs N base mem = some (p, mem')) :
    Inv base bs N (fresh p mem') := by
  obtain ⟨_, _, _, _, _, _, hfl⟩ := new_spec bs N base mem p mem' h
  exact ⟨(blocks base bs N).reverse, hfl, by simp [fresh]⟩

theorem run_block_count : ∀ (ops : List PoolOp) (s : PoolState),
    (s.run ops).pool.m_block_count = s.pool.m_block_count := by
  intro ops
  induction ops with
  | nil => intro s; rfl
  | cons op ops ih =>
    intro s
    have e : s.run (op :: ops) = (s.step op).run ops := rfl
    rw [e, ih]
    cases op with
    | alloc =>
      simp only [step, allocate]
      split <;> rfl
    | dealloc ptr =>
      simp only [step, deallocate]
      split <;> rfl

/-- C2 (pool reuse, LIFO). In every allocator state (with a 64-bit `m_free_list`) and
for every non-null address `a`, `deallocate(a)` followed by `allocate()` returns exactly
`a` and leaves the allocator, in particular `m_free_list`, as it was before the
`deallocate`. Moreover, in every state that a constructed pool reaches by calls that
respect the caller's obligation, every outstanding address `a` (returned by `allocate()`
and not given back) is non-null, and the free list after `deallocate(a); allocate()` is
the same list of blocks as before the `deallocate(a)`. -/
theorem pool_reuse_lifo :
    (∀ (p : PoolAllocator) (mem : Memory) (a : Nat), a ≠ 0 → p.m_free_list < PTR_MOD →
      ((p.deallocate mem a).1.allocate (p.deallocate mem a).2).1 = a ∧
      ((p.deallocate mem a).1.allocate (p.deallocate mem a).2).2 = p) ∧
    (∀ (block_size N base : Nat) (mem0 : Memory) (p0 : PoolAllocator) (mem0' : Memory)
      (ops : List PoolOp),
      PoolAllocator.new block_size N base mem0 = some (p0, mem0') →
      Admissible (fresh p0 mem0') ops →
      ∀ a ∈ ((fresh p0 mem0').run ops).outstanding,
        a ≠ 0 ∧
        ((((fresh p0 mem0').run ops).pool.deallocate ((fresh p0 mem0').run ops).mem a).1.allocate
          (((fresh p0 mem0').run ops).pool.deallocate ((fresh p0 mem0').run ops).mem a).2).1
          = a ∧
        ∃ l, IsFreeList ((fresh p0 mem0').run ops).mem
            ((fresh p0 mem0').run ops).pool.m_free_list l ∧
          IsFreeList
            (((fresh p0 mem0').run ops).pool.deallocate ((fresh p0 mem0').run ops).mem a).2
            ((((fresh p0 mem0').run ops).pool.deallocate
                ((fresh p0 mem0').run ops).mem a).1.allocate
              (((fresh p0 mem0').run ops).pool.deallocate
                ((fresh p0 mem0').run ops).mem a).2).2.m_free_list l) := by
  constructor
  · intro p mem a ha hp
    exact ⟨(dealloc_alloc p mem a ha hp).1, (dealloc_alloc p mem a ha hp).2.1⟩
  · intro bs N base mem0 p0 mem0' ops hnew hadm a ha
    obtain ⟨hnz, hpw⟩ := blocks_facts bs N base mem0 p0 mem0' hnew
    have hinv0 := inv_fresh bs N base mem0 p0 mem0' hnew
    have hinv := inv_run base bs N hnz hpw ops _ hinv0 hadm ops.length
    rw [List.take_length] at hinv
    obtain ⟨l, hl, hperm⟩ := hinv
    have hmemB : ∀ b, b ∈ l ++ ((fresh p0 mem0').run ops).outstanding →
        b ∈ blocks base bs N := fun b hb => hperm.subset hb
    have hane := (hnz a (hmemB a (List.mem_append_right _ ha))).1
    have hpw' : (l ++ ((fresh p0 mem0').run ops).outstanding).Pairwise WordsDisjoint :=
      hperm.symm.pairwise hpw (fun h => wordsDisjoint_symm h)
    have hdis : ∀ b ∈ l, WordsDisjoint a b := fun b hb =>
      wordsDisjoint_symm ((List.pairwise_append.1 hpw').2.2 b hb a ha)
    have hhead := isFreeList_head_lt _ _ l hl
      (fun b hb => (hnz b (hmemB b (List.mem_append_left _ hb))).2)
    obtain ⟨h1, _, h3⟩ := dealloc_alloc _ ((fresh p0 mem0').run ops).mem a hane hhead
    exact ⟨hane, h1, l, hl, h3 l hl hdis⟩

/-- C2, at concrete inputs: in the pool of three blocks after two allocations
(`m_free_list = 4096`) block 4128 is given back and handed out again; and in the state
after `exampleOps` the outstanding block 4128 is given back and handed out again. -/
theorem pool_reuse_lifo_witness :
    (((4128 : Nat) ≠ 0 ∧ ({ examplePool with m_free_list := 4096 } : PoolAllocator).m_free_list
        < PTR_MOD) ∧
      ((({ examplePool with m_free_list := 4096 } : PoolAllocator).deallocate
          exampleMem 4128).1.allocate
        (({ examplePool with m_free_list := 4096 } : PoolAllocator).deallocate
          exampleMem 4128).2).1 = 4128 ∧
      ((({ examplePool with m_free_list := 4096 } : PoolAllocator).deallocate
          exampleMem 4128).1.allocate
        (({ examplePool with m_free_list := 4096 } : PoolAllocator).deallocate
          exampleMem 4128).2).2 = { examplePool with m_free_list := 4096 }) ∧
    ((PoolAllocator.new 16 3 4096 (fun _ => 0) = some (examplePool, exampleMem) ∧
        Admissible (fresh examplePool exampleMem) exampleOps ∧
        4128 ∈ ((fresh examplePool exampleMem).run exampleOps).outstanding) ∧
      ((((fresh examplePool exampleMem).run exampleOps).pool.deallocate
          ((fresh examplePool exampleMem).run exampleOps).mem 4128).1.allocate
        (((fresh examplePool exampleMem).run exampleOps).pool.deallocate
          ((fresh examplePool exampleMem).run exampleOps).mem 4128).2).1 = 4128) :=
  ⟨⟨⟨by decide, by decide⟩,
    pool_reuse_lifo.1 { examplePool with m_free_list := 4096 } exampleMem 4128 (by decide)
      (by decide)⟩,
   ⟨⟨rfl, by decide, by decide⟩,
    (pool_reuse_lifo.2 16 3 4096 (fun _ => 0) examplePool exampleMem exampleOps rfl
      (by decide) 4128 (by decide)).2.1⟩⟩

/-- C3 (pool conservation). On a constructed pool, after every step of every sequence
of `allocate()` / `deallocate()` calls in which each `deallocate` is given null or a
currently outstanding address, the free list holds no address twice, no address is
outstanding twice, and the number of outstanding blocks plus the length of the free
list is `block_count`. -/
theorem pool_conservation (block_size N base : Nat) (mem : Memory) (p : PoolAllocator)
    (mem' : Memory) (h : PoolAllocator.new block_size N base mem = some (p, mem'))
    (ops : List PoolOp) (hadm : Admissible (fresh p mem') ops) (k : Nat) :
    ∃ l, IsFreeList ((fresh p mem').run (ops.take k)).mem
        ((fresh p mem').run (ops.take k)).pool.m_free_list l ∧
      l.Nodup ∧ ((fresh p mem').run (ops.take k)).outstanding.Nodup ∧
      ((fresh p mem').run (ops.take k)).outstanding.length + l.length = N ∧
      ((fresh p mem').run (ops.take k)).pool.m_block_count = N := by
  obtain ⟨hnz, hpw⟩ := blocks_facts block_size N base mem p mem' h
  obtain ⟨_, hcount, _, _, _, _, _⟩ := new_spec block_size N base mem p mem' h
  have hinv0 := inv_fresh block_size N base mem p mem' h
  obtain ⟨l, hl, hperm⟩ := inv_run base block_size N hnz hpw ops _ hinv0 hadm k
  have hnd : (l ++ ((fresh p mem').run (ops.take k)).outstanding).Nodup :=
    hperm.symm.nodup (nodup_of_pairwise_wordsDisjoint hpw)
  refine ⟨l, hl, (List.nodup_append.1 hnd).1, (List.nodup_append.1 hnd).2.1, ?_, ?_⟩
  · have := hperm.length_eq
    simp only [List.length_append, blocks, List.length_map, List.length_range] at this
    omega
  · rw [run_block_count]
    exact hcount

/-- C3, at a concrete run: a pool of three 16-byte blocks at 4096; two allocations,
the first block given back, null given back, one more allocation. -/
theorem pool_conservation_witness :
    (PoolAllocator.new 16 3 4096 (fun _ => 0) = some (examplePool, exampleMem) ∧
      Admissible (fresh examplePool exampleMem) exampleOps) ∧
    ∃ l, IsFreeList ((fresh examplePool exampleMem).run (exampleOps.take 3)).mem
        ((fresh examplePool exampleMem).run (exampleOps.take 3)).pool.m_free_list l ∧
      l.Nodup ∧ ((fresh examplePool exampleMem).run (exampleOps.take 3)).outstanding.Nodup ∧
      ((fresh examplePool exampleMem).run (exampleOps.take 3)).outstanding.length
        + l.length = 3 ∧
      ((fresh examplePool exampleMem).run (exampleOps.take 3)).pool.m_block_count = 3 :=
  ⟨⟨rfl, by decide⟩,
   pool_conservation 16 3 4096 (fun _ => 0) examplePool exampleMem rfl exampleOps
     (by decide) 3⟩

end PoolState

/-! ## unique_ptr -/

namespace unique_ptr

variable {D σ : Type}

@[simp] theorem set_objs_same (st : UState D σ) (a : Nat) (v : unique_ptr D) :
    (st.set a v).objs a = v := by
  simp [UState.set]

@[simp] theorem set_objs_other (st : UState D σ) (a b : Nat) (v : unique_ptr D) (h : b ≠ a) :
    (st.set a v).objs b = st.objs b := by
  simp [UState.set, h]

@[simp] theorem set_world (st : UState D σ) (a : Nat) (v : unique_ptr D) :
    (st.set a v).world = st.world := rfl

/-- C7 (exclusive uniqueness). Move-constructing a new object `B` (at `this`) from `A`
(at `other`): afterwards `A.get()` is null and `A` tests false, `B.get()` is the address
`A` held, `B` carries the release action of `A`, and the log of release-action
invocations is unchanged. -/
theorem unique_move_ctor (this other : Nat) (st : UState D (Calls D)) (hne : this ≠ other) :
    get other (move_ctor this other st) = 0 ∧
    toBool other (move_ctor this other st) = false ∧
    get this (move_ctor this other st) = (st.objs other).m_ptr ∧
    get_deleter this (move_ctor this other st) = (st.objs other).m_deleter ∧
    (move_ctor this other st).world = st.world := by
  have hne' : other ≠ this := fun h => hne h.symm
  simp [get, toBool, get_deleter, move_ctor, UState.set, hne, hne']

/-- C7, at a concrete state: a new object at 28704 is move-constructed from the object
at 28672. -/
theorem unique_move_ctor_witness :
    (28704 : Nat) ≠ 28672 ∧
    get 28672 (move_ctor 28704 28672 exampleUState) = 0 ∧
    toBool 28672 (move_ctor 28704 28672 exampleUState) = false ∧
    get 28704 (move_ctor 28704 28672 exampleUState) = (exampleUState.objs 28672).m_ptr ∧
    get_deleter 28704 (move_ctor 28704 28672 exampleUState)
      = (exampleUState.objs 28672).m_deleter ∧
    (move_ctor 28704 28672 exampleUState).world = exampleUState.world :=
  ⟨by decide, unique_move_ctor 28704 28672 exampleUState (by decide)⟩

/-- C6 as stated fails for a self-move-assignment: the object at 28672 holds the
non-null address 4128 and is the destination of `p = std::move(p)`, yet no release
action is invoked (the log stays empty instead of receiving one entry) and the object
still holds 4128. -/
theorem unique_release_once_self_move_counterexample :
    (exampleUState.objs 28672).m_ptr ≠ 0 ∧
    (move_assign record 28672 28672 exampleUState).world = [] ∧
    ¬ ((move_assign record 28672 28672 exampleUState).world
        = exampleUState.world ++ [((exampleUState.objs 28672).m_deleter,
            (exampleUState.objs 28672).m_ptr)]) ∧
    get 28672 (move_assign record 28672 28672 exampleUState) = 4128 := by
  decide

/-- C6, amended (exclusive release-once). For a `unique_ptr` holding address `a` with
release action `d`: destruction and `reset(new_address)` append exactly the one call
`d(a)` to the log when `a` is non-null and nothing when `a` is null, and after `reset`
`get()` is `new_address`; being the destination of a move-assignment appends exactly
the one call `d(a)` when `a` is non-null and the source is a different object, and
nothing when `a` is null or the source is the object itself (in which case the whole
state is unchanged). -/
theorem unique_release_once (this other new_address : Nat) (st : UState D (Calls D)) :
    (dtor record this st).world
      = (if (st.objs this).m_ptr ≠ 0
          then st.world ++ [((st.objs this).m_deleter, (st.objs this).m_ptr)]
          else st.world) ∧
    (reset record this new_address st).world
      = (if (st.objs this).m_ptr ≠ 0
          then st.world ++ [((st.objs this).m_deleter, (st.objs this).m_ptr)]
          else st.world) ∧
    get this (reset record this new_address st) = new_address ∧
    (move_assign record this other st).world
      = (if this ≠ other ∧ (st.objs this).m_ptr ≠ 0
          then st.world ++ [((st.objs this).m_deleter, (st.objs this).m_ptr)]
          else st.world) ∧
    move_assign record this this st = st := by
  refine ⟨?_, ?_, ?_, ?_, ?_⟩
  · unfold dtor
    split <;> simp [record]
  · unfold reset
    split <;> simp [record]
  · simp [get, reset]
  · unfold move_assign
    by_cases h : this = other
    · simp [h]
    · by_cases ha : (st.objs this).m_ptr = 0
      · simp [h, ha]
      · simp [h, ha, record]
  · simp [move_assign]

/-- What `d = std::move(s)` does for distinct objects, in general: the address moves
from `s` to `d`, `s` is nulled, the former address of `d` is released once when non-null,
both objects keep the release action they had. -/
theorem move_assign_distinct (this other : Nat) (st : UState D (Calls D))
    (hne : this ≠ other) :
    get this (move_assign record this other st) = (st.objs other).m_ptr ∧
    get other (move_assign record this other st) = 0 ∧
    get_deleter this (move_assign record this other st) = (st.objs this).m_deleter ∧
    get_deleter other (move_assign record this other st) = (st.objs other).m_deleter ∧
    (move_assign record this other st).world
      = (if (st.objs this).m_ptr ≠ 0
          then st.world ++ [((st.objs this).m_deleter, (st.objs this).m_ptr)]
          else st.world) := by
  have hne' : other ≠ this := fun h => hne h.symm
  by_cases ha : (st.objs this).m_ptr = 0
  · simp [get, get_deleter, move_assign, UState.set, hne, hne', ha]
  · simp [get, get_deleter, move_assign, UState.set, hne, hne', ha, record]

/-- What `a.swap(b)` does for distinct objects, in general: the addresses are exchanged,
both objects end up with the former release action of `b`, nothing is released. -/
theorem swap_distinct (this other : Nat) (st : UState D (Calls D)) (hne : this ≠ other) :
    get this (swap this other st) = (st.objs other).m_ptr ∧
    get other (swap this other st) = (st.objs this).m_ptr ∧
    get_deleter this (swap this other st) = (st.objs other).m_deleter ∧
    get_deleter other (swap this other st) = (st.objs other).m_deleter ∧
    (swap this other st).world = st.world := by
  have hne' : other ≠ this := fun h => hne h.symm
  simp [get, get_deleter, swap, UState.set, hne, hne']

/-- C8, the code at the failing input: after `d = std::move(s)` for the objects `d` at
28672 and `s` at 28688, `d` holds the former address of `s` (8192), `s` holds null and
the former address of `d` was released once by `d`'s release action, but `d` still
carries its own release action (bound to pool 512), not the one of `s` (bound to pool
768); destroying `d` then hands block 8192 to the release action bound to pool 512. -/
theorem unique_move_assign_keeps_deleter :
    get 28672 (move_assign record 28672 28688 exampleUState) = 8192 ∧
    get 28688 (move_assign record 28672 28688 exampleUState) = 0 ∧
    (move_assign record 28672 28688 exampleUState).world = [({ m_pool := 512 }, 4128)] ∧
    get_deleter 28672 (move_assign record 28672 28688 exampleUState) = { m_pool := 512 } ∧
    (exampleUState.objs 28688).m_deleter = { m_pool := 768 } ∧
    (dtor record 28672 (move_assign record 28672 28688 exampleUState)).world
      = [({ m_pool := 512 }, 4128), ({ m_pool := 512 }, 8192)] := by
  decide

/-- C9, the code at the failing input: after `a.swap(b)` for the objects `a` at 28672
and `b` at 28688, the addresses are exchanged and `a` carries the former release action
of `b`, but `b` carries its own former release action (bound to pool 768) and not the
one of `a` (bound to pool 512), which is lost; no release action is invoked. -/
theorem unique_swap_loses_deleter :
    get 28672 (swap 28672 28688 exampleUState) = 8192 ∧
    get 28688 (swap 28672 28688 exampleUState) = 4128 ∧
    get_deleter 28672 (swap 28672 28688 exampleUState) = { m_pool := 768 } ∧
    get_deleter 28688 (swap 28672 28688 exampleUState) = { m_pool := 768 } ∧
    (exampleUState.objs 28672).m_deleter = { m_pool := 512 } ∧
    (swap 28672 28688 exampleUState).world = exampleUState.world := by
  decide

/-- C10 (exclusive `release()`). For a `unique_ptr` holding address `a`: `release()`
returns `a`, afterwards `get()` is null and the boolean test is false, the stored
release action is unchanged, the log of release-action invocations is unchanged, and a
subsequent destruction leaves the log unchanged as well. -/
theorem unique_release (this : Nat) (st : UState D (Calls D)) :
    (release this st).1 = (st.objs this).m_ptr ∧
    get this (release this st).2 = 0 ∧
    toBool this (release this st).2 = false ∧
    get_deleter this (release this st).2 = (st.objs this).m_deleter ∧
    (release this st).2.world = st.world ∧
    (dtor record this (release this st).2).world = st.world := by
  simp [release, get, toBool, get_deleter, dtor, UState.set]

end unique_ptr

/-! ## shared_ptr: counting owners -/

namespace SState

variable {D σ : Type}

theorem countP_split (l : List Nat) (x : Nat) (hx : x ∈ l) (p : Nat → Bool) :
    l.countP p = (l.erase x).countP p + if p x then 1 else 0 := by
  rw [(List.perm_cons_erase hx).countP_eq p, List.countP_cons]

/-- A duplicate-free list of valid object addresses is shorter than `2 ^ 64`. -/
theorem length_lt_of_addr (l : List Nat) (hnd : l.Nodup)
    (h : ∀ x ∈ l, 0 < x ∧ x < PTR_MOD) : l.length < PTR_MOD := by
  have hsub : l.toFinset ⊆ Finset.Ico 1 PTR_MOD := by
    intro x hx
    have := h x (List.mem_toFinset.1 hx)
    exact Finset.mem_Ico.2 ⟨this.1, this.2⟩
  have hcard := Finset.card_le_card hsub
  rw [List.toFinset_card_of_nodup hnd, Nat.card_Ico] at hcard
  have : 0 < PTR_MOD := by unfold PTR_MOD; omega
  omega

/-- The objects that refer to `c`, counted with the object `x` taken out. -/
theorem refs_split (st : SState D σ) (x : Nat) (hx : x ∈ st.live) (c : Nat) :
    st.refs c = (st.live.erase x).countP (fun y => decide ((st.objs y).m_control_block = c))
      + if (st.objs x).m_control_block = c then 1 else 0 := by
  unfold refs
  rw [countP_split st.live x hx]
  simp

theorem refs_le_length (st : SState D σ) (c : Nat) : st.refs c ≤ st.live.length :=
  List.countP_le_length _

/-- When the object `x` does not refer to `c`, fewer than all objects do. -/
theorem refs_lt_length (st : SState D σ) (x : Nat) (hx : x ∈ st.live) (c : Nat)
    (hc : (st.objs x).m_control_block ≠ c) : st.refs c < st.live.length := by
  rw [refs_split st x hx c, if_neg hc]
  have h1 : (st.live.erase x).countP (fun y => decide ((st.objs y).m_control_block = c))
      ≤ (st.live.erase x).length := List.countP_le_length _
  have h2 : (st.live.erase x).length = st.live.length - 1 := List.length_erase_of_mem hx
  have h3 : 0 < st.live.length := List.length_pos_of_mem hx
  omega

/-- States with the same objects, whose control-block members agree except at `x`. -/
theorem refs_change_one (st st' : SState D σ) (x : Nat) (hx : x ∈ st.live)
    (hnd : st.live.Nodup) (hlive : st'.live = st.live)
    (hobjs : ∀ y ∈ st.live, y ≠ x →
      (st'.objs y).m_control_block = (st.objs y).m_control_block) (c : Nat) :
    st'.refs c + (if (st.objs x).m_control_block = c then 1 else 0)
      = st.refs c + (if (st'.objs x).m_control_block = c then 1 else 0) := by
  rw [refs_split st x hx c, refs_split st' x (hlive ▸ hx) c, hlive]
  have : (st.live.erase x).countP (fun y => decide ((st'.objs y).m_control_block = c))
      = (st.live.erase x).countP (fun y => decide ((st.objs y).m_control_block = c)) := by
    apply List.countP_congr
    intro y hy
    have hy' := (List.Nodup.mem_erase_iff hnd).1 hy
    simp [hobjs y hy'.2 hy'.1]
  omega

/-- Well-formedness only looks at the objects that exist and at their control-block
members. -/
theorem WF.congr {st st' : SState D σ} (hwf : WF st) (hlive : st'.live = st.live)
    (hobjs : ∀ y ∈ st.live, (st'.objs y).m_control_block = (st.objs y).m_control_block)
    (hheap : st'.heap = st.heap) (hnext : st'.next = st.next) (htrace : st'.trace = st.trace) :
    WF st' := by
  have hrefs : ∀ c, st'.refs c = st.refs c := by
    intro c
    unfold refs
    rw [hlive]
    apply List.countP_congr
    intro y hy
    simp [hobjs y hy]
  have hdes : ∀ c, st'.destroyed c = st.destroyed c := by
    intro c
    unfold destroyed
    rw [htrace]
  refine ⟨hlive ▸ hwf.nodup, hlive ▸ hwf.addr, hnext ▸ hwf.next_pos, ?_, ?_, ?_, ?_, ?_⟩
  · intro c hc
    rw [hheap]
    exact hwf.heap_fresh c (hnext ▸ hc)
  · rw [hheap]
    exact hwf.heap_null
  · intro c hc hn
    rw [hrefs]
    exact hwf.dangling c hc (hheap ▸ hn)
  · intro c blk hb
    rw [hrefs]
    exact hwf.counts c blk (hheap ▸ hb)
  · intro c
    rw [hdes, hheap, hnext]
    exact hwf.traced c

/-- An existing control block lies below `next` and is not at the null address. -/
theorem WF.heap_some {st : SState D σ} (hwf : WF st) {c : Nat} {blk : ControlBlock D}
    (h : st.heap c = some blk) : 0 < c ∧ c < st.next := by
  constructor
  · rcases Nat.eq_zero_or_pos c with h0 | h0
    · rw [h0, hwf.heap_null] at h
      cases h
    · exact h0
  · by_contra hc
    rw [hwf.heap_fresh c (by omega)] at h
    cases h

/-- An existing object with a non-null control-block member refers to an existing
control block. -/
theorem WF.heap_of_live {st : SState D σ} (hwf : WF st) {x : Nat} (hx : x ∈ st.live)
    (hc : (st.objs x).m_control_block ≠ 0) :
    ∃ blk, st.heap (st.objs x).m_control_block = some blk := by
  cases hh : st.heap (st.objs x).m_control_block with
  | some blk => exact ⟨blk, rfl⟩
  | none =>
    have h0 := hwf.dangling _ hc hh
    have hpos : 0 < st.refs (st.objs x).m_control_block := by
      unfold refs
      rw [List.countP_pos_iff]
      exact ⟨x, hx, by simp⟩
    omega

theorem WF.init (w : σ) : WF (shared_ptr.init w : SState D σ) := by
  refine ⟨List.nodup_nil, ?_, ?_, ?_, rfl, ?_, ?_, ?_⟩
  · intro x hx
    cases hx
  · exact Nat.one_pos
  · intro c _
    rfl
  · intro c _ _
    rfl
  · intro c blk h
    cases h
  · intro c
    have h1 : ¬ (0 < c ∧ c < (shared_ptr.init w : SState D σ).next
        ∧ ((shared_ptr.init w : SState D σ).heap c).isNone) := by
      intro h
      have : (shared_ptr.init w : SState D σ).next = 1 := rfl
      omega
    rw [if_neg h1]
    rfl

theorem refs_lt_ptr_mod {st : SState D σ} (hwf : WF st) (c : Nat) : st.refs c < PTR_MOD :=
  Nat.lt_of_le_of_lt (refs_le_length st c) (length_lt_of_addr st.live hwf.nodup hwf.addr)

/-- `decrement_ref_count` in a well-formed state, for an existing object with no control
block: nothing happens. -/
theorem decrement_null (fx : Fx D σ) (st : SState D σ) (x : Nat)
    (hc : (st.objs x).m_control_block = 0) :
    shared_ptr.decrement_ref_count fx x st = some st := by
  simp [shared_ptr.decrement_ref_count, hc]

/-- `decrement_ref_count` when other owners remain: only the count changes. -/
theorem decrement_shared (fx : Fx D σ) (st : SState D σ) (x : Nat) (blk : ControlBlock D)
    (hc : (st.objs x).m_control_block ≠ 0)
    (hb : st.heap (st.objs x).m_control_block = some blk)
    (h1 : 1 < blk.shared_count) (h2 : blk.shared_count < PTR_MOD) :
    shared_ptr.decrement_ref_count fx x st
      = some
        { st with
          heap := Function.update st.heap (st.objs x).m_control_block
            (some { blk with shared_count := blk.shared_count - 1 }) } := by
  have e : (blk.shared_count + PTR_MOD - 1) % PTR_MOD = blk.shared_count - 1 := by
    unfold PTR_MOD at *
    omega
  have hne : blk.shared_count - 1 ≠ 0 := by omega
  simp [shared_ptr.decrement_ref_count, hc, hb, e, hne]

/-- `decrement_ref_count` by the last owner: the payload is destroyed, the control
block is freed (its observer count being 0) and the object is nulled. -/
theorem decrement_last (fx : Fx D σ) (st : SState D σ) (x : Nat) (blk : ControlBlock D)
    (hc : (st.objs x).m_control_block ≠ 0)
    (hb : st.heap (st.objs x).m_control_block = some blk)
    (h1 : blk.shared_count = 1) (hw : blk.weak_count = 0) :
    shared_ptr.decrement_ref_count fx x st
      = some
        { st with
          heap := Function.update st.heap (st.objs x).m_control_block none,
          objs := Function.update st.objs x { m_ptr := 0, m_control_block := 0 },
          trace := st.trace ++ [((st.objs x).m_control_block, blk.ptr)],
          world := blk.destroy_object fx st.world } := by
  have e : (blk.shared_count + PTR_MOD - 1) % PTR_MOD = 0 := by
    rw [h1]
    unfold PTR_MOD
    omega
  simp [shared_ptr.decrement_ref_count, hc, hb, e, hw, shared_ptr.set_m_control_block,
    shared_ptr.set_m_ptr, ControlBlock.destroy_object]

@[simp] theorem set_cb_live (x v : Nat) (s : SState D σ) :
    (shared_ptr.set_m_control_block x v s).live = s.live := rfl

@[simp] theorem set_cb_heap (x v : Nat) (s : SState D σ) :
    (shared_ptr.set_m_control_block x v s).heap = s.heap := rfl

@[simp] theorem set_cb_next (x v : Nat) (s : SState D σ) :
    (shared_ptr.set_m_control_block x v s).next = s.next := rfl

@[simp] theorem set_cb_trace (x v : Nat) (s : SState D σ) :
    (shared_ptr.set_m_control_block x v s).trace = s.trace := rfl

@[simp] theorem set_cb_world (x v : Nat) (s : SState D σ) :
    (shared_ptr.set_m_control_block x v s).world = s.world := rfl

@[simp] theorem set_cb_objs_same (x v : Nat) (s : SState D σ) :
    (shared_ptr.set_m_control_block x v s).objs x
      = { m_ptr := (s.objs x).m_ptr, m_control_block := v } := by
  simp [shared_ptr.set_m_control_block]

@[simp] theorem set_cb_objs_other (x v y : Nat) (s : SState D σ) (h : y ≠ x) :
    (shared_ptr.set_m_control_block x v s).objs y = s.objs y := by
  simp [shared_ptr.set_m_control_block, h]

@[simp] theorem set_ptr_live (x v : Nat) (s : SState D σ) :
    (shared_ptr.set_m_ptr x v s).live = s.live := rfl

@[simp] theorem set_ptr_heap (x v : Nat) (s : SState D σ) :
    (shared_ptr.set_m_ptr x v s).heap = s.heap := rfl

@[simp] theorem set_ptr_next (x v : Nat) (s : SState D σ) :
    (shared_ptr.set_m_ptr x v s).next = s.next := rfl

@[simp] theorem set_ptr_trace (x v : Nat) (s : SState D σ) :
    (shared_ptr.set_m_ptr x v s).trace = s.trace := rfl

@[simp] theorem set_ptr_world (x v : Nat) (s : SState D σ) :
    (shared_ptr.set_m_ptr x v s).world = s.world := rfl

@[simp] theorem set_ptr_objs_same (x v : Nat) (s : SState D σ) :
    (shared_ptr.set_m_ptr x v s).objs x
      = { m_ptr := v, m_control_block := (s.objs x).m_control_block } := by
  simp [shared_ptr.set_m_ptr]

@[simp] theorem set_ptr_objs_other (x v y : Nat) (s : SState D σ) (h : y ≠ x) :
    (shared_ptr.set_m_ptr x v s).objs y = s.objs y := by
  simp [shared_ptr.set_m_ptr, h]

/-- The state after a non-final decrement, with the object then detached from its
control block, is well formed. -/
theorem WF.detach_shared {st : SState D σ} (hwf : WF st) (x : Nat) (hx : x ∈ st.live)
    (blk : ControlBlock D) (hc : (st.objs x).m_control_block ≠ 0)
    (hb : st.heap (st.objs x).m_control_block = some blk) (h1 : 1 < blk.shared_count)
    (st' : SState D σ) (hlive : st'.live = st.live) (hnext : st'.next = st.next)
    (htrace : st'.trace = st.trace)
    (hobjs : ∀ y ∈ st.live, y ≠ x →
      (st'.objs y).m_control_block = (st.objs y).m_control_block)
    (hx' : (st'.objs x).m_control_block = 0)
    (hheap : st'.heap = Function.update st.heap (st.objs x).m_control_block
      (some { blk with shared_count := blk.shared_count - 1 })) :
    WF st' := by
  have hcnt := hwf.counts _ blk hb
  have hrefs := refs_change_one st st' x hx hwf.nodup hlive hobjs
  have hbound := hwf.heap_some hb
  refine ⟨hlive ▸ hwf.nodup, hlive ▸ hwf.addr, hnext ▸ hwf.next_pos, ?_, ?_, ?_, ?_, ?_⟩
  · intro c hcn
    rw [hheap, Function.update_noteq (by omega)]
    exact hwf.heap_fresh c (hnext ▸ hcn)
  · rw [hheap, Function.update_noteq (fun h => hc h.symm)]
    exact hwf.heap_null
  · intro c hc0 hn
    rw [hheap] at hn
    by_cases hcc : c = (st.objs x).m_control_block
    · subst hcc
      simp at hn
    · rw [Function.update_noteq hcc] at hn
      have := hwf.dangling c hc0 hn
      have := hrefs c
      rw [hx', if_neg (fun h => hcc h.symm), if_neg (fun h => hc0 h.symm)] at this
      omega
  · intro c b hcb
    rw [hheap] at hcb
    by_cases hcc : c = (st.objs x).m_control_block
    · subst hcc
      simp at hcb
      subst hcb
      have := hrefs (st.objs x).m_control_block
      rw [hx', if_pos rfl, if_neg (fun h => hc h.symm)] at this
      simp only
      omega
    · rw [Function.update_noteq hcc] at hcb
      have h3 := hwf.counts c b hcb
      have h4 := hwf.heap_some hcb
      have := hrefs c
      rw [hx', if_neg (fun h => hcc h.symm), if_neg (by omega)] at this
      omega
  · intro c
    have hd : st'.destroyed c = st.destroyed c := by
      unfold destroyed
      rw [htrace]
    have hn : (st'.heap c).isNone = (st.heap c).isNone := by
      rw [hheap]
      by_cases hcc : c = (st.objs x).m_control_block
      · subst hcc
        simp [hb]
      · rw [Function.update_noteq hcc]
    rw [hd, hn, hnext]
    exact hwf.traced c

/-- The state after the last owner's decrement (payload destroyed, control block freed,
object nulled) is well formed. -/
theorem WF.detach_last {st : SState D σ} (hwf : WF st) (x : Nat) (hx : x ∈ st.live)
    (blk : ControlBlock D) (hc : (st.objs x).m_control_block ≠ 0)
    (hb : st.heap (st.objs x).m_control_block = some blk) (h1 : blk.shared_count = 1)
    (st' : SState D σ) (hlive : st'.live = st.live) (hnext : st'.next = st.next)
    (htrace : st'.trace = st.trace ++ [((st.objs x).m_control_block, blk.ptr)])
    (hobjs : ∀ y ∈ st.live, y ≠ x →
      (st'.objs y).m_control_block = (st.objs y).m_control_block)
    (hx' : (st'.objs x).m_control_block = 0)
    (hheap : st'.heap = Function.update st.heap (st.objs x).m_control_block none) :
    WF st' := by
  have hcnt := hwf.counts _ blk hb
  have hrefs := refs_change_one st st' x hx hwf.nodup hlive hobjs
  have hbound := hwf.heap_some hb
  refine ⟨hlive ▸ hwf.nodup, hlive ▸ hwf.addr, hnext ▸ hwf.next_pos, ?_, ?_, ?_, ?_, ?_⟩
  · intro c hcn
    rw [hheap, Function.update_noteq (by omega)]
    exact hwf.heap_fresh c (hnext ▸ hcn)
  · rw [hheap, Function.update_noteq (fun h => hc h.symm)]
    exact hwf.heap_null
  · intro c hc0 hn
    rw [hheap] at hn
    by_cases hcc : c = (st.objs x).m_control_block
    · subst hcc
      have := hrefs (st.objs x).m_control_block
      rw [hx', if_pos rfl, if_neg (fun h => hc h.symm)] at this
      omega
    · rw [Function.update_noteq hcc] at hn
      have := hwf.dangling c hc0 hn
      have := hrefs c
      rw [hx', if_neg (fun h => hcc h.symm), if_neg (fun h => hc0 h.symm)] at this
      omega
  · intro c b hcb
    rw [hheap] at hcb
    by_cases hcc : c = (st.objs x).m_control_block
    · subst hcc
      simp at hcb
    · rw [Function.update_noteq hcc] at hcb
      have h3 := hwf.counts c b hcb
      have h4 := hwf.heap_some hcb
      have := hrefs c
      rw [hx', if_neg (fun h => hcc h.symm), if_neg (by omega)] at this
      omega
  · intro c
    have hold := hwf.traced c
    have hd : st'.destroyed c
        = st.destroyed c + if (st.objs x).m_control_block = c then 1 else 0 := by
      unfold destroyed
      rw [htrace, List.countP_append]
      simp [List.countP_cons]
    rw [hd, hheap, hnext]
    by_cases hcc : c = (st.objs x).m_control_block
    · subst hcc
      rw [hb] at hold
      simp only [Option.isNone_some, Bool.false_eq_true, and_false, if_false] at hold
      simp [hold, hbound.1, hbound.2]
    · rw [Function.update_noteq hcc, if_neg (fun h => hcc h.symm)]
      simpa using hold

/-- Attaching an object without control block to an existing control block, and
counting it, keeps the state well formed. -/
theorem WF.attach {st : SState D σ} (hwf : WF st) (x : Nat) (hx : x ∈ st.live)
    (hx0 : (st.objs x).m_control_block = 0) (c : Nat) (blk : ControlBlock D)
    (hb : st.heap c = some blk)
    (st' : SState D σ) (hlive : st'.live = st.live) (hnext : st'.next = st.next)
    (htrace : st'.trace = st.trace)
    (hobjs : ∀ y ∈ st.live, y ≠ x →
      (st'.objs y).m_control_block = (st.objs y).m_control_block)
    (hx' : (st'.objs x).m_control_block = c)
    (hheap : st'.heap = Function.update st.heap c
      (some { blk with shared_count := blk.shared_count + 1 })) :
    WF st' := by
  have hcnt := hwf.counts _ blk hb
  have hrefs := refs_change_one st st' x hx hwf.nodup hlive hobjs
  have hbound := hwf.heap_some hb
  have hc0 : c ≠ 0 := by omega
  refine ⟨hlive ▸ hwf.nodup, hlive ▸ hwf.addr, hnext ▸ hwf.next_pos, ?_, ?_, ?_, ?_, ?_⟩
  · intro c' hcn
    rw [hheap, Function.update_noteq (by omega)]
    exact hwf.heap_fresh c' (hnext ▸ hcn)
  · rw [hheap, Function.update_noteq (fun h => hc0 h.symm)]
    exact hwf.heap_null
  · intro c' hc0' hn
    rw [hheap] at hn
    by_cases hcc : c' = c
    · subst hcc
      simp at hn
    · rw [Function.update_noteq hcc] at hn
      have := hwf.dangling c' hc0' hn
      have := hrefs c'
      rw [hx', hx0] at this
      split_ifs at this <;> omega
  · intro c' b hcb
    rw [hheap] at hcb
    by_cases hcc : c' = c
    · subst hcc
      simp at hcb
      subst hcb
      have := hrefs c'
      rw [hx', hx0, if_pos rfl, if_neg (fun h => hc0 h.symm)] at this
      refine ⟨?_, ?_, hcnt.2.2⟩
      · show blk.shared_count + 1 = st'.refs c'
        omega
      · omega
    · rw [Function.update_noteq hcc] at hcb
      have h3 := hwf.counts c' b hcb
      have h4 := hwf.heap_some hcb
      have := hrefs c'
      rw [hx', hx0] at this
      split_ifs at this <;> omega
  · intro c'
    have hd : st'.destroyed c' = st.destroyed c' := by
      unfold destroyed
      rw [htrace]
    have hn : (st'.heap c').isNone = (st.heap c').isNone := by
      rw [hheap]
      by_cases hcc : c' = c
      · subst hcc
        simp [hb]
      · rw [Function.update_noteq hcc]
    rw [hd, hn, hnext]
    exact hwf.traced c'

/-- Giving an object without control block a newly allocated control block keeps the
state well formed. -/
theorem WF.attach_new {st : SState D σ} (hwf : WF st) (x : Nat) (hx : x ∈ st.live)
    (hx0 : (st.objs x).m_control_block = 0) (p : Nat) (d : Option D)
    (st' : SState D σ) (hlive : st'.live = st.live) (hnext : st'.next = st.next + 1)
    (htrace : st'.trace = st.trace)
    (hobjs : ∀ y ∈ st.live, y ≠ x →
      (st'.objs y).m_control_block = (st.objs y).m_control_block)
    (hx' : (st'.objs x).m_control_block = st.next)
    (hheap : st'.heap = Function.update st.heap st.next
      (some { shared_count := 1, weak_count := 0, ptr := p, deleter := d })) :
    WF st' := by
  have hrefs := refs_change_one st st' x hx hwf.nodup hlive hobjs
  have hpos := hwf.next_pos
  have hfresh := hwf.heap_fresh st.next (le_refl _)
  have hzero := hwf.dangling st.next (by omega) hfresh
  refine ⟨hlive ▸ hwf.nodup, hlive ▸ hwf.addr, by omega, ?_, ?_, ?_, ?_, ?_⟩
  · intro c' hcn
    rw [hheap, Function.update_noteq (by omega)]
    exact hwf.heap_fresh c' (by omega)
  · rw [hheap, Function.update_noteq (by omega)]
    exact hwf.heap_null
  · intro c' hc0' hn
    rw [hheap] at hn
    by_cases hcc : c' = st.next
    · subst hcc
      simp at hn
    · rw [Function.update_noteq hcc] at hn
      have := hwf.dangling c' hc0' hn
      have := hrefs c'
      rw [hx', hx0] at this
      split_ifs at this <;> omega
  · intro c' b hcb
    rw [hheap] at hcb
    by_cases hcc : c' = st.next
    · subst hcc
      simp at hcb
      subst hcb
      have := hrefs st.next
      rw [hx', hx0, if_pos rfl, if_neg (by omega)] at this
      refine ⟨?_, ?_, rfl⟩
      · show 1 = st'.refs st.next
        omega
      · omega
    · rw [Function.update_noteq hcc] at hcb
      have h3 := hwf.counts c' b hcb
      have h4 := hwf.heap_some hcb
      have := hrefs c'
      rw [hx', hx0] at this
      split_ifs at this <;> omega
  · intro c'
    have hold := hwf.traced c'
    have hd : st'.destroyed c' = st.destroyed c' := by
      unfold destroyed
      rw [htrace]
    rw [hd, hheap, hnext]
    by_cases hcc : c' = st.next
    · subst hcc
      rw [if_neg (by simp)] at hold
      rw [hold, if_neg (by simp)]
    · rw [Function.update_noteq hcc, hold]
      have : c' < st.next + 1 ↔ c' < st.next := by omega
      simp only [this]

/-- A new object without control block keeps the state well formed. -/
theorem WF.create {st : SState D σ} (hwf : WF st) (x : Nat) (hf : shared_ptr.Fresh x st)
    (st' : SState D σ) (hlive : st'.live = x :: st.live) (hnext : st'.next = st.next)
    (htrace : st'.trace = st.trace) (hheap : st'.heap = st.heap)
    (hobjs : ∀ y ∈ st.live, (st'.objs y).m_control_block = (st.objs y).m_control_block)
    (hx' : (st'.objs x).m_control_block = 0) :
    WF st' := by
  have hrefs : ∀ c, c ≠ 0 → st'.refs c = st.refs c := by
    intro c hc
    unfold refs
    rw [hlive, List.countP_cons, hx']
    have : (st.live).countP (fun y => decide ((st'.objs y).m_control_block = c))
        = (st.live).countP (fun y => decide ((st.objs y).m_control_block = c)) := by
      apply List.countP_congr
      intro y hy
      simp [hobjs y hy]
    rw [this]
    simp [Ne.symm hc]
  refine ⟨?_, ?_, hnext ▸ hwf.next_pos, ?_, ?_, ?_, ?_, ?_⟩
  · rw [hlive]
    exact List.nodup_cons.2 ⟨hf.1, hwf.nodup⟩
  · intro y hy
    rw [hlive] at hy
    rcases List.mem_cons.1 hy with rfl | hy
    · exact hf.2
    · exact hwf.addr y hy
  · intro c hc
    rw [hheap]
    exact hwf.heap_fresh c (hnext ▸ hc)
  · rw [hheap]
    exact hwf.heap_null
  · intro c hc hn
    rw [hrefs c hc]
    exact hwf.dangling c hc (hheap ▸ hn)
  · intro c blk hb
    rw [hheap] at hb
    rw [hrefs c (by have := hwf.heap_some hb; omega)]
    exact hwf.counts c blk hb
  · intro c
    have hd : st'.destroyed c = st.destroyed c := by
      unfold destroyed
      rw [htrace]
    rw [hd, hheap, hnext]
    exact hwf.traced c

/-- Removing an object without control block keeps the state well formed. -/
theorem WF.erase {st : SState D σ} (hwf : WF st) (x : Nat) (hx : x ∈ st.live)
    (hx0 : (st.objs x).m_control_block = 0)
    (st' : SState D σ) (hlive : st'.live = st.live.erase x) (hnext : st'.next = st.next)
    (htrace : st'.trace = st.trace) (hheap : st'.heap = st.heap)
    (hobjs : ∀ y ∈ st.live, y ≠ x →
      (st'.objs y).m_control_block = (st.objs y).m_control_block) :
    WF st' := by
  have hrefs : ∀ c, c ≠ 0 → st'.refs c = st.refs c := by
    intro c hc
    rw [refs_split st x hx c, hx0, if_neg (Ne.symm hc)]
    unfold refs
    rw [hlive]
    apply List.countP_congr
    intro y hy
    have hy' := (List.Nodup.mem_erase_iff hwf.nodup).1 hy
    simp [hobjs y hy'.2 hy'.1]
  refine ⟨?_, ?_, hnext ▸ hwf.next_pos, ?_, ?_, ?_, ?_, ?_⟩
  · rw [hlive]
    exact hwf.nodup.erase x
  · intro y hy
    rw [hlive] at hy
    exact hwf.addr y (List.mem_of_mem_erase hy)
  · intro c hc
    rw [hheap]
    exact hwf.heap_fresh c (hnext ▸ hc)
  · rw [hheap]
    exact hwf.heap_null
  · intro c hc hn
    rw [hrefs c hc]
    exact hwf.dangling c hc (hheap ▸ hn)
  · intro c blk hb
    rw [hheap] at hb
    rw [hrefs c (by have := hwf.heap_some hb; omega)]
    exact hwf.counts c blk hb
  · intro c
    have hd : st'.destroyed c = st.destroyed c := by
      unfold destroyed
      rw [htrace]
    rw [hd, hheap, hnext]
    exact hwf.traced c

/-- Exchanging the control-block members of two objects keeps the state well formed. -/
theorem WF.exchange {st : SState D σ} (hwf : WF st) (x o : Nat) (hx : x ∈ st.live)
    (ho : o ∈ st.live) (hxo : x ≠ o)
    (st' : SState D σ) (hlive : st'.live = st.live) (hnext : st'.next = st.next)
    (htrace : st'.trace = st.trace) (hheap : st'.heap = st.heap)
    (hobjs : ∀ y ∈ st.live, y ≠ x → y ≠ o →
      (st'.objs y).m_control_block = (st.objs y).m_control_block)
    (hx' : (st'.objs x).m_control_block = (st.objs o).m_control_block)
    (ho' : (st'.objs o).m_control_block = (st.objs x).m_control_block) :
    WF st' := by
  have hrefs : ∀ c, st'.refs c = st.refs c := by
    intro c
    have h1 := refs_change_one st
      (shared_ptr.set_m_control_block x (st.objs o).m_control_block st) x hx hwf.nodup rfl
      (fun y _ hy => by rw [set_cb_objs_other _ _ _ _ hy]) c
    have h2 := refs_change_one
      (shared_ptr.set_m_control_block x (st.objs o).m_control_block st) st' o
      (by simpa using ho) (by simpa using hwf.nodup) (by simpa using hlive)
      (fun y hy hyo => by
        by_cases hyx : y = x
        · subst hyx
          simp [hx']
        · rw [set_cb_objs_other _ _ _ _ hyx]
          exact hobjs y (by simpa using hy) hyx hyo) c
    rw [set_cb_objs_same] at h1
    rw [set_cb_objs_other _ _ _ _ (Ne.symm hxo), ho'] at h2
    simp only at h1
    omega
  have hdes : ∀ c, st'.destroyed c = st.destroyed c := by
    intro c
    unfold destroyed
    rw [htrace]
  refine ⟨hlive ▸ hwf.nodup, hlive ▸ hwf.addr, hnext ▸ hwf.next_pos, ?_, ?_, ?_, ?_, ?_⟩
  · intro c hc
    rw [hheap]
    exact hwf.heap_fresh c (hnext ▸ hc)
  · rw [hheap]
    exact hwf.heap_null
  · intro c hc hn
    rw [hrefs]
    exact hwf.dangling c hc (hheap ▸ hn)
  · intro c blk hb
    rw [hrefs]
    exact hwf.counts c blk (hheap ▸ hb)
  · intro c
    rw [hdes, hheap, hnext]
    exact hwf.traced c

/-- `decrement_ref_count` on an existing object of a well-formed state: it is defined,
it frees a control block only when that block's owner count was 1, it creates none,
and once the object's control-block member is overwritten with null (or was nulled by
the decrement itself) the state is well formed again. -/
theorem decrement_spec (fx : Fx D σ) {st : SState D σ} (hwf : WF st) (x : Nat)
    (hx : x ∈ st.live) :
    ∃ st1, shared_ptr.decrement_ref_count fx x st = some st1 ∧
      st1.live = st.live ∧ st1.next = st.next ∧
      (∀ y, y ≠ x → st1.objs y = st.objs y) ∧
      (∀ c blk, st.heap c = some blk → st1.heap c = none → blk.shared_count = 1) ∧
      (∀ c, st.heap c = none → st1.heap c = none) ∧
      (∀ st' : SState D σ, st'.live = st1.live → st'.next = st1.next →
        st'.trace = st1.trace → st'.heap = st1.heap →
        (∀ y ∈ st.live, y ≠ x →
          (st'.objs y).m_control_block = (st1.objs y).m_control_block) →
        (st'.objs x).m_control_block = 0 → WF st') := by
  by_cases hc : (st.objs x).m_control_block = 0
  · refine ⟨st, decrement_null fx st x hc, rfl, rfl, fun _ _ => rfl, ?_, fun _ h => h, ?_⟩
    · intro c blk h1 h2
      rw [h1] at h2
      cases h2
    · intro st' hlive hnext htrace hheap hobjs hx'
      refine hwf.congr hlive ?_ hheap hnext htrace
      intro y hy
      by_cases hyx : y = x
      · subst hyx
        rw [hx', hc]
      · exact hobjs y hy hyx
  · obtain ⟨blk, hb⟩ := hwf.heap_of_live hx hc
    have hcnt := hwf.counts _ blk hb
    have hlt := refs_lt_ptr_mod hwf (st.objs x).m_control_block
    by_cases h1 : blk.shared_count = 1
    · refine ⟨_, decrement_last fx st x blk hc hb h1 hcnt.2.2, rfl, rfl, ?_, ?_, ?_, ?_⟩
      · intro y hy
        simp [Function.update_noteq hy]
      · intro c b hcb hn
        by_cases hcc : c = (st.objs x).m_control_block
        · subst hcc
          rw [hb] at hcb
          cases hcb
          exact h1
        · simp only [Function.update_noteq hcc] at hn
          rw [hcb] at hn
          cases hn
      · intro c hn
        by_cases hcc : c = (st.objs x).m_control_block
        · subst hcc
          simp
        · simp only [Function.update_noteq hcc]
          exact hn
      · intro st' hlive hnext htrace hheap hobjs hx'
        refine hwf.detach_last x hx blk hc hb h1 st' hlive hnext htrace ?_ hx' hheap
        intro y hy hyx
        rw [hobjs y hy hyx]
        simp [Function.update_noteq hyx]
    · have h2 : 1 < blk.shared_count := by omega
      refine ⟨_, decrement_shared fx st x blk hc hb h2 (by omega), rfl, rfl,
        fun _ _ => rfl, ?_, ?_, ?_⟩
      · intro c b hcb hn
        by_cases hcc : c = (st.objs x).m_control_block
        · subst hcc
          simp at hn
        · simp only [Function.update_noteq hcc] at hn
          rw [hcb] at hn
          cases hn
      · intro c hn
        by_cases hcc : c = (st.objs x).m_control_block
        · subst hcc
          rw [hb] at hn
          cases hn
        · simp only [Function.update_noteq hcc]
          exact hn
      · intro st' hlive hnext htrace hheap hobjs hx'
        exact hwf.detach_shared x hx blk hc hb h2 st' hlive hnext htrace hobjs hx' hheap

theorem Evolves.evolves_refl (st : SState D σ) : Evolves st st := by
  refine ⟨le_refl _, ?_, fun _ _ h => h⟩
  intro c blk h1 h2
  rw [h1] at h2
  cases h2

theorem increment_null (st : SState D σ) (x : Nat) (hc : (st.objs x).m_control_block = 0) :
    shared_ptr.increment_ref_count x st = some st := by
  simp [shared_ptr.increment_ref_count, hc]

theorem increment_some (st : SState D σ) (x : Nat) (blk : ControlBlock D)
    (hc : (st.objs x).m_control_block ≠ 0)
    (hb : st.heap (st.objs x).m_control_block = some blk)
    (hlt : blk.shared_count + 1 < PTR_MOD) :
    shared_ptr.increment_ref_count x st
      = some
        { st with
          heap := Function.update st.heap (st.objs x).m_control_block
            (some { blk with shared_count := blk.shared_count + 1 }) } := by
  simp [shared_ptr.increment_ref_count, hc, hb, Nat.mod_eq_of_lt hlt]

@[simp] theorem create_live (x : Nat) (obj : shared_ptr) (s : SState D σ) :
    (shared_ptr.create x obj s).live = x :: s.live := rfl

@[simp] theorem create_heap (x : Nat) (obj : shared_ptr) (s : SState D σ) :
    (shared_ptr.create x obj s).heap = s.heap := rfl

@[simp] theorem create_next (x : Nat) (obj : shared_ptr) (s : SState D σ) :
    (shared_ptr.create x obj s).next = s.next := rfl

@[simp] theorem create_trace (x : Nat) (obj : shared_ptr) (s : SState D σ) :
    (shared_ptr.create x obj s).trace = s.trace := rfl

@[simp] theorem create_world (x : Nat) (obj : shared_ptr) (s : SState D σ) :
    (shared_ptr.create x obj s).world = s.world := rfl

@[simp] theorem create_objs_same (x : Nat) (obj : shared_ptr) (s : SState D σ) :
    (shared_ptr.create x obj s).objs x = obj := by
  simp [shared_ptr.create]

@[simp] theorem create_objs_other (x y : Nat) (obj : shared_ptr) (s : SState D σ)
    (h : y ≠ x) : (shared_ptr.create x obj s).objs y = s.objs y := by
  simp [shared_ptr.create, h]

@[simp] theorem new_cb_fst (p : Nat) (d : Option D) (s : SState D σ) :
    (shared_ptr.new_control_block p d s).1 = s.next := rfl

@[simp] theorem new_cb_live (p : Nat) (d : Option D) (s : SState D σ) :
    (shared_ptr.new_control_block p d s).2.live = s.live := rfl

@[simp] theorem new_cb_objs (p : Nat) (d : Option D) (s : SState D σ) :
    (shared_ptr.new_control_block p d s).2.objs = s.objs := rfl

@[simp] theorem new_cb_next (p : Nat) (d : Option D) (s : SState D σ) :
    (shared_ptr.new_control_block p d s).2.next = s.next + 1 := rfl

@[simp] theorem new_cb_trace (p : Nat) (d : Option D) (s : SState D σ) :
    (shared_ptr.new_control_block p d s).2.trace = s.trace := rfl

@[simp] theorem new_cb_world (p : Nat) (d : Option D) (s : SState D σ) :
    (shared_ptr.new_control_block p d s).2.world = s.world := rfl

theorem new_cb_heap (p : Nat) (d : Option D) (s : SState D σ) :
    (shared_ptr.new_control_block p d s).2.heap = Function.update s.heap s.next
      (some { shared_count := 1, weak_count := 0, ptr := p, deleter := d }) := rfl

/-- A fresh object without control block: the state stays well formed. -/
theorem WF.create_null {st : SState D σ} (hwf : WF st) (x p : Nat)
    (hf : shared_ptr.Fresh x st) :
    WF (shared_ptr.create x { m_ptr := p, m_control_block := 0 } st) := by
  refine hwf.create x hf _ rfl rfl rfl rfl ?_ (by simp)
  intro y hy
  have : y ≠ x := fun e => hf.1 (e ▸ hy)
  simp [this]

/-- Allocating a control block for an existing object that has none. -/
theorem WF.new_block {st : SState D σ} (hwf : WF st) (x p : Nat) (d : Option D)
    (hx : x ∈ st.live) (hx0 : (st.objs x).m_control_block = 0) :
    WF (shared_ptr.set_m_control_block x (shared_ptr.new_control_block p d st).1
        (shared_ptr.new_control_block p d st).2) ∧
    Evolves st (shared_ptr.set_m_control_block x (shared_ptr.new_control_block p d st).1
        (shared_ptr.new_control_block p d st).2) := by
  refine ⟨?_, ?_, ?_, ?_⟩
  · refine hwf.attach_new x hx hx0 p d _ rfl rfl rfl ?_ (by simp) (new_cb_heap p d st)
    intro y _ hy
    simp [hy]
  · simp
  · intro c blk h1 h2
    have hb := hwf.heap_some h1
    rw [set_cb_heap, new_cb_heap, Function.update_noteq (by omega), h1] at h2
    cases h2
  · intro c hc hn
    rw [set_cb_heap, new_cb_heap, Function.update_noteq (by omega)]
    exact hn

/-- `shared_ptr(T* ptr)` and `shared_ptr(T* ptr, Deleter)`. -/
theorem ctor_spec {st st' : SState D σ} (hwf : WF st) (x p : Nat)
    (h : shared_ptr.ctor x p st = some st') :
    WF st' ∧ Evolves st st' := by
  unfold shared_ptr.ctor at h
  split at h
  · rename_i hf
    have hwf1 := hwf.create_null x p hf
    simp only at h
    split at h
    · simp only [Option.some.injEq] at h
      subst h
      exact hwf1.new_block x p none (List.mem_cons_self _ _) (by simp)
    · simp only [Option.some.injEq] at h
      subst h
      exact ⟨hwf1, Evolves.evolves_refl st⟩
  · cases h

theorem ctor_deleter_spec {st st' : SState D σ} (hwf : WF st) (x p : Nat) (d : D)
    (h : shared_ptr.ctor_deleter x p d st = some st') :
    WF st' ∧ Evolves st st' := by
  unfold shared_ptr.ctor_deleter at h
  split at h
  · rename_i hf
    have hwf1 := hwf.create_null x p hf
    simp only at h
    split at h
    · simp only [Option.some.injEq] at h
      subst h
      exact hwf1.new_block x p (some d) (List.mem_cons_self _ _) (by simp)
    · simp only [Option.some.injEq] at h
      subst h
      exact ⟨hwf1, Evolves.evolves_refl st⟩
  · cases h

/-- `~shared_ptr()`. -/
theorem dtor_spec (fx : Fx D σ) {st st' : SState D σ} (hwf : WF st) (x : Nat)
    (h : shared_ptr.dtor fx x st = some st') :
    WF st' ∧ Evolves st st' ∧ st'.live = st.live.erase x ∧
      (∀ y, y ≠ x → st'.objs y = st.objs y) := by
  unfold shared_ptr.dtor at h
  split at h
  · rename_i hx
    obtain ⟨st1, hdec, hlive, hnext, hobjs, hrem, hnone, hwfD⟩ := decrement_spec fx hwf x hx
    rw [hdec] at h
    simp only [Option.some.injEq] at h
    subst h
    have hD := hwfD (shared_ptr.set_m_control_block x 0 st1) rfl rfl rfl rfl
      (fun y _ hy => by simp [hy]) (by simp)
    refine ⟨?_, ⟨by simp [hnext], hrem, fun c _ hn => hnone c hn⟩, by simp [hlive], hobjs⟩
    refine hD.erase x (by simpa [hlive] using hx) (by simp) _ rfl rfl rfl rfl ?_
    intro y _ hy
    simp [hy]
  · cases h

/-- `shared_ptr(const shared_ptr& other)`. -/
theorem copy_ctor_spec {st st' : SState D σ} (hwf : WF st) (x o : Nat)
    (h : shared_ptr.copy_ctor x o st = some st') :
    WF st' ∧ Evolves st st' ∧ st'.live = x :: st.live ∧
      (∀ y, y ≠ x → st'.objs y = st.objs y) ∧ st'.objs x = st.objs o := by
  unfold shared_ptr.copy_ctor at h
  split at h
  · rename_i hfo
    obtain ⟨hf, ho⟩ := hfo
    simp only at h
    by_cases hc : (st.objs o).m_control_block = 0
    · rw [increment_null _ _ (by simp [hc])] at h
      simp only [Option.some.injEq] at h
      subst h
      refine ⟨?_, Evolves.evolves_refl st, rfl, fun y hy => by simp [hy], by simp⟩
      refine hwf.create x hf _ rfl rfl rfl rfl ?_ (by simp [hc])
      intro y hy
      have : y ≠ x := fun e => hf.1 (e ▸ hy)
      simp [this]
    · obtain ⟨blk, hb⟩ := hwf.heap_of_live ho hc
      have hcnt := hwf.counts _ blk hb
      have hlen : (x :: st.live).length < PTR_MOD :=
        length_lt_of_addr (x :: st.live) (List.nodup_cons.2 ⟨hf.1, hwf.nodup⟩)
          (fun y hy => by
            rcases List.mem_cons.1 hy with rfl | hy
            · exact hf.2
            · exact hwf.addr y hy)
      have hle := refs_le_length st (st.objs o).m_control_block
      simp only [List.length_cons] at hlen
      rw [increment_some _ x blk (by simpa using hc) (by simpa using hb) (by omega)] at h
      simp only [Option.some.injEq] at h
      subst h
      have hwfC := hwf.create_null x (st.objs o).m_ptr hf
      have e : ((shared_ptr.create x ⟨(st.objs o).m_ptr, (st.objs o).m_control_block⟩
          st).objs x).m_control_block = (st.objs o).m_control_block := by simp
      refine ⟨?_, ⟨le_refl _, ?_, ?_⟩, rfl, fun y hy => by simp [hy], by simp⟩
      · refine hwfC.attach x (List.mem_cons_self _ _) (by simp) (st.objs o).m_control_block
          blk (by simpa using hb) _ rfl rfl rfl ?_ (by simp) ?_
        · intro y _ hy
          simp [hy]
        · dsimp only
          rw [e]
          rfl
      · intro c b h1 h2
        dsimp only at h2
        rw [e] at h2
        by_cases hcc : c = (st.objs o).m_control_block
        · subst hcc
          simp at h2
        · rw [Function.update_noteq hcc] at h2
          change st.heap c = none at h2
          rw [h1] at h2
          cases h2
      · intro c _ hn
        dsimp only
        rw [e]
        by_cases hcc : c = (st.objs o).m_control_block
        · subst hcc
          rw [hb] at hn
          cases hn
        · rw [Function.update_noteq hcc]
          exact hn
  · cases h

/-- `increment_ref_count` on an object that has just been given the control block of
another existing object `o`, starting from a well-formed state `stD` in which the
object had no control block: it is defined, the result is well formed, and no control
block appears or disappears. -/
theorem increment_spec {stD s : SState D σ} (hD : WF stD) (x o : Nat) (hx : x ∈ stD.live)
    (ho : o ∈ stD.live) (hx0 : (stD.objs x).m_control_block = 0)
    (hlive : s.live = stD.live) (hheap : s.heap = stD.heap) (hnext : s.next = stD.next)
    (htrace : s.trace = stD.trace)
    (hobjs : ∀ y ∈ stD.live, y ≠ x →
      (s.objs y).m_control_block = (stD.objs y).m_control_block)
    (hxs : (s.objs x).m_control_block = (stD.objs o).m_control_block) :
    ∃ st', shared_ptr.increment_ref_count x s = some st' ∧ WF st' ∧ st'.next = s.next ∧
      st'.live = s.live ∧ st'.objs = s.objs ∧
      (∀ c, (st'.heap c).isNone = (s.heap c).isNone) := by
  by_cases hc : (stD.objs o).m_control_block = 0
  · refine ⟨s, increment_null s x (by rw [hxs, hc]), ?_, rfl, rfl, rfl, fun _ => rfl⟩
    refine hD.congr hlive ?_ hheap hnext htrace
    intro y hy
    by_cases hyx : y = x
    · subst hyx
      rw [hxs, hc, hx0]
    · exact hobjs y hy hyx
  · obtain ⟨blk, hb⟩ := hD.heap_of_live ho hc
    have hcnt := hD.counts _ blk hb
    have hlt := refs_lt_length stD x hx (stD.objs o).m_control_block
      (by rw [hx0]; exact Ne.symm hc)
    have hlen := length_lt_of_addr stD.live hD.nodup hD.addr
    have hbs : s.heap (s.objs x).m_control_block = some blk := by rw [hxs, hheap, hb]
    refine ⟨_, increment_some s x blk (by rw [hxs]; exact hc) hbs (by omega), ?_, rfl, rfl, rfl,
      ?_⟩
    · refine hD.attach x hx hx0 (stD.objs o).m_control_block blk hb _ hlive hnext htrace
        hobjs hxs ?_
      dsimp only
      rw [hxs, hheap]
    · intro c
      dsimp only
      rw [hxs]
      by_cases hcc : c = (stD.objs o).m_control_block
      · subst hcc
        rw [hheap, hb]
        simp
      · rw [Function.update_noteq hcc]

/-- `shared_ptr& operator=(const shared_ptr& other)`. -/
theorem copy_assign_spec (fx : Fx D σ) {st st' : SState D σ} (hwf : WF st) (x o : Nat)
    (h : shared_ptr.copy_assign fx x o st = some st') :
    WF st' ∧ Evolves st st' := by
  unfold shared_ptr.copy_assign at h
  split at h
  · rename_i hxo
    obtain ⟨hx, ho⟩ := hxo
    split at h
    · rename_i hne
      obtain ⟨st1, hdec, hlive, hnext, hobjs, hrem, hnone, hwfD⟩ := decrement_spec fx hwf x hx
      rw [hdec] at h
      simp only at h
      have hD := hwfD (shared_ptr.set_m_control_block x 0 st1) rfl rfl rfl rfl
        (fun y _ hy => by simp [hy]) (by simp)
      have hoD : (shared_ptr.set_m_control_block x 0 st1).objs o = st1.objs o := by
        simp [Ne.symm hne]
      obtain ⟨st2, hinc, hwf2, hnext2, _, _, hnone2⟩ := increment_spec hD x o
        (by simpa [hlive] using hx) (by simpa [hlive] using ho) (by simp)
        (s := shared_ptr.set_m_control_block x
          ((shared_ptr.set_m_ptr x (st1.objs o).m_ptr st1).objs o).m_control_block
          (shared_ptr.set_m_ptr x (st1.objs o).m_ptr st1))
        rfl rfl rfl rfl (fun y _ hy => by simp [hy]) (by simp [Ne.symm hne])
      rw [hinc] at h
      simp only [Option.some.injEq] at h
      subst h
      refine ⟨hwf2, ?_, ?_, ?_⟩
      · rw [hnext2]
        simp [hnext]
      · intro c blk h1 h2
        have := hnone2 c
        rw [h2] at this
        simp only [Option.isNone_none, set_cb_heap, set_ptr_heap] at this
        exact hrem c blk h1 (by simpa using this.symm)
      · intro c _ hn
        have := hnone2 c
        simp only [set_cb_heap, set_ptr_heap, hnone c hn, Option.isNone_none] at this
        simpa using this
    · simp only [Option.some.injEq] at h
      subst h
      exact ⟨hwf, Evolves.evolves_refl st⟩
  · cases h

/-- `shared_ptr(shared_ptr&& other)`. -/
theorem move_ctor_spec {st st' : SState D σ} (hwf : WF st) (x o : Nat)
    (h : shared_ptr.move_ctor x o st = some st') :
    WF st' ∧ Evolves st st' := by
  unfold shared_ptr.move_ctor at h
  split at h
  · rename_i hfo
    obtain ⟨hf, ho⟩ := hfo
    simp only [Option.some.injEq] at h
    subst h
    have hxo : x ≠ o := fun e => hf.1 (e ▸ ho)
    have hC := hwf.create_null x (st.objs o).m_ptr hf
    refine ⟨?_, Evolves.evolves_refl st⟩
    refine hC.exchange x o (List.mem_cons_self _ _) (List.mem_cons_of_mem _ ho) hxo _
      rfl rfl rfl rfl ?_ ?_ ?_
    · intro y _ hyx hyo
      simp [hyx, hyo]
    · simp [hxo, Ne.symm hxo]
    · simp
  · cases h

/-- `shared_ptr& operator=(shared_ptr&& other)`. -/
theorem move_assign_spec (fx : Fx D σ) {st st' : SState D σ} (hwf : WF st) (x o : Nat)
    (h : shared_ptr.move_assign fx x o st = some st') :
    WF st' ∧ Evolves st st' := by
  unfold shared_ptr.move_assign at h
  split at h
  · rename_i hxo
    obtain ⟨hx, ho⟩ := hxo
    split at h
    · rename_i hne
      obtain ⟨st1, hdec, hlive, hnext, hobjs, hrem, hnone, hwfD⟩ := decrement_spec fx hwf x hx
      rw [hdec] at h
      simp only [Option.some.injEq] at h
      subst h
      have hD := hwfD (shared_ptr.set_m_control_block x 0 st1) rfl rfl rfl rfl
        (fun y _ hy => by simp [hy]) (by simp)
      refine ⟨?_, by simp [hnext], hrem, fun c _ hn => hnone c hn⟩
      refine hD.exchange x o (by simpa [hlive] using hx) (by simpa [hlive] using ho) hne _
        rfl rfl rfl rfl ?_ ?_ ?_
      · intro y _ hyx hyo
        simp [hyx, hyo]
      · simp [hne, Ne.symm hne]
      · simp
    · simp only [Option.some.injEq] at h
      subst h
      exact ⟨hwf, Evolves.evolves_refl st⟩
  · cases h

/-- `void reset(T* ptr)`. -/
theorem reset_spec (fx : Fx D σ) {st st' : SState D σ} (hwf : WF st) (x p : Nat)
    (h : shared_ptr.reset fx x p st = some st') :
    WF st' ∧ Evolves st st' := by
  unfold shared_ptr.reset at h
  split at h
  · rename_i hx
    obtain ⟨st1, hdec, hlive, hnext, hobjs, hrem, hnone, hwfD⟩ := decrement_spec fx hwf x hx
    rw [hdec] at h
    simp only at h
    have hD := hwfD (shared_ptr.set_m_control_block x 0 (shared_ptr.set_m_ptr x p st1))
      rfl rfl rfl rfl (fun y _ hy => by simp [hy]) (by simp)
    split at h
    · simp only [Option.some.injEq] at h
      subst h
      have hfresh : st1.heap st.next = none := hnone _ (hwf.heap_fresh _ (le_refl _))
      refine ⟨?_, by simp [hnext], ?_, ?_⟩
      · refine hD.attach_new x (by simpa [hlive] using hx) (by simp) p none _ rfl rfl rfl
          ?_ (by simp) ?_
        · intro y _ hy
          simp [hy]
        · simp [new_cb_heap]
      · intro c blk h1 h2
        have hb := hwf.heap_some h1
        rw [set_cb_heap, new_cb_heap] at h2
        simp only [set_ptr_next, set_ptr_heap, hnext] at h2
        rw [Function.update_noteq (by omega)] at h2
        exact hrem c blk h1 h2
      · intro c hc hn
        rw [set_cb_heap, new_cb_heap]
        simp only [set_ptr_next, set_ptr_heap, hnext]
        rw [Function.update_noteq (by omega)]
        exact hnone c hn
    · simp only [Option.some.injEq] at h
      subst h
      exact ⟨hD, by simp [hnext], hrem, fun c _ hn => hnone c hn⟩
  · cases h

/-- `void swap(shared_ptr& other)`. -/
theorem swap_spec {st st' : SState D σ} (hwf : WF st) (x o : Nat)
    (h : shared_ptr.swap x o st = some st') :
    WF st' ∧ Evolves st st' := by
  unfold shared_ptr.swap at h
  split at h
  · rename_i hxo
    obtain ⟨hx, ho⟩ := hxo
    simp only [Option.some.injEq] at h
    subst h
    refine ⟨?_, Evolves.evolves_refl st⟩
    by_cases hne : x = o
    · subst hne
      refine hwf.congr rfl ?_ rfl rfl rfl
      intro y _
      by_cases hy : y = x
      · subst hy
        simp
      · simp [hy]
    · refine hwf.exchange x o hx ho hne _ rfl rfl rfl rfl ?_ ?_ ?_
      · intro y _ hyx hyo
        simp [hyx, hyo]
      · simp [hne, Ne.symm hne]
      · simp [hne, Ne.symm hne]
  · cases h

/-- Every statement that is defined keeps the state well formed and lets the control
blocks evolve as described by `Evolves`. -/
theorem step_spec (fx : Fx D σ) {st st' : SState D σ} (hwf : WF st) (op : SOp D)
    (h : step fx st op = some st') : WF st' ∧ Evolves st st' := by
  cases op with
  | ctor x p => exact ctor_spec hwf x p h
  | ctor_deleter x p d => exact ctor_deleter_spec hwf x p d h
  | dtor x => exact ⟨(dtor_spec fx hwf x h).1, (dtor_spec fx hwf x h).2.1⟩
  | copy_ctor x o => exact ⟨(copy_ctor_spec hwf x o h).1, (copy_ctor_spec hwf x o h).2.1⟩
  | copy_assign x o => exact copy_assign_spec fx hwf x o h
  | move_ctor x o => exact move_ctor_spec hwf x o h
  | move_assign x o => exact move_assign_spec fx hwf x o h
  | reset x p => exact reset_spec fx hwf x p h
  | swap x o => exact swap_spec hwf x o h

/-- A defined run keeps the state well formed; control-block addresses only grow and a
control block that is gone stays gone. -/
theorem run_spec (fx : Fx D σ) : ∀ (ops : List (SOp D)) (st st' : SState D σ), WF st →
    run fx st ops = some st' →
    WF st' ∧ st.next ≤ st'.next ∧ (∀ c, c < st.next → st.heap c = none → st'.heap c = none) := by
  intro ops
  induction ops with
  | nil =>
    intro st st' hwf h
    simp only [run, Option.some.injEq] at h
    subst h
    exact ⟨hwf, le_refl _, fun _ _ h => h⟩
  | cons op ops ih =>
    intro st st' hwf h
    simp only [run] at h
    split at h
    · cases h
    · rename_i st1 hst1
      obtain ⟨hwf1, hn1, _, hg1⟩ := step_spec fx hwf op hst1
      obtain ⟨hwf2, hn2, hg2⟩ := ih st1 st' hwf1 h
      exact ⟨hwf2, le_trans hn1 hn2, fun c hc hn => hg2 c (by omega) (hg1 c hc hn)⟩

/-- The state right after `shared_ptr<T> sp(a)` or `shared_ptr<T> sp(a, deleter)` in a
fresh program. -/
theorem ctor_init (w : σ) (this0 a : Nat) (st0 : SState D σ) (ha : a ≠ 0)
    (h0 : shared_ptr.ctor this0 a (shared_ptr.init w) = some st0 ∨
      ∃ d, shared_ptr.ctor_deleter this0 a d (shared_ptr.init w) = some st0) :
    WF st0 ∧ st0.live = [this0] ∧ (st0.objs this0).m_control_block = 1 ∧ st0.next = 2 ∧
      (∃ blk, st0.heap 1 = some blk ∧ blk.shared_count = 1 ∧ blk.ptr = a) ∧
      st0.trace = [] := by
  rcases h0 with h0 | ⟨d, h0⟩
  · have hwf := (ctor_spec (WF.init w) this0 a h0).1
    unfold shared_ptr.ctor at h0
    split at h0
    · simp only [ne_eq, ha, not_false_eq_true, if_true, Option.some.injEq] at h0
      subst h0
      refine ⟨hwf, rfl, by simp [shared_ptr.init], rfl, ⟨⟨1, 0, a, none⟩, ?_, rfl, rfl⟩, rfl⟩
      simp [new_cb_heap, shared_ptr.init]
    · cases h0
  · have hwf := (ctor_deleter_spec (WF.init w) this0 a d h0).1
    unfold shared_ptr.ctor_deleter at h0
    split at h0
    · simp only [ne_eq, ha, not_false_eq_true, if_true, Option.some.injEq] at h0
      subst h0
      refine ⟨hwf, rfl, by simp [shared_ptr.init], rfl, ⟨⟨1, 0, a, some d⟩, ?_, rfl, rfl⟩,
        rfl⟩
      simp [new_cb_heap, shared_ptr.init]
    · cases h0

/-- The owner count of an existing control block is positive, that of a control block
that is gone is 0. -/
theorem owner_count_eq_zero {st : SState D σ} (hwf : WF st) (c : Nat) :
    owner_count st c = 0 ↔ st.heap c = none := by
  unfold owner_count
  cases hh : st.heap c with
  | none => simp
  | some blk =>
    have := hwf.counts c blk hh
    simp only [reduceCtorEq, iff_false]
    omega

/-- In a well-formed state every statement whose objects exist is defined: no statement
ever reaches a control block that is gone. -/
theorem step_defined (fx : Fx D σ) {st : SState D σ} (hwf : WF st) (op : SOp D)
    (hen : Enabled st op) : (step fx st op).isSome = true := by
  cases op with
  | ctor x p =>
    have hf : shared_ptr.Fresh x st := hen
    by_cases hp : p = 0
    · simp [step, shared_ptr.ctor, hf, hp]
    · simp [step, shared_ptr.ctor, hf, hp]
  | ctor_deleter x p d =>
    have hf : shared_ptr.Fresh x st := hen
    by_cases hp : p = 0
    · simp [step, shared_ptr.ctor_deleter, hf, hp]
    · simp [step, shared_ptr.ctor_deleter, hf, hp]
  | dtor x =>
    have hx : x ∈ st.live := hen
    obtain ⟨st1, hdec, _⟩ := decrement_spec fx hwf x hx
    simp [step, shared_ptr.dtor, hx, hdec]
  | copy_ctor x o =>
    have hfo : shared_ptr.Fresh x st ∧ o ∈ st.live := hen
    have hxo : x ≠ o := fun e => hfo.1.1 (e ▸ hfo.2)
    have hC := hwf.create_null x (st.objs o).m_ptr hfo.1
    obtain ⟨st', hinc, _⟩ := increment_spec hC x o (List.mem_cons_self _ _)
      (List.mem_cons_of_mem _ hfo.2) (by simp)
      (s := shared_ptr.create x ⟨(st.objs o).m_ptr, (st.objs o).m_control_block⟩ st)
      rfl rfl rfl rfl
      (fun y _ hy => by simp [hy])
      (by simp [Ne.symm hxo])
    simp only [step, shared_ptr.copy_ctor, hfo, and_self, if_true]
    rw [hinc]
    rfl
  | copy_assign x o =>
    have hxo : x ∈ st.live ∧ o ∈ st.live := hen
    by_cases hne : x = o
    · simp [step, shared_ptr.copy_assign, hxo, hne]
    · obtain ⟨st1, hdec, hlive, _, _, _, _, hwfD⟩ := decrement_spec fx hwf x hxo.1
      have hD := hwfD (shared_ptr.set_m_control_block x 0 st1) rfl rfl rfl rfl
        (fun y _ hy => by simp [hy]) (by simp)
      obtain ⟨st2, hinc, _⟩ := increment_spec hD x o
        (by simpa [hlive] using hxo.1) (by simpa [hlive] using hxo.2) (by simp)
        (s := shared_ptr.set_m_control_block x
          ((shared_ptr.set_m_ptr x (st1.objs o).m_ptr st1).objs o).m_control_block
          (shared_ptr.set_m_ptr x (st1.objs o).m_ptr st1))
        rfl rfl rfl rfl (fun y _ hy => by simp [hy]) (by simp [Ne.symm hne])
      simp only [step, shared_ptr.copy_assign, hxo, and_self, if_true, ne_eq, hne,
        not_false_eq_true, hdec]
      rw [hinc]
      rfl
  | move_ctor x o =>
    have hfo : shared_ptr.Fresh x st ∧ o ∈ st.live := hen
    simp [step, shared_ptr.move_ctor, hfo]
  | move_assign x o =>
    have hxo : x ∈ st.live ∧ o ∈ st.live := hen
    by_cases hne : x = o
    · simp [step, shared_ptr.move_assign, hxo, hne]
    · obtain ⟨st1, hdec, _⟩ := decrement_spec fx hwf x hxo.1
      simp [step, shared_ptr.move_assign, hxo, hne, hdec]
  | reset x p =>
    have hx : x ∈ st.live := hen
    obtain ⟨st1, hdec, _⟩ := decrement_spec fx hwf x hx
    by_cases hp : p = 0
    · simp [step, shared_ptr.reset, hx, hdec, hp]
    · simp [step, shared_ptr.reset, hx, hdec, hp]
  | swap x o =>
    have hxo : x ∈ st.live ∧ o ∈ st.live := hen
    simp [step, shared_ptr.swap, hxo]

/-- Conversely, a defined statement named only existing objects. -/
theorem enabled_of_step (fx : Fx D σ) {st st' : SState D σ} (op : SOp D)
    (h : step fx st op = some st') : Enabled st op := by
  cases op with
  | ctor x p =>
    have h' : shared_ptr.ctor x p st = some st' := h
    unfold shared_ptr.ctor at h'
    split at h'
    · assumption
    · cases h'
  | ctor_deleter x p d =>
    have h' : shared_ptr.ctor_deleter x p d st = some st' := h
    unfold shared_ptr.ctor_deleter at h'
    split at h'
    · assumption
    · cases h'
  | dtor x =>
    have h' : shared_ptr.dtor fx x st = some st' := h
    unfold shared_ptr.dtor at h'
    split at h'
    · assumption
    · cases h'
  | copy_ctor x o =>
    have h' : shared_ptr.copy_ctor x o st = some st' := h
    unfold shared_ptr.copy_ctor at h'
    split at h'
    · assumption
    · cases h'
  | copy_assign x o =>
    have h' : shared_ptr.copy_assign fx x o st = some st' := h
    unfold shared_ptr.copy_assign at h'
    split at h'
    · assumption
    · cases h'
  | move_ctor x o =>
    have h' : shared_ptr.move_ctor x o st = some st' := h
    unfold shared_ptr.move_ctor at h'
    split at h'
    · assumption
    · cases h'
  | move_assign x o =>
    have h' : shared_ptr.move_assign fx x o st = some st' := h
    unfold shared_ptr.move_assign at h'
    split at h'
    · assumption
    · cases h'
  | reset x p =>
    have h' : shared_ptr.reset fx x p st = some st' := h
    unfold shared_ptr.reset at h'
    split at h'
    · assumption
    · cases h'
  | swap x o =>
    have h' : shared_ptr.swap x o st = some st' := h
    unfold shared_ptr.swap at h'
    split at h'
    · assumption
    · cases h'

/-! ### Payload addresses are kept -/

theorem HeapKeeps.heapKeeps_refl (s : SState D σ) (n : Nat) : HeapKeeps s s n :=
  fun _ blk' h _ => ⟨blk', h, rfl⟩

theorem HeapKeeps.of_heap_eq {s s' : SState D σ} (n : Nat) (h : s'.heap = s.heap) :
    HeapKeeps s s' n :=
  fun c blk' hb _ => ⟨blk', by rw [← h]; exact hb, rfl⟩

theorem Keeps.keeps_refl (st : SState D σ) : Keeps st st :=
  ⟨HeapKeeps.heapKeeps_refl st _, fun _ he => Or.inl he⟩

theorem Keeps.of_eq {st st' : SState D σ} (hheap : st'.heap = st.heap)
    (htrace : st'.trace = st.trace) : Keeps st st' :=
  ⟨HeapKeeps.of_heap_eq _ hheap, fun _ he => Or.inl (htrace ▸ he)⟩

/-- A step that keeps payload addresses followed by changes that leave the log alone. -/
theorem Keeps.then {st s s' : SState D σ} (h1 : Keeps st s) (h2 : HeapKeeps s s' st.next)
    (htrace : s'.trace = s.trace) : Keeps st s' := by
  refine ⟨?_, ?_⟩
  · intro c blk' hb hc
    obtain ⟨blk1, hb1, hp1⟩ := h2 c blk' hb hc
    obtain ⟨blk, hb0, hp0⟩ := h1.1 c blk1 hb1 hc
    exact ⟨blk, hb0, hp0.trans hp1⟩
  · intro e he
    rw [htrace] at he
    exact h1.2 e he

theorem decrement_keeps (fx : Fx D σ) (x : Nat) (st st1 : SState D σ)
    (h : shared_ptr.decrement_ref_count fx x st = some st1) :
    st1.next = st.next ∧ Keeps st st1 := by
  by_cases hc : (st.objs x).m_control_block = 0
  · rw [decrement_null fx st x hc] at h
    simp only [Option.some.injEq] at h
    subst h
    exact ⟨rfl, Keeps.keeps_refl st⟩
  · cases hb : st.heap (st.objs x).m_control_block with
    | none => simp [shared_ptr.decrement_ref_count, hc, hb] at h
    | some blk =>
      have hheap : ∀ c blk', st1.heap c = some blk' →
          ∃ b, st.heap c = some b ∧ b.ptr = blk'.ptr := by
        intro c blk' hb'
        by_cases hz : (blk.shared_count + PTR_MOD - 1) % PTR_MOD = 0
        · by_cases hw : blk.weak_count = 0
          · simp [shared_ptr.decrement_ref_count, hc, hb, hz, hw] at h
            subst h
            by_cases hcc : c = (st.objs x).m_control_block
            · subst hcc
              simp at hb'
            · exact ⟨blk', by simpa [Function.update_noteq hcc] using hb', rfl⟩
          · simp [shared_ptr.decrement_ref_count, hc, hb, hz, hw] at h
            subst h
            by_cases hcc : c = (st.objs x).m_control_block
            · subst hcc
              simp at hb'
              exact ⟨blk, hb, by rw [← hb']⟩
            · exact ⟨blk', by simpa [Function.update_noteq hcc] using hb', rfl⟩
        · simp [shared_ptr.decrement_ref_count, hc, hb, hz] at h
          subst h
          by_cases hcc : c = (st.objs x).m_control_block
          · subst hcc
            simp at hb'
            exact ⟨blk, hb, by rw [← hb']⟩
          · exact ⟨blk', by simpa [Function.update_noteq hcc] using hb', rfl⟩
      have htrace : st1.trace = st.trace ∨
          st1.trace = st.trace ++ [((st.objs x).m_control_block, blk.ptr)] := by
        by_cases hz : (blk.shared_count + PTR_MOD - 1) % PTR_MOD = 0
        · by_cases hw : blk.weak_count = 0
          · simp [shared_ptr.decrement_ref_count, hc, hb, hz, hw] at h
            subst h
            exact Or.inr rfl
          · simp [shared_ptr.decrement_ref_count, hc, hb, hz, hw] at h
            subst h
            exact Or.inr rfl
        · simp [shared_ptr.decrement_ref_count, hc, hb, hz] at h
          subst h
          exact Or.inl rfl
      have hnext : st1.next = st.next := by
        by_cases hz : (blk.shared_count + PTR_MOD - 1) % PTR_MOD = 0
        · by_cases hw : blk.weak_count = 0
          · simp [shared_ptr.decrement_ref_count, hc, hb, hz, hw] at h
            subst h
            rfl
          · simp [shared_ptr.decrement_ref_count, hc, hb, hz, hw] at h
            subst h
            rfl
        · simp [shared_ptr.decrement_ref_count, hc, hb, hz] at h
          subst h
          rfl
      refine ⟨hnext, fun c blk' hb' _ => hheap c blk' hb', ?_⟩
      intro e he
      rcases htrace with ht | ht
      · exact Or.inl (ht ▸ he)
      · rw [ht] at he
        rcases List.mem_append.1 he with h1 | h1
        · exact Or.inl h1
        · rw [List.mem_singleton.1 h1]
          exact Or.inr ⟨blk, hb, rfl⟩

theorem increment_keeps (x : Nat) (s s' : SState D σ) (n : Nat)
    (h : shared_ptr.increment_ref_count x s = some s') :
    s'.next = s.next ∧ s'.trace = s.trace ∧ HeapKeeps s s' n := by
  unfold shared_ptr.increment_ref_count at h
  split at h
  · split at h
    · cases h
    · rename_i blk hb
      simp only [Option.some.injEq] at h
      subst h
      refine ⟨rfl, rfl, ?_⟩
      intro c blk' hb' _
      by_cases hcc : c = (s.objs x).m_control_block
      · subst hcc
        refine ⟨blk, hb, ?_⟩
        simp at hb'
        rw [← hb']
      · refine ⟨blk', ?_, rfl⟩
        simpa [Function.update_noteq hcc] using hb'
  · simp only [Option.some.injEq] at h
    subst h
    exact ⟨rfl, rfl, HeapKeeps.heapKeeps_refl s n⟩

/-- A control block allocated at `next` does not disturb the blocks below. -/
theorem new_cb_heapKeeps (p : Nat) (d : Option D) (s : SState D σ) (n : Nat)
    (hn : n ≤ s.next) : HeapKeeps s (shared_ptr.new_control_block p d s).2 n := by
  intro c blk' hb hc
  rw [new_cb_heap, Function.update_noteq (by omega)] at hb
  exact ⟨blk', hb, rfl⟩

/-- Every defined statement keeps payload addresses. -/
theorem step_keeps (fx : Fx D σ) {st st' : SState D σ} (op : SOp D)
    (h : step fx st op = some st') : Keeps st st' := by
  cases op with
  | ctor x p =>
    have h' : shared_ptr.ctor x p st = some st' := h
    unfold shared_ptr.ctor at h'
    split at h'
    · simp only at h'
      split at h'
      · simp only [Option.some.injEq] at h'
        subst h'
        exact (Keeps.keeps_refl st).then (new_cb_heapKeeps _ _ _ _ (le_refl _)) rfl
      · simp only [Option.some.injEq] at h'
        subst h'
        exact Keeps.of_eq rfl rfl
    · cases h'
  | ctor_deleter x p d =>
    have h' : shared_ptr.ctor_deleter x p d st = some st' := h
    unfold shared_ptr.ctor_deleter at h'
    split at h'
    · simp only at h'
      split at h'
      · simp only [Option.some.injEq] at h'
        subst h'
        exact (Keeps.keeps_refl st).then (new_cb_heapKeeps _ _ _ _ (le_refl _)) rfl
      · simp only [Option.some.injEq] at h'
        subst h'
        exact Keeps.of_eq rfl rfl
    · cases h'
  | dtor x =>
    have h' : shared_ptr.dtor fx x st = some st' := h
    unfold shared_ptr.dtor at h'
    split at h'
    · split at h'
      · cases h'
      · rename_i st1 hdec
        simp only [Option.some.injEq] at h'
        subst h'
        exact (decrement_keeps fx x st st1 hdec).2.then (HeapKeeps.of_heap_eq _ rfl) rfl
    · cases h'
  | copy_ctor x o =>
    have h' : shared_ptr.copy_ctor x o st = some st' := h
    unfold shared_ptr.copy_ctor at h'
    split at h'
    · simp only at h'
      obtain ⟨_, ht, hk⟩ := increment_keeps x _ st' st.next h'
      exact (Keeps.keeps_refl st).then hk ht
    · cases h'
  | copy_assign x o =>
    have h' : shared_ptr.copy_assign fx x o st = some st' := h
    unfold shared_ptr.copy_assign at h'
    split at h'
    · split at h'
      · split at h'
        · cases h'
        · rename_i st1 hdec
          simp only at h'
          obtain ⟨_, ht, hk⟩ := increment_keeps x _ st' st.next h'
          exact (decrement_keeps fx x st st1 hdec).2.then hk ht
      · simp only [Option.some.injEq] at h'
        subst h'
        exact Keeps.keeps_refl st
    · cases h'
  | move_ctor x o =>
    have h' : shared_ptr.move_ctor x o st = some st' := h
    unfold shared_ptr.move_ctor at h'
    split at h'
    · simp only [Option.some.injEq] at h'
      subst h'
      exact Keeps.of_eq rfl rfl
    · cases h'
  | move_assign x o =>
    have h' : shared_ptr.move_assign fx x o st = some st' := h
    unfold shared_ptr.move_assign at h'
    split at h'
    · split at h'
      · split at h'
        · cases h'
        · rename_i st1 hdec
          simp only [Option.some.injEq] at h'
          subst h'
          exact (decrement_keeps fx x st st1 hdec).2.then (HeapKeeps.of_heap_eq _ rfl) rfl
      · simp only [Option.some.injEq] at h'
        subst h'
        exact Keeps.keeps_refl st
    · cases h'
  | reset x p =>
    have h' : shared_ptr.reset fx x p st = some st' := h
    unfold shared_ptr.reset at h'
    split at h'
    · split at h'
      · cases h'
      · rename_i st1 hdec
        obtain ⟨hn1, hk1⟩ := decrement_keeps fx x st st1 hdec
        simp only at h'
        split at h'
        · simp only [Option.some.injEq] at h'
          subst h'
          refine hk1.then ?_ rfl
          exact new_cb_heapKeeps p none (shared_ptr.set_m_ptr x p st1) st.next
            (by simp [hn1])
        · simp only [Option.some.injEq] at h'
          subst h'
          exact hk1.then (HeapKeeps.of_heap_eq _ rfl) rfl
    · cases h'
  | swap x o =>
    have h' : shared_ptr.swap x o st = some st' := h
    unfold shared_ptr.swap at h'
    split at h'
    · simp only [Option.some.injEq] at h'
      subst h'
      exact Keeps.of_eq rfl rfl
    · cases h'

/-- A defined run followed by one more defined statement. -/
theorem run_snoc (fx : Fx D σ) (op : SOp D) : ∀ (l : List (SOp D)) (s st st' : SState D σ),
    run fx s l = some st → step fx st op = some st' → run fx s (l ++ [op]) = some st' := by
  intro l
  induction l with
  | nil =>
    intro s st st' h hstep
    simp only [run, Option.some.injEq] at h
    subst h
    simp [run, hstep]
  | cons o l ih =>
    intro s st st' h hstep
    simp only [run] at h
    split at h
    · cases h
    · rename_i s1 hs1
      have := ih s1 st st' h hstep
      simp only [List.cons_append, run, hs1]
      exact this

theorem filter_eq_replicate {α : Type} (p : α → Bool) (v : α) :
    ∀ l : List α, (∀ e ∈ l, p e = true → e = v) →
      l.filter p = List.replicate (l.countP p) v := by
  intro l
  induction l with
  | nil => intro _; rfl
  | cons e l ih =>
    intro h
    have ih' := ih (fun e' he' => h e' (List.mem_cons_of_mem _ he'))
    by_cases hp : p e = true
    · have he := h e (List.mem_cons_self _ _) hp
      rw [List.filter_cons_of_pos hp, List.countP_cons_of_pos _ _ hp, ih', he]
      rfl
    · rw [List.filter_cons_of_neg hp, List.countP_cons_of_neg _ _ hp, ih']

/-- Along a defined run, control block `c` keeps the payload address `a` and every log
entry for `c` names `a`. -/
theorem run_payload (fx : Fx D σ) (c a : Nat) : ∀ (ops : List (SOp D)) (s s' : SState D σ),
    WF s → c < s.next →
    (∀ blk, s.heap c = some blk → blk.ptr = a) → (∀ e ∈ s.trace, e.1 = c → e.2 = a) →
    run fx s ops = some s' →
    (∀ blk, s'.heap c = some blk → blk.ptr = a) ∧ (∀ e ∈ s'.trace, e.1 = c → e.2 = a) := by
  intro ops
  induction ops with
  | nil =>
    intro s s' _ _ h1 h2 h
    simp only [run, Option.some.injEq] at h
    subst h
    exact ⟨h1, h2⟩
  | cons op ops ih =>
    intro s s' hwf hc h1 h2 h
    simp only [run] at h
    split at h
    · cases h
    · rename_i s1 hs1
      obtain ⟨hwf1, hn1, _, _⟩ := step_spec fx hwf op hs1
      obtain ⟨hk1, hk2⟩ := step_keeps fx op hs1
      refine ih s1 s' hwf1 (by omega) ?_ ?_ h
      · intro blk hb
        obtain ⟨b, hb0, hp⟩ := hk1 c blk hb hc
        rw [← hp]
        exact h1 b hb0
      · intro e he hec
        rcases hk2 e he with h3 | ⟨b, hb0, hp⟩
        · exact h2 e h3 hec
        · rw [hp]
          rw [hec] at hb0
          exact h1 b hb0

end SState

/-! ## shared_ptr: the claims -/

namespace shared_ptr

open SState

variable {D σ : Type}

/-- C4 (shared count arithmetic). Start from one `shared_ptr` constructed from a
non-null address (with or without a deleter) and run any sequence of copy-constructions
and destructions that is defined (it only names existing objects): on every
surviving object `use_count()` returns the number of objects that currently exist.
Moreover, in every state reachable by any statements whatsoever, `use_count()` of an
existing object is 0 exactly when the object has no control block. -/
theorem shared_use_count (fx : Fx D σ) (w : σ) (this0 a : Nat) (st0 : SState D σ)
    (ha : a ≠ 0)
    (h0 : ctor this0 a (init w) = some st0 ∨ ∃ d, ctor_deleter this0 a d (init w) = some st0)
    (ops : List (SOp D)) (hops : ∀ op ∈ ops, op.isCopyOrDestroy = true)
    (st : SState D σ) (hrun : run fx st0 ops = some st) :
    (∀ x ∈ st.live, use_count x st = some st.live.length) ∧
    (∀ (ops' : List (SOp D)) (st' : SState D σ), run fx st0 ops' = some st' →
      ∀ x ∈ st'.live, (use_count x st' = some 0 ↔ (st'.objs x).m_control_block = 0)) := by
  obtain ⟨hwf0, hlive0, hcb0, _, _, _⟩ := ctor_init w this0 a st0 ha h0
  constructor
  · have key : ∀ (ops : List (SOp D)) (s s' : SState D σ), WF s →
        (∀ x ∈ s.live, (s.objs x).m_control_block = 1) →
        (∀ op ∈ ops, op.isCopyOrDestroy = true) → run fx s ops = some s' →
        WF s' ∧ ∀ x ∈ s'.live, (s'.objs x).m_control_block = 1 := by
      intro ops
      induction ops with
      | nil =>
        intro s s' hwf hall _ h
        simp only [run, Option.some.injEq] at h
        subst h
        exact ⟨hwf, hall⟩
      | cons op ops ih =>
        intro s s' hwf hall hops h
        simp only [run] at h
        split at h
        · cases h
        · rename_i s1 hs1
          have hop := hops op (List.mem_cons_self _ _)
          have hrest : ∀ op' ∈ ops, op'.isCopyOrDestroy = true :=
            fun op' h' => hops op' (List.mem_cons_of_mem _ h')
          refine ih s1 s' (step_spec fx hwf op hs1).1 ?_ hrest h
          cases op with
          | dtor x =>
            obtain ⟨_, _, hl, ho⟩ := dtor_spec fx hwf x hs1
            intro y hy
            rw [hl] at hy
            have hy' := (List.Nodup.mem_erase_iff hwf.nodup).1 hy
            rw [ho y hy'.1]
            exact hall y hy'.2
          | copy_ctor x o =>
            obtain ⟨_, _, hl, ho, hx⟩ := copy_ctor_spec hwf x o hs1
            have homem : o ∈ s.live := by
              have hs1' : shared_ptr.copy_ctor x o s = some s1 := hs1
              unfold shared_ptr.copy_ctor at hs1'
              split at hs1'
              · rename_i hc
                exact hc.2
              · cases hs1'
            intro y hy
            rw [hl] at hy
            by_cases hyx : y = x
            · subst hyx
              rw [hx]
              exact hall o homem
            · rw [ho y hyx]
              rcases List.mem_cons.1 hy with e | hy
              · exact absurd e hyx
              · exact hall y hy
          | ctor _ _ => cases hop
          | ctor_deleter _ _ _ => cases hop
          | copy_assign _ _ => cases hop
          | move_ctor _ _ => cases hop
          | move_assign _ _ => cases hop
          | reset _ _ => cases hop
          | swap _ _ => cases hop
    obtain ⟨hwf, hall⟩ := key ops st0 st hwf0
      (fun x hx => by
        rw [hlive0] at hx
        rw [List.mem_singleton.1 hx]
        exact hcb0)
      hops hrun
    intro x hx
    have hc := hall x hx
    obtain ⟨blk, hb⟩ := hwf.heap_of_live hx (by rw [hc]; decide)
    have hcnt := (hwf.counts _ blk hb).1
    have hrefs : st.refs (st.objs x).m_control_block = st.live.length := by
      unfold refs
      rw [List.countP_eq_length]
      intro y hy
      simp [hall y hy, hc]
    unfold use_count
    rw [if_pos (by rw [hc]; decide), hb]
    simp only [Option.some.injEq]
    omega
  · intro ops' st' hrun' x hx
    obtain ⟨hwf', _, _⟩ := run_spec fx ops' st0 st' hwf0 hrun'
    unfold use_count
    by_cases hc : (st'.objs x).m_control_block = 0
    · simp [hc]
    · obtain ⟨blk, hb⟩ := hwf'.heap_of_live hx hc
      have hcnt := hwf'.counts _ blk hb
      rw [if_pos hc, hb]
      simp only [Option.some.injEq, hc, iff_false]
      omega

/-- C4, at a concrete program: `sp1` constructed from 4128, copied twice, both copies
destroyed again. -/
theorem shared_use_count_witness :
    ((4128 : Nat) ≠ 0 ∧
      (ctor 28672 4128 (init []) = some exampleS0 ∨
        ∃ d, ctor_deleter 28672 4128 d (init []) = some exampleS0) ∧
      (∀ op ∈ exampleSOps, op.isCopyOrDestroy = true) ∧
      run (recordFx PoolDeleter) exampleS0 exampleSOps = some exampleS1) ∧
    (∀ x ∈ exampleS1.live, use_count x exampleS1 = some exampleS1.live.length) ∧
    (∀ (ops' : List (SOp PoolDeleter)) (st' : SState PoolDeleter (List (Option PoolDeleter × Nat))),
      run (recordFx PoolDeleter) exampleS0 ops' = some st' →
      ∀ x ∈ st'.live, (use_count x st' = some 0 ↔ (st'.objs x).m_control_block = 0)) :=
  ⟨⟨by decide, Or.inl rfl, by decide, rfl⟩,
   shared_use_count (recordFx PoolDeleter) [] 28672 4128 exampleS0 (by decide) (Or.inl rfl)
     exampleSOps (by decide) exampleS1 rfl⟩

/-- C5 (shared release-once). Start from one `shared_ptr` constructed from a non-null
address (with or without a deleter), with control block `c0`, and run any defined
statements (copies, destructions, resets,
assignments, moves, swaps, also involving other objects). Initially the owner count of
`c0` is 1 and its `destroy_object()` has not run. In every reachable state the number of
`destroy_object()` calls made on `c0` is 1 if the owner count of `c0` has reached 0 and
0 otherwise; a statement adds a call exactly when it takes the owner count from 1 to 0;
once the owner count is 0 it stays 0, so no second call follows; and the call, once
made, is the one call on the payload address `a`. -/
theorem shared_release_once (fx : Fx D σ) (w : σ) (this0 a : Nat) (st0 : SState D σ)
    (ha : a ≠ 0)
    (h0 : ctor this0 a (init w) = some st0 ∨ ∃ d, ctor_deleter this0 a d (init w) = some st0)
    (ops : List (SOp D)) (st : SState D σ) (hrun : run fx st0 ops = some st)
    (op : SOp D) (st' : SState D σ) (hstep : step fx st op = some st') :
    owner_count st0 (st0.objs this0).m_control_block = 1 ∧
    destroyed st0 (st0.objs this0).m_control_block = 0 ∧
    destroyed st (st0.objs this0).m_control_block
      = (if owner_count st (st0.objs this0).m_control_block = 0 then 1 else 0) ∧
    destroyed st' (st0.objs this0).m_control_block
      = (if owner_count st' (st0.objs this0).m_control_block = 0 then 1 else 0) ∧
    (destroyed st' (st0.objs this0).m_control_block
        = destroyed st (st0.objs this0).m_control_block + 1 ↔
      owner_count st (st0.objs this0).m_control_block = 1 ∧
        owner_count st' (st0.objs this0).m_control_block = 0) ∧
    (owner_count st (st0.objs this0).m_control_block = 0 →
      owner_count st' (st0.objs this0).m_control_block = 0) ∧
    st'.trace.filter (fun e => decide (e.1 = (st0.objs this0).m_control_block))
      = (if owner_count st' (st0.objs this0).m_control_block = 0
          then [((st0.objs this0).m_control_block, a)] else []) := by
  obtain ⟨hwf0, _, hcb0, hnext0, ⟨blk0, hb0, hcount0, hptr0⟩, htrace0⟩ :=
    ctor_init w this0 a st0 ha h0
  obtain ⟨hwf, hnext, _⟩ := run_spec fx ops st0 st hwf0 hrun
  obtain ⟨hwf', hnext', hrem, hgone⟩ := step_spec fx hwf op hstep
  rw [hcb0]
  have hd : ∀ s : SState D σ, WF s → 2 ≤ s.next →
      destroyed s 1 = (if owner_count s 1 = 0 then 1 else 0) := by
    intro s hs hn
    rw [hs.traced 1]
    by_cases hh : s.heap 1 = none
    · rw [if_pos ⟨by omega, by omega, by simp [hh]⟩, if_pos ((owner_count_eq_zero hs 1).2 hh)]
    · rw [if_neg (fun h => hh (by simpa using h.2.2)),
        if_neg (fun h => hh ((owner_count_eq_zero hs 1).1 h))]
  have hst := hd st hwf (by omega)
  have hst' := hd st' hwf' (by omega)
  have hstay : owner_count st 1 = 0 → owner_count st' 1 = 0 := by
    intro h
    rw [owner_count_eq_zero hwf] at h
    rw [owner_count_eq_zero hwf']
    exact hgone 1 (by omega) h
  have hdrop : owner_count st' 1 = 0 → owner_count st 1 ≤ 1 := by
    intro h
    rw [owner_count_eq_zero hwf'] at h
    unfold owner_count
    cases hh : st.heap 1 with
    | none => simp
    | some blk =>
      have := hrem 1 blk hh h
      simp only
      omega
  have hrun' := run_snoc fx op ops st0 st st' hrun hstep
  have hpay := run_payload fx 1 a (ops ++ [op]) st0 st' hwf0 (by omega)
    (fun blk hb => by
      rw [hb0] at hb
      cases hb
      exact hptr0)
    (fun e he => by
      rw [htrace0] at he
      cases he)
    hrun'
  have hfilter : st'.trace.filter (fun e => decide (e.1 = 1))
      = List.replicate (destroyed st' 1) (1, a) := by
    unfold destroyed
    apply filter_eq_replicate
    intro e he hp
    have h1 : e.1 = 1 := by simpa using hp
    have h2 := hpay.2 e he h1
    exact Prod.ext h1 h2
  refine ⟨by simp [owner_count, hb0, hcount0], by simp [destroyed, htrace0], hst, hst',
    ?_, hstay, ?_⟩
  rotate_left
  · rw [hfilter, hst']
    split <;> rfl
  rw [hst, hst']
  constructor
  · intro h
    by_cases h1 : owner_count st' 1 = 0
    · by_cases h2 : owner_count st 1 = 0
      · rw [if_pos h1, if_pos h2] at h
        omega
      · have := hdrop h1
        exact ⟨by omega, h1⟩
    · rw [if_neg h1] at h
      omega
  · rintro ⟨h1, h2⟩
    rw [if_pos h2, if_neg (by omega)]

/-- C5, at a concrete program: `sp1` constructed from 4128, copied twice, both copies
destroyed, and then `sp1` itself destroyed as the last owner. -/
theorem shared_release_once_witness :
    ((4128 : Nat) ≠ 0 ∧
      (ctor 28672 4128 (init []) = some exampleS0 ∨
        ∃ d, ctor_deleter 28672 4128 d (init []) = some exampleS0) ∧
      run (recordFx PoolDeleter) exampleS0 exampleSOps = some exampleS1 ∧
      step (recordFx PoolDeleter) exampleS1 (SOp.dtor 28672) = some exampleS2) ∧
    owner_count exampleS0 (exampleS0.objs 28672).m_control_block = 1 ∧
    destroyed exampleS0 (exampleS0.objs 28672).m_control_block = 0 ∧
    destroyed exampleS1 (exampleS0.objs 28672).m_control_block
      = (if owner_count exampleS1 (exampleS0.objs 28672).m_control_block = 0 then 1 else 0) ∧
    destroyed exampleS2 (exampleS0.objs 28672).m_control_block
      = (if owner_count exampleS2 (exampleS0.objs 28672).m_control_block = 0 then 1 else 0) ∧
    (destroyed exampleS2 (exampleS0.objs 28672).m_control_block
        = destroyed exampleS1 (exampleS0.objs 28672).m_control_block + 1 ↔
      owner_count exampleS1 (exampleS0.objs 28672).m_control_block = 1 ∧
        owner_count exampleS2 (exampleS0.objs 28672).m_control_block = 0) ∧
    (owner_count exampleS1 (exampleS0.objs 28672).m_control_block = 0 →
      owner_count exampleS2 (exampleS0.objs 28672).m_control_block = 0) ∧
    exampleS2.trace.filter (fun e => decide (e.1 = (exampleS0.objs 28672).m_control_block))
      = (if owner_count exampleS2 (exampleS0.objs 28672).m_control_block = 0
          then [((exampleS0.objs 28672).m_control_block, 4128)] else []) :=
  ⟨⟨by decide, Or.inl rfl, rfl, rfl⟩,
   shared_release_once (recordFx PoolDeleter) [] 28672 4128 exampleS0 (by decide) (Or.inl rfl)
     exampleSOps exampleS1 rfl (SOp.dtor 28672) exampleS2 rfl⟩

end shared_ptr

/-! ## PoolAllocator: block addresses and allocation order -/

namespace PoolAllocator

/-- When `block_size * N` does not overflow, the offset of block `i < N` does not wrap:
the block lies at `base + i * block_size`, and the whole block lies inside the buffer. -/
theorem blockAddr_eq (base bs N i : Nat) (hno : bs * N < PTR_MOD) (hi : i < N) :
    blockAddr base bs i = base + i * bs ∧ base + i * bs + bs ≤ base + bs * N := by
  have h1 : (i + 1) * bs ≤ bs * N := by
    rw [Nat.mul_comm bs N]
    exact Nat.mul_le_mul_right bs (by omega)
  rw [Nat.add_mul] at h1
  unfold blockAddr
  rw [Nat.mod_eq_of_lt (by omega)]
  omega

/-- A buffer that operator new can return has at most `PTRDIFF_MAX = 2^63 - 1` bytes;
on such a buffer a construction that succeeded did not overflow `block_size * N`. -/
theorem new_no_overflow (bs N base : Nat) (mem : Memory) (p : PoolAllocator) (mem' : Memory)
    (h : PoolAllocator.new bs N base mem = some (p, mem')) (hbs : bs < PTR_MOD)
    (hmax : (bs * N) % PTR_MOD < 2 ^ 63) : bs * N < PTR_MOD := by
  obtain ⟨_, _, _, _, hb, _, _⟩ := new_spec bs N base mem p mem' h
  have key : ∀ j, j ≤ N → j * bs < PTR_MOD := by
    intro j
    induction j with
    | zero => intro _; unfold PTR_MOD; omega
    | succ j ih =>
      intro hj
      have hjlt := ih (by omega)
      have hbj := hb j (by omega)
      unfold blockAddr at hbj
      rw [Nat.mod_eq_of_lt hjlt] at hbj
      rw [Nat.add_mul, Nat.one_mul]
      rcases Nat.eq_zero_or_pos j with rfl | hpos
      · simpa using hbs
      · have hb1 := hb 1 (by omega)
        unfold blockAddr at hb1
        rw [Nat.one_mul, Nat.mod_eq_of_lt hbs] at hb1
        unfold PTR_SIZE at *
        unfold PTR_MOD at *
        omega
  rw [Nat.mul_comm]
  exact key N (le_refl _)

/-- The first `k` calls on a free list `l` return the first `k` blocks of `l` and leave
the rest of `l` as the free list. -/
theorem allocateMany_take (mem : Memory) :
    ∀ (l : List Nat) (p : PoolAllocator), IsFreeList mem p.m_free_list l →
      ∀ k, k ≤ l.length →
        (allocateMany mem k p).1 = l.take k ∧
        IsFreeList mem (allocateMany mem k p).2.m_free_list (l.drop k) := by
  intro l
  induction l with
  | nil =>
    intro p h k hk
    have hk0 : k = 0 := by simpa using hk
    subst hk0
    exact ⟨rfl, h⟩
  | cons a l ih =>
    intro p h k hk
    cases k with
    | zero => exact ⟨rfl, h⟩
    | succ k =>
      obtain ⟨h1, h2, h3⟩ := h
      have hne : p.m_free_list ≠ 0 := h1 ▸ h2
      have hk' : k ≤ l.length := by simpa using hk
      have := ih { p with m_free_list := loadPtr mem p.m_free_list } (by simpa [h1] using h3) k hk'
      simp only [allocateMany, allocate, if_neg hne, List.take_succ_cons, List.drop_succ_cons]
      exact ⟨by rw [this.1, h1], this.2⟩

/-- The address `allocate()` returns on a non-empty free list is its first block. -/
theorem allocate_head (mem : Memory) (p : PoolAllocator) (a : Nat) (l : List Nat)
    (h : IsFreeList mem p.m_free_list (a :: l)) : (p.allocate mem).1 = a := by
  obtain ⟨h1, h2, _⟩ := h
  have hne : p.m_free_list ≠ 0 := h1 ▸ h2
  simp only [allocate, if_neg hne]
  exact h1

theorem blocks_reverse_drop (base bs N k : Nat) (hk : k < N) :
    ∃ rest, ((blocks base bs N).reverse).drop k = blockAddr base bs (N - (k + 1)) :: rest := by
  have hlen : ((blocks base bs N).reverse).length = N := by simp [blocks]
  have hk' : k < ((blocks base bs N).reverse).length := by omega
  refine ⟨((blocks base bs N).reverse).drop (k + 1), ?_⟩
  rw [List.drop_eq_getElem_cons hk']
  congr 1
  simp only [List.getElem_reverse, blocks, List.getElem_map, List.getElem_range, List.length_map,
    List.length_range]
  congr 1
  omega

/-- C19 (initial allocation order). On every pool that `PoolAllocator(block_size, N)`
constructed, for every `k` with `1 ≤ k ≤ N` the `k`-th `allocate()` call (the call made
after `k - 1` earlier calls) returns the address of block `N - k`, computed as the
constructor computes it, `m_memory_pool + (N - k) * block_size` with a `size_t` product.
When `block_size * N` does not overflow this is `base + (N - k) * block_size` literally,
the first call returns the last block `base + (N - 1) * block_size` of the buffer, and
each call returns a strictly smaller address than the call before it. -/
theorem pool_initial_order (block_size N base : Nat) (mem : Memory) (p : PoolAllocator)
    (mem' : Memory) (h : PoolAllocator.new block_size N base mem = some (p, mem')) :
    (∀ k, 1 ≤ k → k ≤ N →
      ((allocateMany mem' (k - 1) p).2.allocate mem').1 = blockAddr base block_size (N - k)) ∧
    (block_size * N < PTR_MOD →
      (∀ k, 1 ≤ k → k ≤ N →
        ((allocateMany mem' (k - 1) p).2.allocate mem').1 = base + (N - k) * block_size) ∧
      (∀ k, 1 ≤ k → k < N →
        ((allocateMany mem' k p).2.allocate mem').1
          < ((allocateMany mem' (k - 1) p).2.allocate mem').1)) := by
  obtain ⟨_, _, _, _, hb, _, hfl⟩ := new_spec block_size N base mem p mem' h
  have hlen : (blocks base block_size N).reverse.length = N := by simp [blocks]
  have key : ∀ k, 1 ≤ k → k ≤ N →
      ((allocateMany mem' (k - 1) p).2.allocate mem').1 = blockAddr base block_size (N - k) := by
    intro k hk1 hkN
    obtain ⟨_, hrest⟩ := allocateMany_take mem' _ p hfl (k - 1) (by omega)
    obtain ⟨rest, hdrop⟩ := blocks_reverse_drop base block_size N (k - 1) (by omega)
    rw [hdrop] at hrest
    rw [allocate_head mem' _ _ rest hrest]
    congr 1
    omega
  refine ⟨key, fun hno => ⟨?_, ?_⟩⟩
  · intro k hk1 hkN
    rw [key k hk1 hkN]
    exact (blockAddr_eq base block_size N (N - k) hno (by omega)).1
  · intro k hk1 hkN
    have e1 := key k hk1 (by omega)
    have e2 := key (k + 1) (by omega) (by omega)
    simp only [Nat.add_sub_cancel] at e2
    rw [e1, e2, (blockAddr_eq base block_size N (N - k) hno (by omega)).1,
      (blockAddr_eq base block_size N (N - (k + 1)) hno (by omega)).1]
    have hbs : PTR_SIZE ≤ block_size := by
      have h0 := hb 0 (by omega)
      have h1 := hb 1 (by omega)
      have e0 := (blockAddr_eq base block_size N 0 hno (by omega)).1
      have e1' := (blockAddr_eq base block_size N 1 hno (by omega)).1
      have hd := blockAddr_disjoint block_size base N hb 0 1 (by omega) (by omega)
      unfold WordsDisjoint at hd
      rw [e0, e1'] at hd
      omega
    have hstep : (N - k) * block_size = (N - (k + 1)) * block_size + block_size := by
      have : N - k = (N - (k + 1)) + 1 := by omega
      rw [this, Nat.add_mul, Nat.one_mul]
    unfold PTR_SIZE at hbs
    omega

/-- C19, at a concrete pool: three blocks of 16 bytes at address 4096 are handed out
as 4128, 4112, 4096. -/
theorem pool_initial_order_witness :
    PoolAllocator.new 16 3 4096 (fun _ => 0) = some (examplePool, exampleMem) ∧
    (16 * 3 < PTR_MOD ∧ (1 ≤ 2 ∧ 2 ≤ 3)) ∧
    ((allocateMany exampleMem (2 - 1) examplePool).2.allocate exampleMem).1 = 4096 + (3 - 2) * 16 ∧
    ((allocateMany exampleMem 2 examplePool).2.allocate exampleMem).1
      < ((allocateMany exampleMem (2 - 1) examplePool).2.allocate exampleMem).1 :=
  ⟨rfl, ⟨by decide, by decide, by decide⟩,
   ((pool_initial_order 16 3 4096 (fun _ => 0) examplePool exampleMem rfl).2 (by decide)).1 2
     (by decide) (by decide),
   ((pool_initial_order 16 3 4096 (fun _ => 0) examplePool exampleMem rfl).2 (by decide)).2 2
     (by decide) (by decide)⟩

end PoolAllocator

namespace PoolState

open PoolAllocator

/-- C17 (block addresses). On every pool that `PoolAllocator(block_size, N)` constructed:
the free list right after construction holds each block address
`m_memory_pool + i * block_size` (`i < N`, the product a `size_t` product) exactly once
and nothing else; in every sequence of calls in which `deallocate` is only given null or
outstanding addresses, every non-null address that an `allocate()` call returns is one of
these block addresses, and its link word lies inside the backing buffer; and when
`block_size * N` does not overflow, block `i` is `base + i * block_size` literally and
lies with all its `block_size` bytes inside the buffer of `block_size * N` bytes. -/
theorem pool_block_addresses (block_size N base : Nat) (mem : Memory) (p : PoolAllocator)
    (mem' : Memory) (h : PoolAllocator.new block_size N base mem = some (p, mem')) :
    (∃ l, IsFreeList mem' p.m_free_list l ∧
      (∀ i, i < N → l.count (blockAddr base block_size i) = 1) ∧
      (∀ a ∈ l, ∃ i, i < N ∧ a = blockAddr base block_size i)) ∧
    (∀ ops : List PoolOp, Admissible (fresh p mem') ops →
      (((fresh p mem').run ops).pool.allocate ((fresh p mem').run ops).mem).1 ≠ 0 →
      ∃ i, i < N ∧
        (((fresh p mem').run ops).pool.allocate ((fresh p mem').run ops).mem).1
          = blockAddr base block_size i ∧
        base ≤ blockAddr base block_size i ∧
        blockAddr base block_size i + PTR_SIZE ≤ base + (block_size * N) % PTR_MOD) ∧
    (block_size * N < PTR_MOD → ∀ i, i < N →
      blockAddr base block_size i = base + i * block_size ∧
      base + i * block_size + block_size ≤ base + block_size * N) := by
  obtain ⟨hnz, hpw⟩ := blocks_facts block_size N base mem p mem' h
  obtain ⟨_, _, _, _, hb, _, hfl⟩ := new_spec block_size N base mem p mem' h
  have hnd : (blocks base block_size N).Nodup := nodup_of_pairwise_wordsDisjoint hpw
  have hmem : ∀ a, a ∈ blocks base block_size N ↔ ∃ i, i < N ∧ a = blockAddr base block_size i := by
    intro a
    simp only [blocks, List.mem_map, List.mem_range]
    constructor
    · rintro ⟨i, hi, rfl⟩; exact ⟨i, hi, rfl⟩
    · rintro ⟨i, hi, rfl⟩; exact ⟨i, hi, rfl⟩
  refine ⟨⟨(blocks base block_size N).reverse, hfl, ?_, ?_⟩, ?_, ?_⟩
  · intro i hi
    rw [List.count_reverse]
    exact List.count_eq_one_of_mem hnd ((hmem _).2 ⟨i, hi, rfl⟩)
  · intro a ha
    exact (hmem a).1 (List.mem_reverse.1 ha)
  · intro ops hadm hne
    have hinv := inv_run base block_size N hnz hpw ops _
      (inv_fresh block_size N base mem p mem' h) hadm ops.length
    rw [List.take_length] at hinv
    obtain ⟨l, hl, hperm⟩ := hinv
    cases l with
    | nil =>
      have h0 : ((fresh p mem').run ops).pool.m_free_list = 0 := hl
      exact absurd (by simp [allocate, h0]) hne
    | cons a l =>
      rw [allocate_head _ _ a l hl]
      have ha : a ∈ blocks base block_size N :=
        hperm.subset (List.mem_append_left _ (List.mem_cons_self _ _))
      obtain ⟨i, hi, rfl⟩ := (hmem a).1 ha
      exact ⟨i, hi, rfl, by unfold blockAddr; omega, hb i hi⟩
  · intro hno i hi
    exact blockAddr_eq base block_size N i hno hi

/-- C17, at a concrete pool and run: three blocks of 16 bytes at 4096; after
`exampleOps` the next `allocate()` returns block 1 at `4096 + 1 * 16`. -/
theorem pool_block_addresses_witness :
    (PoolAllocator.new 16 3 4096 (fun _ => 0) = some (examplePool, exampleMem) ∧
      Admissible (fresh examplePool exampleMem) exampleOps ∧
      (((fresh examplePool exampleMem).run exampleOps).pool.allocate
        ((fresh examplePool exampleMem).run exampleOps).mem).1 ≠ 0 ∧
      16 * 3 < PTR_MOD) ∧
    (∃ i, i < 3 ∧
      (((fresh examplePool exampleMem).run exampleOps).pool.allocate
        ((fresh examplePool exampleMem).run exampleOps).mem).1 = blockAddr 4096 16 i ∧
      4096 ≤ blockAddr 4096 16 i ∧
      blockAddr 4096 16 i + PTR_SIZE ≤ 4096 + (16 * 3) % PTR_MOD) ∧
    (blockAddr 4096 16 1 = 4096 + 1 * 16 ∧ 4096 + 1 * 16 + 16 ≤ 4096 + 16 * 3) :=
  ⟨⟨rfl, by decide, by decide, by decide⟩,
   (pool_block_addresses 16 3 4096 (fun _ => 0) examplePool exampleMem rfl).2.1 exampleOps
     (by decide) (by decide),
   (pool_block_addresses 16 3 4096 (fun _ => 0) examplePool exampleMem rfl).2.2 (by decide) 1
     (by decide)⟩

/-- A free list whose first link leads back to its first block is no list of blocks. -/
theorem isFreeList_cyclic (mem : Memory) (a : Nat) (ha : a ≠ 0) (hcyc : loadPtr mem a = a) :
    ∀ l, ¬ IsFreeList mem a l := by
  intro l
  induction l with
  | nil => intro h0; exact ha h0
  | cons b l ih =>
    intro hl
    obtain ⟨h1, _, h3⟩ := hl
    subst h1
    rw [hcyc] at h3
    exact ih h3

/-- C20 (unchecked double free). `deallocate` validates nothing: in every pool state and
for every non-null address `a`, after `deallocate(a); deallocate(a)` the two `allocate()`
calls that follow both return `a`, so one block is handed to two owners. After the
second `deallocate` the first link of the free list leads back to `a`: the links from
`m_free_list` form no list of blocks at all, in particular no duplicate-free list of
`block_count - outstanding` blocks, and after the two `allocate()` calls the address `a`
is outstanding twice. -/
theorem pool_double_free (s : PoolState) (a : Nat) (ha : a ≠ 0) (hlt : a < PTR_MOD) :
    ((s.run [PoolOp.dealloc a, PoolOp.dealloc a]).pool.allocate
      (s.run [PoolOp.dealloc a, PoolOp.dealloc a]).mem).1 = a ∧
    ((s.run [PoolOp.dealloc a, PoolOp.dealloc a, PoolOp.alloc]).pool.allocate
      (s.run [PoolOp.dealloc a, PoolOp.dealloc a, PoolOp.alloc]).mem).1 = a ∧
    (∀ l, ¬ IsFreeList (s.run [PoolOp.dealloc a, PoolOp.dealloc a]).mem
      (s.run [PoolOp.dealloc a, PoolOp.dealloc a]).pool.m_free_list l) ∧
    ¬ (s.run [PoolOp.dealloc a, PoolOp.dealloc a, PoolOp.alloc, PoolOp.alloc]).outstanding.Nodup := by
  have hload : loadPtr (storePtr (storePtr s.mem a s.pool.m_free_list) a a) a = a :=
    loadPtr_storePtr_same _ a a hlt
  refine ⟨?_, ?_, ?_, ?_⟩
  · simp [run, step, deallocate, allocate, ha]
  · simp [run, step, deallocate, allocate, ha, hload]
  · have e1 : (s.run [PoolOp.dealloc a, PoolOp.dealloc a]).pool.m_free_list = a := by
      simp [run, step, deallocate, ha]
    have e2 : (s.run [PoolOp.dealloc a, PoolOp.dealloc a]).mem
        = storePtr (storePtr s.mem a s.pool.m_free_list) a a := by
      simp [run, step, deallocate, ha]
    rw [e1, e2]
    exact isFreeList_cyclic _ a ha hload
  · simp [run, step, deallocate, allocate, ha, hload]

/-- C20, at a concrete pool: three blocks of 16 bytes at 4096; block 4128 is allocated
(and outstanding), deallocated twice, and then returned by both of the next two
`allocate()` calls. -/
theorem pool_double_free_witness :
    (((4128 : Nat) ≠ 0 ∧ (4128 : Nat) < PTR_MOD) ∧
      PoolAllocator.new 16 3 4096 (fun _ => 0) = some (examplePool, exampleMem) ∧
      ((fresh examplePool exampleMem).step PoolOp.alloc).outstanding = [4128]) ∧
    ((((fresh examplePool exampleMem).step PoolOp.alloc).run
        [PoolOp.dealloc 4128, PoolOp.dealloc 4128]).pool.allocate
      (((fresh examplePool exampleMem).step PoolOp.alloc).run
        [PoolOp.dealloc 4128, PoolOp.dealloc 4128]).mem).1 = 4128 ∧
    ((((fresh examplePool exampleMem).step PoolOp.alloc).run
        [PoolOp.dealloc 4128, PoolOp.dealloc 4128, PoolOp.alloc]).pool.allocate
      (((fresh examplePool exampleMem).step PoolOp.alloc).run
        [PoolOp.dealloc 4128, PoolOp.dealloc 4128, PoolOp.alloc]).mem).1 = 4128 :=
  ⟨⟨⟨by decide, by decide⟩, rfl, by decide⟩,
   (pool_double_free ((fresh examplePool exampleMem).step PoolOp.alloc) 4128 (by decide)
     (by decide)).1,
   (pool_double_free ((fresh examplePool exampleMem).step PoolOp.alloc) 4128 (by decide)
     (by decide)).2.1⟩

end PoolState

/-! ## shared_ptr: the decrement, moves, copy-assignment and reset -/

namespace shared_ptr

open SState

variable {D σ : Type}

/-- `decrement_ref_count` when the decremented owner count is 0. -/
theorem decrement_zero (fx : Fx D σ) (st : SState D σ) (p : Nat) (blk : ControlBlock D)
    (hc : (st.objs p).m_control_block ≠ 0)
    (hb : st.heap (st.objs p).m_control_block = some blk)
    (hz : (blk.shared_count + PTR_MOD - 1) % PTR_MOD = 0) :
    decrement_ref_count fx p st
      = some
        { st with
          heap := Function.update st.heap (st.objs p).m_control_block
            (if blk.weak_count = 0 then none else some { blk with shared_count := 0 }),
          objs := Function.update st.objs p { m_ptr := 0, m_control_block := 0 },
          trace := st.trace ++ [((st.objs p).m_control_block, blk.ptr)],
          world := blk.destroy_object fx st.world } := by
  by_cases hw : blk.weak_count = 0
  · simp [decrement_ref_count, hc, hb, hz, hw, set_m_control_block, set_m_ptr,
      ControlBlock.destroy_object]
  · simp [decrement_ref_count, hc, hb, hz, hw, set_m_control_block, set_m_ptr,
      ControlBlock.destroy_object]

/-- `decrement_ref_count` when the decremented owner count is not 0. -/
theorem decrement_nonzero (fx : Fx D σ) (st : SState D σ) (p : Nat) (blk : ControlBlock D)
    (hc : (st.objs p).m_control_block ≠ 0)
    (hb : st.heap (st.objs p).m_control_block = some blk)
    (hz : (blk.shared_count + PTR_MOD - 1) % PTR_MOD ≠ 0) :
    decrement_ref_count fx p st
      = some
        { st with
          heap := Function.update st.heap (st.objs p).m_control_block
            (some { blk with shared_count := (blk.shared_count + PTR_MOD - 1) % PTR_MOD }) } := by
  simp [decrement_ref_count, hc, hb, hz]

/-- C18 (decrement algorithm). For every object `p` of every state:
`decrement_ref_count` does nothing when `p` has no control block. When `p` refers to an
existing control block `blk`, the call is defined and decrements the owner count by one
(as a `size_t`; that is `shared_count - 1` for every count from 1 on). If the result is
0 it invokes the destroy action on the payload (once, logged in `trace`), frees the
control block exactly when the observer count is 0 (otherwise the block stays, with owner
count 0), and sets both members of `p` to null. If the result is non-zero, the world,
the log and all objects are unchanged and the block stays with the decremented count. In
both cases nothing else changes, and a control block that existed before and is gone
afterwards is the one of `p`, with owner count now 0 and observer count 0. -/
theorem shared_decrement (fx : Fx D σ) (st : SState D σ) (p : Nat) :
    ((st.objs p).m_control_block = 0 → decrement_ref_count fx p st = some st) ∧
    (∀ blk, (st.objs p).m_control_block ≠ 0 →
      st.heap (st.objs p).m_control_block = some blk →
      ∃ st', decrement_ref_count fx p st = some st' ∧
        (1 ≤ blk.shared_count → blk.shared_count < PTR_MOD →
          (blk.shared_count + PTR_MOD - 1) % PTR_MOD = blk.shared_count - 1) ∧
        ((blk.shared_count + PTR_MOD - 1) % PTR_MOD = 0 →
          st'.world = blk.destroy_object fx st.world ∧
          st'.trace = st.trace ++ [((st.objs p).m_control_block, blk.ptr)] ∧
          (st'.heap (st.objs p).m_control_block = none ↔ blk.weak_count = 0) ∧
          (blk.weak_count ≠ 0 →
            st'.heap (st.objs p).m_control_block = some { blk with shared_count := 0 }) ∧
          st'.objs p = { m_ptr := 0, m_control_block := 0 } ∧
          (∀ y, y ≠ p → st'.objs y = st.objs y)) ∧
        ((blk.shared_count + PTR_MOD - 1) % PTR_MOD ≠ 0 →
          st'.world = st.world ∧ st'.trace = st.trace ∧ st'.objs = st.objs ∧
          st'.heap (st.objs p).m_control_block
            = some { blk with shared_count := (blk.shared_count + PTR_MOD - 1) % PTR_MOD }) ∧
        (∀ c, c ≠ (st.objs p).m_control_block → st'.heap c = st.heap c) ∧
        st'.live = st.live ∧ st'.next = st.next ∧
        (∀ c b, st.heap c = some b → st'.heap c = none →
          c = (st.objs p).m_control_block ∧
          (blk.shared_count + PTR_MOD - 1) % PTR_MOD = 0 ∧ b.weak_count = 0)) := by
  refine ⟨fun hc => decrement_null fx st p hc, ?_⟩
  intro blk hc hb
  have hdec : 1 ≤ blk.shared_count → blk.shared_count < PTR_MOD →
      (blk.shared_count + PTR_MOD - 1) % PTR_MOD = blk.shared_count - 1 := by
    intro h1 h2
    unfold PTR_MOD at *
    omega
  by_cases hz : (blk.shared_count + PTR_MOD - 1) % PTR_MOD = 0
  · refine ⟨_, decrement_zero fx st p blk hc hb hz, hdec, ?_, ?_, ?_, rfl, rfl, ?_⟩
    · intro _
      refine ⟨rfl, rfl, ?_, fun hw => ?_, ?_, ?_⟩
      · by_cases hw : blk.weak_count = 0 <;> simp [hw]
      · simp [hw]
      · simp
      · intro y hy
        simp [Function.update_noteq hy]
    · intro h; exact absurd hz h
    · intro c hcc
      simp [Function.update_noteq hcc]
    · intro c b h1 h2
      by_cases hcc : c = (st.objs p).m_control_block
      · subst hcc
        rw [hb] at h1
        cases h1
        by_cases hw : blk.weak_count = 0
        · exact ⟨rfl, hz, hw⟩
        · simp [hw] at h2
      · simp [Function.update_noteq hcc, h1] at h2
  · refine ⟨_, decrement_nonzero fx st p blk hc hb hz, hdec, ?_, ?_, ?_, rfl, rfl, ?_⟩
    · intro h; exact absurd h hz
    · intro _
      refine ⟨rfl, rfl, rfl, ?_⟩
      simp
    · intro c hcc
      simp [Function.update_noteq hcc]
    · intro c b h1 h2
      by_cases hcc : c = (st.objs p).m_control_block
      · subst hcc
        simp at h2
      · simp [Function.update_noteq hcc, h1] at h2

/-- C18, at concrete states: `sp1` (at 28672) is the only owner of the control block for
payload 4128; its decrement destroys the payload, frees the control block and nulls `sp1`.
With two owners (after one copy) the decrement only lowers the count to 1. -/
theorem shared_decrement_witness :
    (((exampleS0.objs 28672).m_control_block ≠ 0 ∧
        exampleS0.heap (exampleS0.objs 28672).m_control_block
          = some { shared_count := 1, weak_count := 0, ptr := 4128, deleter := none } ∧
        (1 + PTR_MOD - 1) % PTR_MOD = 0) ∧
      ∃ st', decrement_ref_count (recordFx PoolDeleter) 28672 exampleS0 = some st' ∧
        st'.world = [(none, 4128)] ∧ st'.trace = [(1, 4128)] ∧ st'.heap 1 = none ∧
        st'.objs 28672 = { m_ptr := 0, m_control_block := 0 }) ∧
    (((exampleS0c.objs 28672).m_control_block ≠ 0 ∧
        exampleS0c.heap (exampleS0c.objs 28672).m_control_block
          = some { shared_count := 2, weak_count := 0, ptr := 4128, deleter := none } ∧
        (2 + PTR_MOD - 1) % PTR_MOD ≠ 0) ∧
      ∃ st', decrement_ref_count (recordFx PoolDeleter) 28672 exampleS0c = some st' ∧
        st'.world = [] ∧ st'.trace = [] ∧ st'.objs = exampleS0c.objs ∧
        st'.heap 1 = some { shared_count := 1, weak_count := 0, ptr := 4128, deleter := none }) := by
  refine ⟨⟨⟨by decide, rfl, by decide⟩, ?_⟩, ⟨⟨by decide, rfl, by decide⟩, ?_⟩⟩
  · obtain ⟨st', h, _, hz, _⟩ :=
      (shared_decrement (recordFx PoolDeleter) exampleS0 28672).2 _ (by decide) rfl
    obtain ⟨hw, ht, hh, _, ho, _⟩ := hz (by decide)
    exact ⟨st', h, hw, ht, hh.2 rfl, ho⟩
  · obtain ⟨st', h, _, _, hnz, _⟩ :=
      (shared_decrement (recordFx PoolDeleter) exampleS0c 28672).2 _ (by decide) rfl
    obtain ⟨hw, ht, ho, hh⟩ := hnz (by decide)
    exact ⟨st', h, hw, ht, ho, hh⟩

end shared_ptr

namespace shared_ptr

open SState

variable {D σ : Type}

/-- Two distinct existing objects that refer to `c` make at least two references. -/
theorem refs_two (st : SState D σ) (x o : Nat) (hx : x ∈ st.live) (ho : o ∈ st.live)
    (hne : x ≠ o) (c : Nat) (hxc : (st.objs x).m_control_block = c)
    (hoc : (st.objs o).m_control_block = c) : 2 ≤ st.refs c := by
  rw [refs_split st x hx c, if_pos hxc]
  have : 0 < (st.live.erase x).countP (fun y => decide ((st.objs y).m_control_block = c)) := by
    rw [List.countP_pos_iff]
    exact ⟨o, (List.mem_erase_of_ne (Ne.symm hne)).2 ho, by simp [hoc]⟩
  omega

/-- The three ways `decrement_ref_count` goes on an existing object of a well-formed
state: no control block; last owner; other owners remain. -/
theorem decrement_cases (fx : Fx D σ) {st : SState D σ} (hwf : WF st) (x : Nat)
    (hx : x ∈ st.live) :
    ((st.objs x).m_control_block = 0 ∧ decrement_ref_count fx x st = some st) ∨
    (∃ blk, (st.objs x).m_control_block ≠ 0 ∧
      st.heap (st.objs x).m_control_block = some blk ∧ blk.shared_count = 1 ∧
      st.refs (st.objs x).m_control_block = 1 ∧
      decrement_ref_count fx x st
        = some
          { st with
            heap := Function.update st.heap (st.objs x).m_control_block none,
            objs := Function.update st.objs x { m_ptr := 0, m_control_block := 0 },
            trace := st.trace ++ [((st.objs x).m_control_block, blk.ptr)],
            world := blk.destroy_object fx st.world }) ∨
    (∃ blk, (st.objs x).m_control_block ≠ 0 ∧
      st.heap (st.objs x).m_control_block = some blk ∧ 1 < blk.shared_count ∧
      blk.shared_count = st.refs (st.objs x).m_control_block ∧
      decrement_ref_count fx x st
        = some
          { st with
            heap := Function.update st.heap (st.objs x).m_control_block
              (some { blk with shared_count := blk.shared_count - 1 }) }) := by
  by_cases hc : (st.objs x).m_control_block = 0
  · exact Or.inl ⟨hc, decrement_null fx st x hc⟩
  · obtain ⟨blk, hb⟩ := hwf.heap_of_live hx hc
    have hcnt := hwf.counts _ blk hb
    have hlt := refs_lt_ptr_mod hwf (st.objs x).m_control_block
    by_cases h1 : blk.shared_count = 1
    · exact Or.inr (Or.inl ⟨blk, hc, hb, h1, by omega,
        decrement_last fx st x blk hc hb h1 hcnt.2.2⟩)
    · exact Or.inr (Or.inr ⟨blk, hc, hb, by omega, hcnt.1,
        decrement_shared fx st x blk hc hb (by omega) (by omega)⟩)

/-- C11 fails as stated: `sp1` and its copy `sp2` share one control block with owner
count 2; after `sp2 = std::move(sp1)` the count is 1, so `sp2.use_count()` is not the
former `sp1.use_count()`. -/
theorem shared_move_assign_same_block_counterexample :
    (28688 : Nat) ≠ 28672 ∧
    use_count 28672 exampleS0c = some 2 ∧
    move_assign (recordFx PoolDeleter) 28688 28672 exampleS0c = some exampleS0m ∧
    use_count 28688 exampleS0m = some 1 ∧
    use_count 28688 exampleS0m ≠ use_count 28672 exampleS0c := by
  refine ⟨by decide, rfl, rfl, rfl, by decide⟩

/-- What `decrement_ref_count` does to an existing object `x` of a well-formed state,
in one statement: it is defined; it changes no other object and no other control block;
without a control block nothing changes; the last owner's decrement destroys the payload,
frees the block and nulls `x`; any other decrement only lowers the count. -/
theorem decrement_effect (fx : Fx D σ) {st : SState D σ} (hwf : WF st) (x : Nat)
    (hx : x ∈ st.live) :
    ∃ st1, decrement_ref_count fx x st = some st1 ∧
      st1.live = st.live ∧ st1.next = st.next ∧
      (∀ y, y ≠ x → st1.objs y = st.objs y) ∧
      (∀ c, c ≠ (st.objs x).m_control_block → st1.heap c = st.heap c) ∧
      ((st.objs x).m_control_block = 0 → st1 = st) ∧
      (∀ blk, (st.objs x).m_control_block ≠ 0 →
        st.heap (st.objs x).m_control_block = some blk →
        blk.shared_count = st.refs (st.objs x).m_control_block ∧
        (blk.shared_count = 1 →
          st1.heap (st.objs x).m_control_block = none ∧
          st1.objs x = { m_ptr := 0, m_control_block := 0 } ∧
          st1.trace = st.trace ++ [((st.objs x).m_control_block, blk.ptr)] ∧
          st1.world = blk.destroy_object fx st.world) ∧
        (blk.shared_count ≠ 1 →
          1 < blk.shared_count ∧
          st1.heap (st.objs x).m_control_block
            = some { blk with shared_count := blk.shared_count - 1 } ∧
          st1.objs = st.objs ∧ st1.trace = st.trace ∧ st1.world = st.world)) := by
  rcases decrement_cases fx hwf x hx with ⟨hc, h⟩ | ⟨blk, hc, hb, h1, hr, h⟩ | ⟨blk, hc, hb, h1, hr, h⟩
  · refine ⟨st, h, rfl, rfl, fun _ _ => rfl, fun _ _ => rfl, fun _ => rfl, ?_⟩
    intro blk hc'
    exact absurd hc hc'
  · refine ⟨_, h, rfl, rfl, ?_, ?_, fun h0 => absurd h0 hc, ?_⟩
    · intro y hy
      simp [Function.update_noteq hy]
    · intro c hcc
      simp [Function.update_noteq hcc]
    · intro blk' _ hb'
      rw [hb] at hb'
      cases hb'
      refine ⟨by rw [h1, hr], fun _ => ⟨by simp, by simp, rfl, rfl⟩, fun hn => absurd h1 hn⟩
  · refine ⟨_, h, rfl, rfl, fun _ _ => rfl, ?_, fun h0 => absurd h0 hc, ?_⟩
    · intro c hcc
      simp [Function.update_noteq hcc]
    · intro blk' _ hb'
      rw [hb] at hb'
      cases hb'
      refine ⟨hr, fun h1' => by omega, fun _ => ⟨h1, by simp, rfl, rfl, rfl⟩⟩

/-- The value of `use_count()` depends on the control-block member and on that block. -/
theorem use_count_congr (st st' : SState D σ) (x y : Nat)
    (hcb : (st'.objs y).m_control_block = (st.objs x).m_control_block)
    (hheap : st'.heap (st.objs x).m_control_block = st.heap (st.objs x).m_control_block) :
    use_count y st' = use_count x st := by
  unfold use_count
  rw [hcb, hheap]

/-- Move-assignment between distinct existing objects, once the decrement is known. -/
theorem move_assign_eq (fx : Fx D σ) (st st1 : SState D σ) (d s : Nat) (hd : d ∈ st.live)
    (hs : s ∈ st.live) (hne : d ≠ s) (h1 : decrement_ref_count fx d st = some st1) :
    move_assign fx d s st
      = some (set_m_control_block s 0 (set_m_ptr s 0
          (set_m_control_block d (st1.objs s).m_control_block
            (set_m_ptr d (st1.objs s).m_ptr st1)))) := by
  simp [move_assign, hd, hs, hne, h1, set_ptr_objs_other d _ s st1 (Ne.symm hne)]

/-- Move-construction from an existing object into a new one. -/
theorem move_ctor_eq (st : SState D σ) (b a : Nat) (hb : Fresh b st) (ha : a ∈ st.live) :
    move_ctor b a st
      = some (set_m_control_block a 0 (set_m_ptr a 0
          (create b { m_ptr := (st.objs a).m_ptr,
                      m_control_block := (st.objs a).m_control_block } st))) := by
  simp [move_ctor, hb, ha]

/-- C11, amended (shared move). In every state that a defined program reaches:
move-constructing `b` from an existing `a` gives `b` the address and control block of
`a`, leaves `a` null without control block (`use_count() == 0`, tests false), and changes
no control block, so the owner count is unchanged and `b.use_count()` is the former
`a.use_count()`. Move-assigning `d = std::move(s)` for distinct existing `d`, `s` first
runs the decrement on `d` and then does the same transfer; afterwards `d.use_count()`
equals the former `s.use_count()` when `d` referred to another control block than `s`
(or `s` had none), and is one less when `d` and `s` referred to the same control block. -/
theorem shared_move (fx : Fx D σ) (w : σ) (ops : List (SOp D)) (st : SState D σ)
    (hrun : SState.run fx (init w) ops = some st) :
    (∀ b a, Fresh b st → a ∈ st.live →
      ∃ st', move_ctor b a st = some st' ∧
        st'.objs b = st.objs a ∧
        st'.objs a = { m_ptr := 0, m_control_block := 0 } ∧
        use_count a st' = some 0 ∧ toBool a st' = false ∧
        st'.heap = st.heap ∧ st'.trace = st.trace ∧ st'.world = st.world ∧
        use_count b st' = use_count a st) ∧
    (∀ d s, d ∈ st.live → s ∈ st.live → d ≠ s →
      ∃ st1 st', decrement_ref_count fx d st = some st1 ∧
        move_assign fx d s st = some st' ∧
        st'.objs d = st.objs s ∧
        st'.objs s = { m_ptr := 0, m_control_block := 0 } ∧
        use_count s st' = some 0 ∧ toBool s st' = false ∧
        st'.heap = st1.heap ∧ st'.trace = st1.trace ∧ st'.world = st1.world ∧
        ((st.objs d).m_control_block ≠ (st.objs s).m_control_block ∨
            (st.objs s).m_control_block = 0 →
          use_count d st' = use_count s st) ∧
        ((st.objs d).m_control_block = (st.objs s).m_control_block →
          (st.objs s).m_control_block ≠ 0 →
          ∃ n, use_count s st = some (n + 1) ∧ use_count d st' = some n)) := by
  have hwf : WF st := (run_spec fx ops _ st (WF.init w) hrun).1
  constructor
  · intro b a hb ha
    have hba : b ≠ a := fun e => hb.1 (e ▸ ha)
    refine ⟨_, move_ctor_eq st b a hb ha, ?_, ?_, ?_, ?_, rfl, rfl, rfl, ?_⟩
    · simp [hba]
    · simp
    · simp [use_count]
    · simp [toBool]
    · apply use_count_congr
      · simp [hba]
      · rfl
  · intro d s hd hs hne
    obtain ⟨st1, h1, _, _, hobjs, hheap, hnull, hblk⟩ := decrement_effect fx hwf d hd
    have hs1 : st1.objs s = st.objs s := hobjs s (Ne.symm hne)
    refine ⟨st1, _, h1, move_assign_eq fx st st1 d s hd hs hne h1, ?_, ?_, ?_, ?_,
      rfl, rfl, rfl, ?_, ?_⟩
    · simp [hne, hs1]
    · simp
    · simp [use_count]
    · simp [toBool]
    · intro hcase
      apply use_count_congr
      · simp [hne, hs1]
      · rcases hcase with hdiff | h0
        · exact hheap _ (Ne.symm hdiff)
        · by_cases hdc : (st.objs d).m_control_block = 0
          · rw [hnull hdc]
            rfl
          · exact hheap _ (by rw [h0]; exact fun e => hdc e.symm)
    · intro hsame hs0
      have hd0 : (st.objs d).m_control_block ≠ 0 := hsame ▸ hs0
      obtain ⟨blk, hb⟩ := hwf.heap_of_live hd hd0
      obtain ⟨hcnt, _, hmany⟩ := hblk blk hd0 hb
      have h2 := refs_two st d s hd hs hne _ rfl hsame.symm
      obtain ⟨hlt, hh, _, _, _⟩ := hmany (by omega)
      refine ⟨blk.shared_count - 1, ?_, ?_⟩
      · have e : blk.shared_count - 1 + 1 = blk.shared_count := by omega
        simp only [use_count, ← hsame, hb, e]
        simp [hd0]
      · have e : (st1.objs s).m_control_block = (st.objs d).m_control_block := by
          rw [hs1, hsame]
        simp [use_count, hne, e, hd0, hh]

/-- C11 (amended), at a concrete program: `sp1` (28672) constructed from 4128 and copied
to `sp2` (28688). A third object is move-constructed from `sp1`; and `sp2 = std::move(sp1)`
leaves `sp2` with the former count less one. -/
theorem shared_move_witness :
    (SState.run (recordFx PoolDeleter) (init [])
        [SOp.ctor 28672 4128, SOp.copy_ctor 28688 28672] = some exampleS0c ∧
      Fresh 28704 exampleS0c ∧ 28672 ∈ exampleS0c.live ∧ 28688 ∈ exampleS0c.live ∧
      (28688 : Nat) ≠ 28672 ∧
      (exampleS0c.objs 28688).m_control_block = (exampleS0c.objs 28672).m_control_block ∧
      (exampleS0c.objs 28672).m_control_block ≠ 0) ∧
    (∃ st', move_ctor 28704 28672 exampleS0c = some st' ∧
      st'.objs 28704 = exampleS0c.objs 28672 ∧
      st'.objs 28672 = { m_ptr := 0, m_control_block := 0 } ∧
      use_count 28704 st' = use_count 28672 exampleS0c) ∧
    (∃ n, use_count 28672 exampleS0c = some (n + 1) ∧ use_count 28688 exampleS0m = some n) := by
  have hrun : SState.run (recordFx PoolDeleter) (init [])
      [SOp.ctor 28672 4128, SOp.copy_ctor 28688 28672] = some exampleS0c := rfl
  refine ⟨⟨hrun, by decide, by decide, by decide, by decide, rfl, by decide⟩, ?_, ?_⟩
  · obtain ⟨st', h, h1, h2, _, _, _, _, _, h3⟩ :=
      (shared_move (recordFx PoolDeleter) [] _ exampleS0c hrun).1 28704 28672 (by decide)
        (by decide)
    exact ⟨st', h, h1, h2, h3⟩
  · obtain ⟨st1, st', _, h, _, _, _, _, _, _, _, _, hsame⟩ :=
      (shared_move (recordFx PoolDeleter) [] _ exampleS0c hrun).2 28688 28672 (by decide)
        (by decide) (by decide)
    have e : st' = exampleS0m := by
      have h' : move_assign (recordFx PoolDeleter) 28688 28672 exampleS0c = some exampleS0m := rfl
      rw [h'] at h
      exact (Option.some.inj h).symm
    subst e
    exact hsame rfl (by decide)

end shared_ptr

namespace shared_ptr

open SState

variable {D σ : Type}

/-- Copy-assignment between distinct existing objects, once the decrement is known. -/
theorem copy_assign_eq (fx : Fx D σ) (st st1 : SState D σ) (d s : Nat) (hd : d ∈ st.live)
    (hs : s ∈ st.live) (hne : d ≠ s) (h1 : decrement_ref_count fx d st = some st1) :
    copy_assign fx d s st
      = increment_ref_count d
          (set_m_control_block d (st1.objs s).m_control_block
            (set_m_ptr d (st1.objs s).m_ptr st1)) := by
  simp [copy_assign, hd, hs, hne, h1, set_ptr_objs_other d _ s st1 (Ne.symm hne)]

/-- The increment on an object whose control block `c` exists. -/
theorem increment_at (st : SState D σ) (x c : Nat) (blk : ControlBlock D)
    (hcb : (st.objs x).m_control_block = c) (hc : c ≠ 0) (hb : st.heap c = some blk)
    (hlt : blk.shared_count + 1 < PTR_MOD) :
    increment_ref_count x st
      = some
        { st with
          heap := Function.update st.heap c
            (some { blk with shared_count := blk.shared_count + 1 }) } := by
  subst hcb
  exact increment_some st x blk hc hb hlt

/-- The effect of copy-assignment `d = s` between distinct existing objects of a
well-formed state, relative to the state `st1` after the decrement on `d`. -/
theorem copy_assign_effect (fx : Fx D σ) {st : SState D σ} (hwf : WF st) (d s : Nat)
    (hd : d ∈ st.live) (hs : s ∈ st.live) (hne : d ≠ s) (st1 : SState D σ)
    (h1 : decrement_ref_count fx d st = some st1)
    (hobjs : ∀ y, y ≠ d → st1.objs y = st.objs y)
    (hheap : ∀ c, c ≠ (st.objs d).m_control_block → st1.heap c = st.heap c)
    (hsame : ∀ blk, (st.objs d).m_control_block = (st.objs s).m_control_block →
      st.heap (st.objs s).m_control_block = some blk →
      st1.heap (st.objs s).m_control_block
        = some { blk with shared_count := blk.shared_count - 1 } ∧ 1 < blk.shared_count) :
    ∃ st', copy_assign fx d s st = some st' ∧
      st'.objs d = st.objs s ∧ (∀ y, y ≠ d → st'.objs y = st.objs y) ∧
      st'.trace = st1.trace ∧ st'.world = st1.world ∧
      (∀ c, c ≠ (st.objs s).m_control_block → st'.heap c = st1.heap c) ∧
      ((st.objs s).m_control_block = 0 → st'.heap = st1.heap) ∧
      (∀ blk, (st.objs s).m_control_block ≠ 0 →
        st.heap (st.objs s).m_control_block = some blk →
        st'.heap (st.objs s).m_control_block
          = some { blk with
              shared_count :=
                if (st.objs d).m_control_block = (st.objs s).m_control_block
                then blk.shared_count else blk.shared_count + 1 }) := by
  have hs1 : st1.objs s = st.objs s := hobjs s (Ne.symm hne)
  rw [copy_assign_eq fx st st1 d s hd hs hne h1, hs1]
  by_cases hs0 : (st.objs s).m_control_block = 0
  · refine ⟨_, increment_null _ d (by simp [hs0]), ?_, ?_, rfl, rfl, fun _ _ => rfl,
      fun _ => rfl, fun blk h => absurd hs0 h⟩
    · simp only [set_cb_objs_same, set_ptr_objs_same]
    · intro y hy
      simp [hy, hobjs y hy]
  · obtain ⟨blk, hb⟩ := hwf.heap_of_live hs hs0
    have hcnt := hwf.counts _ blk hb
    have hlen := length_lt_of_addr st.live hwf.nodup hwf.addr
    by_cases hdc : (st.objs d).m_control_block = (st.objs s).m_control_block
    · obtain ⟨hb1, hlt⟩ := hsame blk hdc hb
      have e : blk.shared_count - 1 + 1 = blk.shared_count := by omega
      have hle := refs_le_length st (st.objs s).m_control_block
      refine ⟨_, increment_at _ d _ { blk with shared_count := blk.shared_count - 1 }
        (by simp) hs0 (by simpa using hb1) (by simp only; omega), ?_, ?_, rfl, rfl,
        ?_, fun h => absurd h hs0, ?_⟩
      · simp
      · intro y hy
        simp [hy, hobjs y hy]
      · intro c hc
        simp [Function.update_noteq hc]
      · intro blk' _ hb'
        rw [hb] at hb'
        cases hb'
        simp [hdc, e]
    · have hb1 : st1.heap (st.objs s).m_control_block = some blk := by
        rw [hheap _ (Ne.symm hdc), hb]
      have hlt := refs_lt_length st d hd (st.objs s).m_control_block hdc
      refine ⟨_, increment_at _ d _ blk (by simp) hs0 (by simpa using hb1)
        (by omega), ?_, ?_, rfl, rfl, ?_, fun h => absurd h hs0, ?_⟩
      · simp
      · intro y hy
        simp [hy, hobjs y hy]
      · intro c hc
        simp [Function.update_noteq hc]
      · intro blk' _ hb'
        rw [hb] at hb'
        cases hb'
        simp [hdc]

/-- C12 (shared copy-assignment). In every state that a defined program reaches, for
distinct existing objects `d` and `s`, `d = s` is defined and runs the decrement on `d`
(reaching `st1`) before the transfer and the increment. Afterwards `d.get() == s.get()`,
`d` and `s` refer to the same control block (the one `s` referred to, `s` itself being
unchanged); when `d` referred to a different control block, the owner count of the
control block of `s` is one more than before; the control block that `d` referred to has
had its owner count decremented by one, and if that count reached 0 its payload was
destroyed at that moment and the block freed, nothing else being destroyed. After the
decrement only the control block of `s` changes (when `d` referred to that same block,
its count ends as it began; when `s` has no control block, nothing is incremented), and
no object other than `d` changes. When `d` and `s` are the same object the assignment
changes nothing at all. -/
theorem shared_copy_assign (fx : Fx D σ) (w : σ) (ops : List (SOp D)) (st : SState D σ)
    (hrun : SState.run fx (init w) ops = some st) :
    (∀ d s, d ∈ st.live → s ∈ st.live → d ≠ s →
      ∃ st1 st', decrement_ref_count fx d st = some st1 ∧
        copy_assign fx d s st = some st' ∧
        get d st' = get s st' ∧ get s st' = get s st ∧
        (st'.objs d).m_control_block = (st'.objs s).m_control_block ∧
        (st'.objs s).m_control_block = (st.objs s).m_control_block ∧
        (∀ blk, st.heap (st.objs s).m_control_block = some blk →
          (st.objs d).m_control_block ≠ (st.objs s).m_control_block →
          use_count s st = some blk.shared_count ∧
          use_count s st' = some (blk.shared_count + 1) ∧
          use_count d st' = some (blk.shared_count + 1)) ∧
        (∀ blk, st.heap (st.objs d).m_control_block = some blk →
          (blk.shared_count = 1 →
            st1.heap (st.objs d).m_control_block = none ∧
            st1.trace = st.trace ++ [((st.objs d).m_control_block, blk.ptr)] ∧
            st1.world = blk.destroy_object fx st.world) ∧
          (blk.shared_count ≠ 1 →
            st1.heap (st.objs d).m_control_block
              = some { blk with shared_count := blk.shared_count - 1 } ∧
            st1.trace = st.trace ∧ st1.world = st.world)) ∧
        ((st.objs d).m_control_block = 0 → st1 = st) ∧
        (∀ c, c ≠ (st.objs s).m_control_block → st'.heap c = st1.heap c) ∧
        ((st.objs s).m_control_block = 0 → st'.heap = st1.heap) ∧
        (∀ blk, st.heap (st.objs s).m_control_block = some blk →
          (st.objs d).m_control_block = (st.objs s).m_control_block →
          st'.heap (st.objs s).m_control_block = some blk) ∧
        st'.trace = st1.trace ∧ st'.world = st1.world ∧
        (∀ y, y ≠ d → st'.objs y = st.objs y)) ∧
    (∀ d, d ∈ st.live → copy_assign fx d d st = some st) := by
  have hwf : WF st := (run_spec fx ops _ st (WF.init w) hrun).1
  constructor
  · intro d s hd hs hne
    obtain ⟨st1, h1, _, _, hobjs, hheap, hnull, hblk⟩ := decrement_effect fx hwf d hd
    have hsame : ∀ blk, (st.objs d).m_control_block = (st.objs s).m_control_block →
        st.heap (st.objs s).m_control_block = some blk →
        st1.heap (st.objs s).m_control_block
          = some { blk with shared_count := blk.shared_count - 1 } ∧ 1 < blk.shared_count := by
      intro blk hdc hb
      have h2 := refs_two st d s hd hs hne _ hdc rfl
      have hcnt := hwf.counts _ blk hb
      have hd0 : (st.objs d).m_control_block ≠ 0 := by
        intro h0
        rw [← hdc, h0, hwf.heap_null] at hb
        cases hb
      obtain ⟨_, _, hmany⟩ := hblk blk hd0 (hdc ▸ hb)
      obtain ⟨hlt, hh, _⟩ := hmany (by omega)
      exact ⟨hdc ▸ hh, hlt⟩
    obtain ⟨st', h2, hod, hoy, htr, hwo, hhc, hh0, hhs⟩ :=
      copy_assign_effect fx hwf d s hd hs hne st1 h1 hobjs hheap hsame
    have hos : st'.objs s = st.objs s := hoy s (Ne.symm hne)
    refine ⟨st1, st', h1, h2, ?_, ?_, ?_, ?_, ?_, ?_, hnull, hhc, hh0, ?_, htr, hwo, hoy⟩
    · simp [get, hod, hos]
    · simp [get, hos]
    · rw [hod, hos]
    · rw [hos]
    · intro blk hb hdc
      have hs0 : (st.objs s).m_control_block ≠ 0 := Nat.pos_iff_ne_zero.1 (hwf.heap_some hb).1
      have hb' := hhs blk hs0 hb
      rw [if_neg hdc] at hb'
      refine ⟨?_, ?_, ?_⟩
      · simp [use_count, hs0, hb]
      · simp [use_count, hos, hs0, hb']
      · simp [use_count, hod, hs0, hb']
    · intro blk hb
      have hd0 : (st.objs d).m_control_block ≠ 0 := Nat.pos_iff_ne_zero.1 (hwf.heap_some hb).1
      obtain ⟨_, hone, hmany⟩ := hblk blk hd0 hb
      refine ⟨fun h => ?_, fun h => ?_⟩
      · obtain ⟨a, _, b, c⟩ := hone h
        exact ⟨a, b, c⟩
      · obtain ⟨_, a, _, b, c⟩ := hmany h
        exact ⟨a, b, c⟩
    · intro blk hb hdc
      have hs0 : (st.objs s).m_control_block ≠ 0 := Nat.pos_iff_ne_zero.1 (hwf.heap_some hb).1
      have hb' := hhs blk hs0 hb
      rw [if_pos hdc] at hb'
      exact hb'
  · intro d hd
    simp [copy_assign, hd]

/-- C12, at a concrete program: `sp1` (28672) owns 4128 and `sp3` (28704) owns 8192;
`sp3 = sp1` destroys payload 8192, whose count reached 0, and raises the count of the
control block of `sp1` from 1 to 2. -/
theorem shared_copy_assign_witness :
    (SState.run (recordFx PoolDeleter) (init []) [SOp.ctor 28672 4128, SOp.ctor 28704 8192]
        = some exampleS0d ∧
      28704 ∈ exampleS0d.live ∧ 28672 ∈ exampleS0d.live ∧ (28704 : Nat) ≠ 28672 ∧
      exampleS0d.heap (exampleS0d.objs 28672).m_control_block
        = some { shared_count := 1, weak_count := 0, ptr := 4128, deleter := none } ∧
      (exampleS0d.objs 28704).m_control_block ≠ (exampleS0d.objs 28672).m_control_block) ∧
    (∃ st', copy_assign (recordFx PoolDeleter) 28704 28672 exampleS0d = some st' ∧
      get 28704 st' = get 28672 st' ∧
      use_count 28672 exampleS0d = some 1 ∧ use_count 28672 st' = some (1 + 1)) ∧
    copy_assign (recordFx PoolDeleter) 28672 28672 exampleS0d = some exampleS0d := by
  have hrun : SState.run (recordFx PoolDeleter) (init [])
      [SOp.ctor 28672 4128, SOp.ctor 28704 8192] = some exampleS0d := rfl
  refine ⟨⟨hrun, by decide, by decide, by decide, rfl, by decide⟩, ?_, ?_⟩
  · obtain ⟨st1, st', _, h, hg, _, _, _, hcount, _⟩ :=
      (shared_copy_assign (recordFx PoolDeleter) [] _ exampleS0d hrun).1 28704 28672
        (by decide) (by decide) (by decide)
    obtain ⟨h1, h2, _⟩ := hcount _ rfl (by decide)
    exact ⟨st', h, hg, h1, h2⟩
  · exact (shared_copy_assign (recordFx PoolDeleter) [] _ exampleS0d hrun).2 28672 (by decide)

end shared_ptr

namespace shared_ptr

open SState

variable {D σ : Type}

/-- The call `reset(a)` on an existing object, once the decrement is known. -/
theorem reset_eq (fx : Fx D σ) (st st1 : SState D σ) (p a : Nat) (hp : p ∈ st.live)
    (h1 : decrement_ref_count fx p st = some st1) :
    reset fx p a st
      = some
        (if a ≠ 0 then
          set_m_control_block p (new_control_block a none (set_m_ptr p a st1)).1
            (new_control_block a none (set_m_ptr p a st1)).2
        else set_m_control_block p 0 (set_m_ptr p a st1)) := by
  by_cases ha : a = 0 <;> simp [reset, hp, h1, ha]

/-- C13 (shared reset). In every state that a defined program reaches and for every
existing object `p`, `reset(new_address)` is defined and first runs the decrement on `p`
(reaching `st1`; nothing else touches the release log or the world), so that every other
object that shares the old control block of `p` sees `use_count()` reduced by one, and no
other object changes. Then: if `new_address` is null, `p` holds null without control
block (`use_count() == 0`, tests false) and the control blocks are those of `st1`; if
`new_address` is non-null, `p` holds `new_address` with a control block at an address
where none existed and to which no object referred, with owner count 1, observer count
0 and the default destroy action (no deleter), whatever release action the previous
control block of `p` had, and `use_count()` is 1. -/
theorem shared_reset (fx : Fx D σ) (w : σ) (ops : List (SOp D)) (st : SState D σ)
    (hrun : SState.run fx (init w) ops = some st) (p new_address : Nat) (hp : p ∈ st.live) :
    ∃ st1 st', decrement_ref_count fx p st = some st1 ∧
      reset fx p new_address st = some st' ∧
      st'.trace = st1.trace ∧ st'.world = st1.world ∧
      (∀ y, y ≠ p → st'.objs y = st.objs y) ∧
      (∀ y, y ∈ st.live → y ≠ p →
        (st.objs y).m_control_block = (st.objs p).m_control_block →
        (st.objs p).m_control_block ≠ 0 →
        ∃ n, use_count y st = some (n + 1) ∧ use_count y st' = some n) ∧
      (new_address = 0 →
        st'.objs p = { m_ptr := 0, m_control_block := 0 } ∧
        use_count p st' = some 0 ∧ toBool p st' = false ∧ st'.heap = st1.heap) ∧
      (new_address ≠ 0 →
        st'.objs p = { m_ptr := new_address, m_control_block := st.next } ∧
        st.next ≠ 0 ∧ st.heap st.next = none ∧ st1.heap st.next = none ∧
        st.refs st.next = 0 ∧
        st'.heap st.next
          = some { shared_count := 1, weak_count := 0, ptr := new_address, deleter := none } ∧
        (∀ c, c ≠ st.next → st'.heap c = st1.heap c) ∧
        use_count p st' = some 1 ∧ toBool p st' = true) := by
  have hwf : WF st := (run_spec fx ops _ st (WF.init w) hrun).1
  obtain ⟨st1, h1, _, hnext, hobjs, hheap, hnull, hblk⟩ := decrement_effect fx hwf p hp
  have hfresh : st.heap st.next = none := hwf.heap_fresh _ (le_refl _)
  have hnp : st.next ≠ 0 := Nat.pos_iff_ne_zero.1 hwf.next_pos
  have hfresh1 : st1.heap st.next = none := by
    by_cases hc : st.next = (st.objs p).m_control_block
    · by_cases h0 : (st.objs p).m_control_block = 0
      · rw [hnull h0]
        exact hfresh
      · obtain ⟨blk, hb⟩ := hwf.heap_of_live hp h0
        rw [← hc, hfresh] at hb
        cases hb
    · rw [hheap _ hc]
      exact hfresh
  refine ⟨st1, _, h1, reset_eq fx st st1 p new_address hp h1, ?_, ?_, ?_, ?_, ?_, ?_⟩
  · by_cases ha : new_address = 0 <;> simp [ha]
  · by_cases ha : new_address = 0 <;> simp [ha]
  · intro y hy
    by_cases ha : new_address = 0 <;> simp [ha, hy, hobjs y hy]
  · intro y hyl hy hsame hp0
    obtain ⟨blk, hb⟩ := hwf.heap_of_live hp hp0
    obtain ⟨hcnt, _, hmany⟩ := hblk blk hp0 hb
    have h2 := refs_two st p y hp hyl (Ne.symm hy) _ rfl hsame
    obtain ⟨hlt, hh, _⟩ := hmany (by omega)
    have hy0 : (st.objs y).m_control_block ≠ 0 := hsame ▸ hp0
    have hbs := hwf.heap_some hb
    have hne : (st.objs p).m_control_block ≠ st.next := by omega
    refine ⟨blk.shared_count - 1, ?_, ?_⟩
    · have e : blk.shared_count - 1 + 1 = blk.shared_count := by omega
      simp [use_count, hsame, hp0, hb, e]
    · by_cases ha : new_address = 0
      · simp [use_count, ha, hy, hobjs y hy, hsame, hp0, hh]
      · simp only [use_count, ha, hy, hobjs y hy, hsame, new_cb_heap, ne_eq, not_false_eq_true,
          reduceIte, set_cb_objs_other, set_cb_heap, new_cb_objs, set_ptr_objs_other,
          set_ptr_heap, set_ptr_next]
        rw [hnext, Function.update_noteq hne, hh]
        simp [hp0]
  · intro ha
    subst ha
    simp [use_count, toBool]
  · intro ha
    refine ⟨by simp [ha, hnext], hnp, hfresh, hfresh1, hwf.dangling _ hnp hfresh, ?_, ?_, ?_, ?_⟩
    · simp only [ha, new_cb_heap, ne_eq, not_false_eq_true, reduceIte, set_cb_heap,
        set_ptr_heap, set_ptr_next]
      rw [hnext, Function.update_same]
    · intro c hc
      simp only [ha, new_cb_heap, ne_eq, not_false_eq_true, reduceIte, set_cb_heap,
        set_ptr_heap, set_ptr_next]
      rw [hnext, Function.update_noteq hc]
    · simp only [use_count, ha, new_cb_heap, ne_eq, not_false_eq_true, reduceIte, set_cb_heap,
        set_ptr_heap, set_ptr_next, set_cb_objs_same, new_cb_fst]
      rw [hnext, Function.update_same]
      simp [hnp]
    · simp [toBool, ha]

/-- C13, at a concrete program: `sp1` (28672) and its copy `sp2` (28688) share the
control block for 4128; `sp2.reset(8192)` leaves `sp1` with `use_count() == 1` and gives
`sp2` a new control block with owner count 1 and the default destroy action. -/
theorem shared_reset_witness :
    (SState.run (recordFx PoolDeleter) (init [])
        [SOp.ctor 28672 4128, SOp.copy_ctor 28688 28672] = some exampleS0c ∧
      28688 ∈ exampleS0c.live ∧ 28672 ∈ exampleS0c.live ∧ (28672 : Nat) ≠ 28688 ∧
      (exampleS0c.objs 28672).m_control_block = (exampleS0c.objs 28688).m_control_block ∧
      (exampleS0c.objs 28688).m_control_block ≠ 0 ∧ (8192 : Nat) ≠ 0) ∧
    ∃ st', reset (recordFx PoolDeleter) 28688 8192 exampleS0c = some st' ∧
      (∃ n, use_count 28672 exampleS0c = some (n + 1) ∧ use_count 28672 st' = some n) ∧
      st'.objs 28688 = { m_ptr := 8192, m_control_block := exampleS0c.next } ∧
      st'.heap exampleS0c.next
        = some { shared_count := 1, weak_count := 0, ptr := 8192, deleter := none } ∧
      use_count 28688 st' = some 1 := by
  have hrun : SState.run (recordFx PoolDeleter) (init [])
      [SOp.ctor 28672 4128, SOp.copy_ctor 28688 28672] = some exampleS0c := rfl
  refine ⟨⟨hrun, by decide, by decide, by decide, rfl, by decide, by decide⟩, ?_⟩
  obtain ⟨st1, st', _, h, _, _, _, hother, _, hnew⟩ :=
    shared_reset (recordFx PoolDeleter) [] _ exampleS0c hrun 28688 8192 (by decide)
  obtain ⟨h1, _, _, _, _, h2, _, h3, _⟩ := hnew (by decide)
  exact ⟨st', h, hother 28672 (by decide) (by decide) rfl (by decide), h1, h2, h3⟩

end shared_ptr

/-! ## PoolDeleter and the pool factories: the claims -/

namespace PoolDeleter

/-- The call of a bound `PoolDeleter` on a non-null address, spelled out. -/
theorem call_bound (d : PoolDeleter) (p : Nat) (w : PoolWorld) (hp : p ≠ 0)
    (hd : d.m_pool ≠ 0) :
    d.call p w
      = { pools := Function.update w.pools d.m_pool
            { w.pools d.m_pool with m_free_list := p },
          mem := storePtr w.mem p (w.pools d.m_pool).m_free_list,
          events := w.events ++ [PoolEvent.destructed p, PoolEvent.deallocated d.m_pool p] } := by
  simp [call, hp, hd, PoolAllocator.deallocate]

/-- The call of a `PoolDeleter` on null, or of an unbound `PoolDeleter`, does nothing. -/
theorem call_null (d : PoolDeleter) (p : Nat) (w : PoolWorld) (h : p = 0 ∨ d.m_pool = 0) :
    d.call p w = w := by
  rcases h with h | h <;> simp [call, h]

/-- C16 (pool-aware release action). For every `PoolDeleter` `d`, address `p` and world:
invoked with `p` non-null and a bound pool, `d(p)` runs the payload destructor on `p`
once and then calls `deallocate(p)` on the bound pool, these being the only two new
events, in this order; the bound pool and the memory are what that `deallocate(p)`
yields, so `p` is the head of that pool's free list and (the old head being a 64-bit
pointer) the link of `p` leads to the old head; no other pool object changes. Invoked
with `p` null or unbound, in particular default-constructed, `d(p)` changes nothing: no
event, no pool, no memory. A deleter constructed from a pool is bound to that pool. -/
theorem pool_deleter_call (d : PoolDeleter) (p : Nat) (w : PoolWorld) :
    (p ≠ 0 → d.m_pool ≠ 0 →
      (d.call p w).events
        = w.events ++ [PoolEvent.destructed p, PoolEvent.deallocated d.m_pool p] ∧
      (d.call p w).pools d.m_pool = ((w.pools d.m_pool).deallocate w.mem p).1 ∧
      (d.call p w).mem = ((w.pools d.m_pool).deallocate w.mem p).2 ∧
      ((d.call p w).pools d.m_pool).m_free_list = p ∧
      ((w.pools d.m_pool).m_free_list < PTR_MOD →
        loadPtr (d.call p w).mem p = (w.pools d.m_pool).m_free_list) ∧
      (∀ q, q ≠ d.m_pool → (d.call p w).pools q = w.pools q)) ∧
    (p = 0 ∨ d.m_pool = 0 → d.call p w = w) ∧
    ctor_default.call p w = w ∧
    (∀ pool, (ctor pool).m_pool = pool) := by
  refine ⟨?_, call_null d p w, call_null _ p w (Or.inr rfl), fun _ => rfl⟩
  intro hp hd
  rw [call_bound d p w hp hd]
  refine ⟨rfl, ?_, ?_, ?_, ?_, ?_⟩
  · simp [PoolAllocator.deallocate, hp]
  · simp [PoolAllocator.deallocate, hp]
  · simp
  · intro hlt
    exact loadPtr_storePtr_same _ _ _ hlt
  · intro q hq
    simp [Function.update_noteq hq]

/-- C16, at a concrete world: the pool of three 16-byte blocks at object address 512
after one `allocate()` (block 4128 outstanding, `m_free_list = 4112`); the deleter bound
to that pool is invoked on 4128. -/
theorem pool_deleter_call_witness :
    (((4128 : Nat) ≠ 0 ∧ (ctor 512).m_pool ≠ 0) ∧
      ((exampleWorld.allocate 512).1 = 4128 ∧
        ((exampleWorld.allocate 512).2.pools 512).m_free_list = 4112)) ∧
    ((ctor 512).call 4128 (exampleWorld.allocate 512).2).events
      = [PoolEvent.destructed 4128, PoolEvent.deallocated 512 4128] ∧
    (((ctor 512).call 4128 (exampleWorld.allocate 512).2).pools 512).m_free_list = 4128 ∧
    loadPtr ((ctor 512).call 4128 (exampleWorld.allocate 512).2).mem 4128 = 4112 :=
  ⟨⟨⟨by decide, by decide⟩, by decide, by decide⟩,
   ((pool_deleter_call (ctor 512) 4128 (exampleWorld.allocate 512).2).1 (by decide)
      (by decide)).1,
   ((pool_deleter_call (ctor 512) 4128 (exampleWorld.allocate 512).2).1 (by decide)
      (by decide)).2.2.2.1,
   ((pool_deleter_call (ctor 512) 4128 (exampleWorld.allocate 512).2).1 (by decide)
      (by decide)).2.2.2.2.1 (by decide)⟩

end PoolDeleter

/-- `allocate()` on a pool whose free list is empty returns null and leaves the world
as it is. -/
theorem PoolWorld.allocate_empty (pool : Nat) (w : PoolWorld)
    (h : (w.pools pool).m_free_list = 0) : w.allocate pool = (0, w) := by
  simp [PoolWorld.allocate, PoolAllocator.allocate, h]

/-- C15 (factory on exhaustion). Whenever the free list of the pool is empty:
`make_unique_from_pool` returns a `unique_ptr` with null address whose release action is
the `PoolDeleter` bound to that same pool, and `make_shared_from_pool` (constructing into
an unoccupied object address) returns a `shared_ptr` with null address and no control
block (`use_count() == 0`). In both cases the world is unchanged, so no payload was
constructed and the pool and the memory are as before, no other object changes, and
destroying the returned pointer invokes no release action and leaves the world, the
pool included, unchanged. -/
theorem factory_exhausted :
    (∀ (st : UState PoolDeleter PoolWorld) (this pool : Nat) (rep : List Nat),
      (st.world.pools pool).m_free_list = 0 →
      unique_ptr.get this (make_unique_from_pool this pool rep st) = 0 ∧
      unique_ptr.get_deleter this (make_unique_from_pool this pool rep st)
        = PoolDeleter.ctor pool ∧
      (unique_ptr.get_deleter this (make_unique_from_pool this pool rep st)).m_pool = pool ∧
      (make_unique_from_pool this pool rep st).world = st.world ∧
      (∀ y, y ≠ this → (make_unique_from_pool this pool rep st).objs y = st.objs y) ∧
      unique_ptr.dtor PoolDeleter.call this (make_unique_from_pool this pool rep st)
        = make_unique_from_pool this pool rep st) ∧
    (∀ (st : SState PoolDeleter PoolWorld) (this pool : Nat) (rep : List Nat),
      shared_ptr.Fresh this st → (st.world.pools pool).m_free_list = 0 →
      ∃ st', make_shared_from_pool this pool rep st = some st' ∧
        st'.objs this = { m_ptr := 0, m_control_block := 0 } ∧
        shared_ptr.get this st' = 0 ∧ shared_ptr.use_count this st' = some 0 ∧
        st'.world = st.world ∧ st'.heap = st.heap ∧ st'.trace = st.trace ∧
        st'.next = st.next ∧ (∀ y, y ≠ this → st'.objs y = st.objs y) ∧
        ∃ st'', shared_ptr.dtor poolFx this st' = some st'' ∧
          st''.world = st.world ∧ st''.trace = st.trace ∧ st''.heap = st.heap ∧
          st''.live = st.live) := by
  constructor
  · intro st this pool rep h
    have e : make_unique_from_pool this pool rep st
        = unique_ptr.ctor_deleter this 0 (PoolDeleter.ctor pool) st := by
      simp [make_unique_from_pool, PoolWorld.allocate_empty pool st.world h]
    rw [e]
    refine ⟨?_, ?_, ?_, rfl, ?_, ?_⟩
    · simp [unique_ptr.get, unique_ptr.ctor_deleter, UState.set]
    · simp [unique_ptr.get_deleter, unique_ptr.ctor_deleter, UState.set]
    · simp [unique_ptr.get_deleter, unique_ptr.ctor_deleter, UState.set, PoolDeleter.ctor]
    · intro y hy
      simp [unique_ptr.ctor_deleter, UState.set, hy]
    · simp [unique_ptr.dtor, unique_ptr.ctor_deleter, UState.set]
  · intro st this pool rep hf h
    have e : make_shared_from_pool this pool rep st
        = some (shared_ptr.create this { m_ptr := 0, m_control_block := 0 } st) := by
      simp [make_shared_from_pool, PoolWorld.allocate_empty pool st.world h, shared_ptr.ctor, hf]
    refine ⟨_, e, by simp, by simp [shared_ptr.get], by simp [shared_ptr.use_count], rfl, rfl,
      rfl, rfl, ?_, ?_⟩
    · intro y hy
      simp [hy]
    · refine ⟨{ shared_ptr.create this { m_ptr := 0, m_control_block := 0 } st with
          live := st.live }, ?_, rfl, rfl, rfl, rfl⟩
      simp [shared_ptr.dtor, shared_ptr.decrement_ref_count]

/-- C15, at a concrete world: the pool of three blocks at 512 with all blocks
outstanding; the factories construct into the object address 28672. -/
theorem factory_exhausted_witness :
    ((exampleUFull.world.pools 512).m_free_list = 0 ∧
      shared_ptr.Fresh 28672 (shared_ptr.init exampleWorldFull : SState PoolDeleter PoolWorld) ∧
      ((shared_ptr.init exampleWorldFull : SState PoolDeleter PoolWorld).world.pools 512).m_free_list
        = 0) ∧
    (unique_ptr.get 28672 (make_unique_from_pool 28672 512 [7, 7] exampleUFull) = 0 ∧
      (unique_ptr.get_deleter 28672
        (make_unique_from_pool 28672 512 [7, 7] exampleUFull)).m_pool = 512) ∧
    ∃ st', make_shared_from_pool 28672 512 [7, 7] (shared_ptr.init exampleWorldFull) = some st' ∧
      shared_ptr.get 28672 st' = 0 ∧ shared_ptr.use_count 28672 st' = some 0 := by
  refine ⟨⟨by decide, by decide, by decide⟩, ?_, ?_⟩
  · exact ⟨(factory_exhausted.1 exampleUFull 28672 512 [7, 7] (by decide)).1,
      (factory_exhausted.1 exampleUFull 28672 512 [7, 7] (by decide)).2.2.1⟩
  · obtain ⟨st', h, _, h1, h2, _⟩ :=
      factory_exhausted.2 (shared_ptr.init exampleWorldFull) 28672 512 [7, 7] (by decide)
        (by decide)
    exact ⟨st', h, h1, h2⟩

/-! ## The factories on a fresh pool -/

namespace PoolWorld

open PoolAllocator

/-- Bytes written outside of the link word at `b` do not change the link. -/
theorem loadPtr_writeBytes (m : Memory) (a b : Nat) (bytes : List Nat)
    (h : a + bytes.length ≤ b ∨ b + PTR_SIZE ≤ a) :
    loadPtr (writeBytes m a bytes) b = loadPtr m b := by
  unfold PTR_SIZE at h
  have hk : ∀ k, k < 8 → writeBytes m a bytes (b + k) = m (b + k) := by
    intro k hk
    unfold writeBytes
    rw [if_neg (by omega)]
  have h0 := hk 0 (by omega)
  simp only [Nat.add_zero] at h0
  simp only [loadPtr, h0, hk 1 (by omega), hk 2 (by omega), hk 3 (by omega), hk 4 (by omega),
    hk 5 (by omega), hk 6 (by omega), hk 7 (by omega)]

/-- Constructing a payload in a block that is apart from every free block leaves the
free list as it is. -/
theorem isFreeList_writeBytes (mem : Memory) (a : Nat) (bytes : List Nat) :
    ∀ (l : List Nat) (head : Nat), IsFreeList mem head l →
      (∀ b ∈ l, a + bytes.length ≤ b ∨ b + PTR_SIZE ≤ a) →
      IsFreeList (writeBytes mem a bytes) head l := by
  intro l
  induction l with
  | nil => intro head h _; exact h
  | cons b l ih =>
    intro head h hd
    obtain ⟨h1, h2, h3⟩ := h
    refine ⟨h1, h2, ?_⟩
    rw [loadPtr_writeBytes mem a b bytes (hd b (List.mem_cons_self _ _))]
    exact ih _ h3 (fun c hc => hd c (List.mem_cons_of_mem _ hc))

/-- On a constructed pool whose size `block_size * N` did not overflow, a block holds a
link and distinct blocks are at least `block_size` bytes apart. -/
theorem blocks_apart (bs N base : Nat) (mem : Memory) (p : PoolAllocator) (mem' : Memory)
    (h : PoolAllocator.new bs N base mem = some (p, mem')) (hno : bs * N < PTR_MOD) :
    (1 ≤ N → PTR_SIZE ≤ bs) ∧
    ∀ a ∈ blocks base bs N, ∀ b ∈ blocks base bs N, a ≠ b → a + bs ≤ b ∨ b + bs ≤ a := by
  obtain ⟨_, _, _, _, hb, _, _⟩ := new_spec bs N base mem p mem' h
  constructor
  · intro hN
    have h1 := hb (N - 1) (by omega)
    rw [(blockAddr_eq base bs N (N - 1) hno (by omega)).1, Nat.mod_eq_of_lt hno] at h1
    have e : bs * N = (N - 1) * bs + bs := by
      have : N = (N - 1) + 1 := by omega
      rw [Nat.mul_comm]
      nth_rewrite 1 [this]
      rw [Nat.add_mul, Nat.one_mul]
    omega
  · intro a ha b hb' hab
    simp only [blocks, List.mem_map, List.mem_range] at ha hb'
    obtain ⟨i, hi, rfl⟩ := ha
    obtain ⟨j, hj, rfl⟩ := hb'
    rw [(blockAddr_eq base bs N i hno hi).1, (blockAddr_eq base bs N j hno hj).1]
    have hij : i ≠ j := fun e => hab (by rw [e])
    rcases Nat.lt_or_gt_of_ne hij with hlt | hgt
    · left
      have : (i + 1) * bs ≤ j * bs := Nat.mul_le_mul_right bs (by omega)
      rw [Nat.add_mul, Nat.one_mul] at this
      omega
    · right
      have : (j + 1) * bs ≤ i * bs := Nat.mul_le_mul_right bs (by omega)
      rw [Nat.add_mul, Nat.one_mul] at this
      omega

/-- `allocate()` on the pool at `P` whose free list is not empty. -/
theorem allocate_nonempty (P : Nat) (w : PoolWorld) (h : (w.pools P).m_free_list ≠ 0) :
    w.allocate P
      = ((w.pools P).m_free_list,
         ⟨Function.update w.pools P
            ⟨(w.pools P).m_block_size, (w.pools P).m_block_count, (w.pools P).m_memory_pool,
              loadPtr w.mem (w.pools P).m_free_list⟩,
          w.mem, w.events⟩) := by
  simp [PoolWorld.allocate, PoolAllocator.allocate, h]

/-- A successful factory allocation on the pool at `P`: with fewer than `N` blocks
outstanding, `allocate()` returns a block that is not outstanding, and after the payload
is constructed in it the blocks are still split between the free list and the
outstanding addresses. -/
theorem factory_alloc (base bs N P : Nat) (hnd : (blocks base bs N).Nodup)
    (hW : PTR_SIZE ≤ bs)
    (hap : ∀ a ∈ blocks base bs N, ∀ b ∈ blocks base bs N, a ≠ b → a + bs ≤ b ∨ b + bs ≤ a)
    (w : PoolWorld) (out : List Nat) (rep : List Nat) (hrep : rep.length = bs)
    (hinv : PoolState.Inv base bs N { pool := w.pools P, mem := w.mem, outstanding := out })
    (hlt : out.length < N) :
    (w.allocate P).1 ≠ 0 ∧ (w.allocate P).1 ∉ out ∧ (w.allocate P).1 ∈ blocks base bs N ∧
    (w.allocate P).2.events = w.events ∧
    PoolState.Inv base bs N
      { pool := (construct_at rep (w.allocate P).1 (w.allocate P).2).pools P,
        mem := (construct_at rep (w.allocate P).1 (w.allocate P).2).mem,
        outstanding := (w.allocate P).1 :: out } := by
  obtain ⟨l, hfl, hperm⟩ := hinv
  simp only at hfl hperm
  have hlen := hperm.length_eq
  simp only [List.length_append, blocks, List.length_map, List.length_range] at hlen
  cases l with
  | nil => simp at hlen; omega
  | cons a l =>
    obtain ⟨h1, h2, h3⟩ := hfl
    have hne : (w.pools P).m_free_list ≠ 0 := h1 ▸ h2
    have hndl : (a :: l ++ out).Nodup := hperm.symm.nodup hnd
    have hmemB : ∀ b, b ∈ a :: l ++ out → b ∈ blocks base bs N := fun b hb => hperm.subset hb
    have haB : a ∈ blocks base bs N := hmemB a (by simp)
    rw [allocate_nonempty P w hne, h1]
    refine ⟨h2, ?_, haB, rfl, l, ?_, ?_⟩
    · intro hmem
      have := (List.nodup_append.1 hndl).2.2
      exact this (List.mem_cons_self _ _) hmem
    · simp only [construct_at, Function.update_same]
      apply isFreeList_writeBytes _ _ _ _ _ h3
      intro b hb
      have hbB : b ∈ blocks base bs N := hmemB b (by simp [hb])
      have hab : a ≠ b := by
        intro e
        subst e
        have := (List.nodup_cons.1 (List.nodup_append.1 hndl).1).1
        exact this hb
      rcases hap a haB b hbB hab with h | h
      · left; omega
      · right; omega
    · exact List.perm_middle.trans hperm

/-- With all `N` blocks outstanding the free list is empty. -/
theorem factory_full (base bs N P : Nat) (w : PoolWorld) (out : List Nat)
    (hinv : PoolState.Inv base bs N { pool := w.pools P, mem := w.mem, outstanding := out })
    (hlen : out.length = N) : (w.pools P).m_free_list = 0 := by
  obtain ⟨l, hfl, hperm⟩ := hinv
  simp only at hfl hperm
  have hl := hperm.length_eq
  simp only [List.length_append, blocks, List.length_map, List.length_range] at hl
  cases l with
  | nil => exact hfl
  | cons a l => simp at hl; omega

end PoolWorld

namespace shared_ptr

open PoolAllocator SState

/-- `make_shared_from_pool` on a pool with a non-empty free list, constructing into an
unoccupied object address. -/
theorem make_shared_eq (x P : Nat) (rep : List Nat) (st : SState PoolDeleter PoolWorld)
    (hf : Fresh x st) (hne : (st.world.pools P).m_free_list ≠ 0) :
    make_shared_from_pool x P rep st
      = some
        { live := x :: st.live,
          objs := Function.update st.objs x
            { m_ptr := (st.world.allocate P).1, m_control_block := st.next },
          heap := Function.update st.heap st.next
            (some { shared_count := 1, weak_count := 0, ptr := (st.world.allocate P).1,
                    deleter := some (PoolDeleter.ctor P) }),
          next := st.next + 1,
          trace := st.trace,
          world := construct_at rep (st.world.allocate P).1 (st.world.allocate P).2 } := by
  have hf' : Fresh x ({ st with world := (st.world.allocate P).2 } : SState _ _) := hf
  have ha : (st.world.allocate P).1 ≠ 0 := by
    rw [PoolWorld.allocate_nonempty P st.world hne]
    exact hne
  have hf'' : Fresh x ({ st with
      world := construct_at rep (st.world.allocate P).1 (st.world.allocate P).2 } :
        SState _ _) := hf
  simp [make_shared_from_pool, ha, ctor_deleter, hf'', create, new_control_block,
    set_m_control_block]

/-- The same, by its effect on each component of the state. -/
theorem make_shared_some (x P : Nat) (rep : List Nat) (st : SState PoolDeleter PoolWorld)
    (hf : Fresh x st) (hne : (st.world.pools P).m_free_list ≠ 0) :
    ∃ st1, make_shared_from_pool x P rep st = some st1 ∧
      st1.live = x :: st.live ∧
      st1.objs x = { m_ptr := (st.world.allocate P).1, m_control_block := st.next } ∧
      (∀ y, y ≠ x → st1.objs y = st.objs y) ∧
      st1.heap st.next
        = some { shared_count := 1, weak_count := 0, ptr := (st.world.allocate P).1,
                 deleter := some (PoolDeleter.ctor P) } ∧
      (∀ c, c ≠ st.next → st1.heap c = st.heap c) ∧
      st1.next = st.next + 1 ∧ st1.trace = st.trace ∧
      st1.world = construct_at rep (st.world.allocate P).1 (st.world.allocate P).2 := by
  refine ⟨_, make_shared_eq x P rep st hf hne, rfl, by simp, ?_, by simp, ?_, rfl, rfl, rfl⟩
  · intro y hy
    simp [Function.update_noteq hy]
  · intro c hc
    simp [Function.update_noteq hc]

/-- `make_shared_from_pool` on a pool with an empty free list. -/
theorem make_shared_null (x P : Nat) (rep : List Nat) (st : SState PoolDeleter PoolWorld)
    (hf : Fresh x st) (h0 : (st.world.pools P).m_free_list = 0) :
    make_shared_from_pool x P rep st
      = some (create x { m_ptr := 0, m_control_block := 0 } st) := by
  simp [make_shared_from_pool, PoolWorld.allocate_empty P st.world h0, ctor, hf]

/-- Consecutive `make_shared_from_pool` calls while blocks remain: all calls are defined,
every new object is the sole owner of a block that was not outstanding, the blocks stay
split between the free list and the outstanding addresses, and nothing that existed
before changes. -/
theorem make_shared_many_spec (base bs N P : Nat) (hnd : (blocks base bs N).Nodup)
    (hW : PTR_SIZE ≤ bs)
    (hap : ∀ a ∈ blocks base bs N, ∀ b ∈ blocks base bs N, a ≠ b → a + bs ≤ b ∨ b + bs ≤ a) :
    ∀ (reqs : List (Nat × List Nat)) (st : SState PoolDeleter PoolWorld) (out : List Nat),
      PoolState.Inv base bs N
        { pool := st.world.pools P, mem := st.world.mem, outstanding := out } →
      0 < st.next → out.length + reqs.length ≤ N →
      (reqs.map Prod.fst).Nodup →
      (∀ r ∈ reqs, r.1 ∉ st.live ∧ 0 < r.1 ∧ r.1 < PTR_MOD) →
      (∀ r ∈ reqs, r.2.length = bs) →
      ∃ st', make_shared_many P reqs st = some st' ∧
        PoolState.Inv base bs N
          { pool := st'.world.pools P, mem := st'.world.mem,
            outstanding := (reqs.map (fun r => get r.1 st')).reverse ++ out } ∧
        st'.live = (reqs.map Prod.fst).reverse ++ st.live ∧
        st.next ≤ st'.next ∧
        (∀ r ∈ reqs, OwnsPooled P st' r.1) ∧
        (∀ x, x ∈ st.live → st'.objs x = st.objs x) ∧
        (∀ c, c < st.next → st'.heap c = st.heap c) := by
  intro reqs
  induction reqs with
  | nil =>
    intro st out hinv _ _ _ _ _
    exact ⟨st, rfl, by simpa using hinv, by simp, le_refl _, (fun r hr => by cases hr),
      (fun _ _ => rfl), (fun _ _ => rfl)⟩
  | cons r rs ih =>
    intro st out hinv hnext hlen hndr hfresh hrep
    have hlt : out.length < N := by
      simp only [List.length_cons] at hlen
      omega
    obtain ⟨ha0, _, _, _, hinv1⟩ :=
      PoolWorld.factory_alloc base bs N P hnd hW hap st.world out r.2
        (hrep r (List.mem_cons_self _ _)) hinv hlt
    have hne : (st.world.pools P).m_free_list ≠ 0 := by
      intro h0
      rw [PoolWorld.allocate_empty P st.world h0] at ha0
      exact ha0 rfl
    have hr := hfresh r (List.mem_cons_self _ _)
    obtain ⟨st1, h1, hl1, ho1, hoy1, hh1, hhc1, hn1, _, hw1⟩ :=
      make_shared_some r.1 P r.2 st ⟨hr.1, hr.2.1, hr.2.2⟩ hne
    simp only [List.map_cons, List.nodup_cons] at hndr
    have hfresh1 : ∀ q ∈ rs, q.1 ∉ st1.live ∧ 0 < q.1 ∧ q.1 < PTR_MOD := by
      intro q hq
      have hq' := hfresh q (List.mem_cons_of_mem _ hq)
      refine ⟨?_, hq'.2.1, hq'.2.2⟩
      rw [hl1]
      intro hmem
      rcases List.mem_cons.1 hmem with e | hmem'
      · exact hndr.1 (e ▸ List.mem_map_of_mem Prod.fst hq)
      · exact hq'.1 hmem'
    obtain ⟨st', hm, hinv', hlive', hnext', howns', hobjs', hheap'⟩ :=
      ih st1 ((st.world.allocate P).1 :: out) (by rw [hw1]; exact hinv1)
        (by rw [hn1]; exact Nat.succ_pos _)
        (by simp only [List.length_cons] at hlen ⊢; omega) hndr.2 hfresh1
        (fun q hq => hrep q (List.mem_cons_of_mem _ hq))
    have hobjr : st'.objs r.1
        = { m_ptr := (st.world.allocate P).1, m_control_block := st.next } := by
      rw [hobjs' r.1 (by rw [hl1]; exact List.mem_cons_self _ _), ho1]
    have hheapr : st'.heap st.next
        = some { shared_count := 1, weak_count := 0, ptr := (st.world.allocate P).1,
                 deleter := some (PoolDeleter.ctor P) } := by
      rw [hheap' st.next (by rw [hn1]; exact Nat.lt_succ_self _), hh1]
    have hn' : st.next + 1 ≤ st'.next := hn1 ▸ hnext'
    refine ⟨st', by simp [make_shared_many, h1, hm], ?_, ?_, ?_, ?_, ?_, ?_⟩
    · have e : ((r :: rs).map (fun q => get q.1 st')).reverse ++ out
          = (rs.map (fun q => get q.1 st')).reverse ++ ((st.world.allocate P).1 :: out) := by
        simp [get, hobjr]
      rw [e]
      exact hinv'
    · rw [hlive', hl1]
      simp
    · omega
    · intro q hq
      rcases List.mem_cons.1 hq with e | hq'
      · subst e
        refine ⟨?_, ?_, ?_, ?_, ?_⟩
        · rw [hlive', hl1]
          simp
        · rw [hobjr]
          exact ha0
        · rw [hobjr]
          exact hnext
        · rw [hobjr]
          simp only
          omega
        · rw [hobjr]
          exact hheapr
      · exact howns' q hq'
    · intro x hx
      rw [hobjs' x (by rw [hl1]; exact List.mem_cons_of_mem _ hx)]
      exact hoy1 x (fun e => hr.1 (e ▸ hx))
    · intro c hc
      rw [hheap' c (by rw [hn1]; exact Nat.lt_succ_of_lt hc)]
      exact hhc1 c (by omega)

end shared_ptr

namespace shared_ptr

open PoolAllocator SState

/-- `reset()` on the sole owner of a pooled payload: the `PoolDeleter` runs on the
payload, nothing else happens to the world, and the object is left null. -/
theorem reset_owner (st : SState PoolDeleter PoolWorld) (x P : Nat)
    (hown : OwnsPooled P st x) :
    use_count x st = some 1 ∧
    ∃ st2, reset poolFx x 0 st = some st2 ∧ st2.live = st.live ∧ st2.next = st.next ∧
      st2.objs x = { m_ptr := 0, m_control_block := 0 } ∧
      (∀ y, y ≠ x → st2.objs y = st.objs y) ∧
      st2.world = (PoolDeleter.ctor P).call (st.objs x).m_ptr st.world := by
  obtain ⟨hx, _, hc, _, hb⟩ := hown
  have hc0 : (st.objs x).m_control_block ≠ 0 := Nat.pos_iff_ne_zero.1 hc
  have hdec := decrement_last poolFx st x _ hc0 hb rfl rfl
  have hres := reset_eq poolFx st _ x 0 hx hdec
  simp only [ne_eq, not_true_eq_false, if_false] at hres
  refine ⟨by simp [use_count, hc0, hb], _, hres, rfl, rfl, by simp, ?_, rfl⟩
  intro y hy
  simp [hy, Function.update_noteq hy]

/-- `reset()` on the sole owner of a pooled payload gives the block back to the pool, and
the next `make_shared_from_pool` hands out that same block. -/
theorem reset_then_make_shared (st : SState PoolDeleter PoolWorld) (x z P : Nat)
    (rep : List Nat) (hP : P ≠ 0) (hown : OwnsPooled P st x) (hz : Fresh z st) :
    use_count x st = some 1 ∧
    ∃ st2 st3, reset poolFx x 0 st = some st2 ∧ get x st2 = 0 ∧
      st2.world = (PoolDeleter.ctor P).call (get x st) st.world ∧
      (st2.world.pools P).m_free_list = get x st ∧
      make_shared_from_pool z P rep st2 = some st3 ∧
      get z st3 = get x st ∧ get z st3 ≠ 0 ∧ use_count z st3 = some 1 := by
  obtain ⟨huc, st2, hres, hl2, hn2, ho2, _, hw2⟩ := reset_owner st x P hown
  obtain ⟨_, ha, hc, _, _⟩ := hown
  have hPc : (PoolDeleter.ctor P).m_pool ≠ 0 := hP
  have hhead : (st2.world.pools P).m_free_list = (st.objs x).m_ptr := by
    rw [hw2, PoolDeleter.call_bound (PoolDeleter.ctor P) (st.objs x).m_ptr st.world ha hPc]
    simp [PoolDeleter.ctor]
  have hne : (st2.world.pools P).m_free_list ≠ 0 := hhead ▸ ha
  have hz2 : Fresh z st2 := by
    unfold Fresh at hz ⊢
    rw [hl2]
    exact hz
  obtain ⟨st3, h3, _, ho3, _, hh3, _, _, _, _⟩ := make_shared_some z P rep st2 hz2 hne
  have halloc : (st2.world.allocate P).1 = (st.objs x).m_ptr := by
    rw [PoolWorld.allocate_nonempty P st2.world hne]
    exact hhead
  have hn2pos : st2.next ≠ 0 := by
    rw [hn2]
    omega
  refine ⟨huc, st2, st3, hres, by simp [get, ho2], hw2, hhead, h3, ?_, ?_, ?_⟩
  · simp [get, ho3, halloc]
  · simp [get, ho3, halloc, ha]
  · simp [use_count, ho3, hn2pos, hh3]

end shared_ptr

namespace unique_ptr

open PoolAllocator

/-- `make_unique_from_pool` on a pool with a non-empty free list. -/
theorem make_unique_some (x P : Nat) (rep : List Nat) (st : UState PoolDeleter PoolWorld)
    (hne : (st.world.pools P).m_free_list ≠ 0) :
    (make_unique_from_pool x P rep st).objs x
      = { m_ptr := (st.world.allocate P).1, m_deleter := PoolDeleter.ctor P } ∧
    (∀ y, y ≠ x → (make_unique_from_pool x P rep st).objs y = st.objs y) ∧
    (make_unique_from_pool x P rep st).world
      = construct_at rep (st.world.allocate P).1 (st.world.allocate P).2 := by
  have ha : (st.world.allocate P).1 ≠ 0 := by
    rw [PoolWorld.allocate_nonempty P st.world hne]
    exact hne
  refine ⟨?_, ?_, ?_⟩
  · simp [make_unique_from_pool, ha, ctor_deleter, UState.set]
  · intro y hy
    simp [make_unique_from_pool, ha, ctor_deleter, UState.set, hy]
  · simp [make_unique_from_pool, ha, ctor_deleter, UState.set]

/-- `make_unique_from_pool` on a pool with an empty free list. -/
theorem make_unique_null (x P : Nat) (rep : List Nat) (st : UState PoolDeleter PoolWorld)
    (h0 : (st.world.pools P).m_free_list = 0) :
    (make_unique_from_pool x P rep st).objs x
      = { m_ptr := 0, m_deleter := PoolDeleter.ctor P } ∧
    (∀ y, y ≠ x → (make_unique_from_pool x P rep st).objs y = st.objs y) ∧
    (make_unique_from_pool x P rep st).world = st.world := by
  refine ⟨?_, ?_, ?_⟩
  · simp [make_unique_from_pool, PoolWorld.allocate_empty P st.world h0, ctor_deleter,
      UState.set]
  · intro y hy
    simp [make_unique_from_pool, PoolWorld.allocate_empty P st.world h0, ctor_deleter,
      UState.set, hy]
  · simp [make_unique_from_pool, PoolWorld.allocate_empty P st.world h0, ctor_deleter,
      UState.set]

/-- Consecutive `make_unique_from_pool` calls while blocks remain: every new object
holds a block that was not outstanding, with the deleter bound to the pool; the blocks
stay split between the free list and the outstanding addresses; no other object
changes. -/
theorem make_unique_many_spec (base bs N P : Nat) (hnd : (blocks base bs N).Nodup)
    (hW : PTR_SIZE ≤ bs)
    (hap : ∀ a ∈ blocks base bs N, ∀ b ∈ blocks base bs N, a ≠ b → a + bs ≤ b ∨ b + bs ≤ a) :
    ∀ (reqs : List (Nat × List Nat)) (st : UState PoolDeleter PoolWorld) (out : List Nat),
      PoolState.Inv base bs N
        { pool := st.world.pools P, mem := st.world.mem, outstanding := out } →
      out.length + reqs.length ≤ N →
      (reqs.map Prod.fst).Nodup →
      (∀ r ∈ reqs, r.2.length = bs) →
      PoolState.Inv base bs N
        { pool := (make_unique_many P reqs st).world.pools P,
          mem := (make_unique_many P reqs st).world.mem,
          outstanding := (reqs.map (fun r => get r.1 (make_unique_many P reqs st))).reverse
            ++ out } ∧
      (∀ r ∈ reqs, ((make_unique_many P reqs st).objs r.1).m_ptr ≠ 0 ∧
        ((make_unique_many P reqs st).objs r.1).m_deleter = PoolDeleter.ctor P) ∧
      (∀ y, y ∉ reqs.map Prod.fst → (make_unique_many P reqs st).objs y = st.objs y) := by
  intro reqs
  induction reqs with
  | nil =>
    intro st out hinv _ _ _
    exact ⟨by simpa [make_unique_many] using hinv, (fun r hr => by cases hr), (fun _ _ => rfl)⟩
  | cons r rs ih =>
    intro st out hinv hlen hndr hrep
    have hlt : out.length < N := by
      simp only [List.length_cons] at hlen
      omega
    obtain ⟨ha0, _, _, _, hinv1⟩ :=
      PoolWorld.factory_alloc base bs N P hnd hW hap st.world out r.2
        (hrep r (List.mem_cons_self _ _)) hinv hlt
    have hne : (st.world.pools P).m_free_list ≠ 0 := by
      intro h0
      rw [PoolWorld.allocate_empty P st.world h0] at ha0
      exact ha0 rfl
    obtain ⟨ho1, hoy1, hw1⟩ := make_unique_some r.1 P r.2 st hne
    simp only [List.map_cons, List.nodup_cons] at hndr
    obtain ⟨hinv', howns', hobjs'⟩ :=
      ih (make_unique_from_pool r.1 P r.2 st) ((st.world.allocate P).1 :: out)
        (by rw [hw1]; exact hinv1)
        (by simp only [List.length_cons] at hlen ⊢; omega) hndr.2
        (fun q hq => hrep q (List.mem_cons_of_mem _ hq))
    have hmm : make_unique_many P (r :: rs) st
        = make_unique_many P rs (make_unique_from_pool r.1 P r.2 st) := rfl
    have hobjr : (make_unique_many P (r :: rs) st).objs r.1
        = { m_ptr := (st.world.allocate P).1, m_deleter := PoolDeleter.ctor P } := by
      rw [hmm, hobjs' r.1 hndr.1, ho1]
    refine ⟨?_, ?_, ?_⟩
    · have e : ((r :: rs).map (fun q => get q.1 (make_unique_many P (r :: rs) st))).reverse ++ out
          = (rs.map (fun q => get q.1
              (make_unique_many P rs (make_unique_from_pool r.1 P r.2 st)))).reverse
            ++ ((st.world.allocate P).1 :: out) := by
        simp only [List.map_cons, List.reverse_cons, List.append_assoc, List.singleton_append]
        rw [show get r.1 (make_unique_many P (r :: rs) st) = (st.world.allocate P).1 from by
          simp [get, hobjr]]
        rfl
      rw [e]
      exact hinv'
    · intro q hq
      rcases List.mem_cons.1 hq with e | hq'
      · subst e
        rw [hobjr]
        exact ⟨ha0, rfl⟩
      · exact howns' q hq'
    · intro y hy
      simp only [List.map_cons, List.mem_cons, not_or] at hy
      rw [hmm, hobjs' y hy.2]
      exact hoy1 y hy.1

/-- `reset()` on a `unique_ptr` that holds a pooled payload gives the block back to the
pool, and the next `make_unique_from_pool` hands out that same block. -/
theorem reset_then_make_unique (st : UState PoolDeleter PoolWorld) (x z P : Nat)
    (rep : List Nat) (hP : P ≠ 0) (ha : (st.objs x).m_ptr ≠ 0)
    (hd : (st.objs x).m_deleter = PoolDeleter.ctor P) :
    get x (reset PoolDeleter.call x 0 st) = 0 ∧
    (reset PoolDeleter.call x 0 st).world = (PoolDeleter.ctor P).call (get x st) st.world ∧
    (((reset PoolDeleter.call x 0 st).world).pools P).m_free_list = get x st ∧
    get z (make_unique_from_pool z P rep (reset PoolDeleter.call x 0 st)) = get x st := by
  have hPc : (PoolDeleter.ctor P).m_pool ≠ 0 := hP
  have hw : (reset PoolDeleter.call x 0 st).world
      = (PoolDeleter.ctor P).call (st.objs x).m_ptr st.world := by
    simp [reset, ha, hd, UState.set]
  have hhead : (((reset PoolDeleter.call x 0 st).world).pools P).m_free_list
      = (st.objs x).m_ptr := by
    rw [hw, PoolDeleter.call_bound (PoolDeleter.ctor P) (st.objs x).m_ptr st.world ha hPc]
    simp [PoolDeleter.ctor]
  have hne : (((reset PoolDeleter.call x 0 st).world).pools P).m_free_list ≠ 0 := hhead ▸ ha
  obtain ⟨ho, _, _⟩ := make_unique_some z P rep (reset PoolDeleter.call x 0 st) hne
  refine ⟨by simp [get, reset, UState.set], hw, hhead, ?_⟩
  simp only [get, ho]
  rw [PoolWorld.allocate_nonempty P _ hne]
  exact hhead

end unique_ptr

/-- C14 (pool and ownership integration). Take a pool of `N ≥ 1` blocks constructed by
`PoolAllocator(block_size, N)` (the size `block_size * N` not overflowing), living at the
non-null object address `P`, and payloads of `block_size` bytes. `N` consecutive
`make_shared_from_pool` calls into distinct valid object addresses, in a program that
has no `shared_ptr` yet, are all defined and return non-null pointers with pairwise
distinct addresses; the `(N+1)`-th call returns a null-holding pointer; every one of the
`N` pointers is then the sole owner of its object (`use_count() == 1`), and after
`reset()` on any one of them the next factory call returns a non-null pointer holding
the address that the reset pointer held. The same holds for `make_unique_from_pool`. -/
theorem pool_factory_integration (block_size N base : Nat) (mem : Memory) (p : PoolAllocator)
    (mem' : Memory) (h : PoolAllocator.new block_size N base mem = some (p, mem'))
    (hN : 1 ≤ N) (hno : block_size * N < PTR_MOD)
    (P : Nat) (hP : P ≠ 0) (w : PoolWorld) (hpool : w.pools P = p) (hmem : w.mem = mem')
    (reqs : List (Nat × List Nat)) (hlen : reqs.length = N)
    (hnd : (reqs.map Prod.fst).Nodup)
    (haddr : ∀ r ∈ reqs, 0 < r.1 ∧ r.1 < PTR_MOD)
    (hrep : ∀ r ∈ reqs, r.2.length = block_size) :
    (∃ st, make_shared_many P reqs (shared_ptr.init w) = some st ∧
      (∀ r ∈ reqs, shared_ptr.get r.1 st ≠ 0) ∧
      (reqs.map (fun r => shared_ptr.get r.1 st)).Nodup ∧
      ∀ y repy, y ∉ reqs.map Prod.fst → 0 < y → y < PTR_MOD →
        ∃ st1, make_shared_from_pool y P repy st = some st1 ∧
          shared_ptr.get y st1 = 0 ∧
          ∀ x ∈ reqs.map Prod.fst, ∀ z repz, z ∉ reqs.map Prod.fst → z ≠ y → 0 < z →
            z < PTR_MOD →
            shared_ptr.get x st1 = shared_ptr.get x st ∧
            shared_ptr.use_count x st1 = some 1 ∧
            ∃ st2 st3, shared_ptr.reset poolFx x 0 st1 = some st2 ∧
              make_shared_from_pool z P repz st2 = some st3 ∧
              shared_ptr.get z st3 ≠ 0 ∧
              shared_ptr.get z st3 = shared_ptr.get x st1) ∧
    (∀ objs0 : Nat → unique_ptr PoolDeleter,
      ∃ st, make_unique_many P reqs { objs := objs0, world := w } = st ∧
        (∀ r ∈ reqs, unique_ptr.get r.1 st ≠ 0) ∧
        (reqs.map (fun r => unique_ptr.get r.1 st)).Nodup ∧
        ∀ y repy, y ∉ reqs.map Prod.fst →
          unique_ptr.get y (make_unique_from_pool y P repy st) = 0 ∧
          ∀ x ∈ reqs.map Prod.fst, ∀ z repz,
            unique_ptr.get x (make_unique_from_pool y P repy st) = unique_ptr.get x st ∧
            unique_ptr.get z (make_unique_from_pool z P repz
                (unique_ptr.reset PoolDeleter.call x 0 (make_unique_from_pool y P repy st)))
              ≠ 0 ∧
            unique_ptr.get z (make_unique_from_pool z P repz
                (unique_ptr.reset PoolDeleter.call x 0 (make_unique_from_pool y P repy st)))
              = unique_ptr.get x (make_unique_from_pool y P repy st)) := by
  obtain ⟨_, hpw⟩ := PoolState.blocks_facts block_size N base mem p mem' h
  have hndB := PoolState.nodup_of_pairwise_wordsDisjoint hpw
  obtain ⟨hW', hap⟩ := PoolWorld.blocks_apart block_size N base mem p mem' h hno
  have hW := hW' hN
  have hinv0 : PoolState.Inv base block_size N
      { pool := w.pools P, mem := w.mem, outstanding := [] } := by
    rw [hpool, hmem]
    exact PoolState.inv_fresh block_size N base mem p mem' h
  constructor
  · obtain ⟨st, hm, hinv, hlive, _, howns, _, _⟩ :=
      shared_ptr.make_shared_many_spec base block_size N P hndB hW hap reqs (shared_ptr.init w)
        [] hinv0 Nat.one_pos (by simp [hlen]) hnd
        (fun r hr => ⟨by simp [shared_ptr.init], (haddr r hr).1, (haddr r hr).2⟩) hrep
    simp only [List.append_nil] at hinv
    have hlive' : st.live = (reqs.map Prod.fst).reverse := by
      rw [hlive]
      simp [shared_ptr.init]
    refine ⟨st, hm, fun r hr => (howns r hr).2.1, ?_, ?_⟩
    · obtain ⟨l, _, hperm⟩ := hinv
      have := (List.nodup_append.1 (hperm.symm.nodup hndB)).2.1
      exact List.nodup_reverse.1 this
    · intro y repy hy hy0 hylt
      have hfy : shared_ptr.Fresh y st := ⟨by rw [hlive']; simpa using hy, hy0, hylt⟩
      have hfull := PoolWorld.factory_full base block_size N P st.world _ hinv
        (by simp [hlen])
      refine ⟨_, shared_ptr.make_shared_null y P repy st hfy hfull, by simp [shared_ptr.get],
        ?_⟩
      intro x hx z repz hz hzy hz0 hzlt
      obtain ⟨r, hr, rfl⟩ := List.mem_map.1 hx
      have hxy : r.1 ≠ y := fun e => hy (e ▸ hx)
      have hown := howns r hr
      have hown1 : shared_ptr.OwnsPooled P
          (shared_ptr.create y { m_ptr := 0, m_control_block := 0 } st) r.1 := by
        obtain ⟨a, b, c, d, e⟩ := hown
        refine ⟨List.mem_cons_of_mem _ a, ?_, ?_, ?_, ?_⟩ <;> simp [hxy] <;> assumption
      have hfz : shared_ptr.Fresh z
          (shared_ptr.create y { m_ptr := 0, m_control_block := 0 } st) := by
        refine ⟨?_, hz0, hzlt⟩
        simp only [SState.create_live, List.mem_cons, not_or]
        exact ⟨hzy, by rw [hlive']; simpa using hz⟩
      obtain ⟨huc, st2, st3, hres, _, _, _, h3, hget, hne, _⟩ :=
        shared_ptr.reset_then_make_shared _ r.1 z P repz hP hown1 hfz
      exact ⟨by simp [shared_ptr.get, hxy], huc, st2, st3, hres, h3, hne, hget⟩
  · intro objs0
    obtain ⟨hinv, howns, _⟩ :=
      unique_ptr.make_unique_many_spec base block_size N P hndB hW hap reqs
        { objs := objs0, world := w } [] hinv0 (by simp [hlen]) hnd hrep
    simp only [List.append_nil] at hinv
    refine ⟨_, rfl, fun r hr => (howns r hr).1, ?_, ?_⟩
    · obtain ⟨l, _, hperm⟩ := hinv
      have := (List.nodup_append.1 (hperm.symm.nodup hndB)).2.1
      exact List.nodup_reverse.1 this
    · intro y repy hy
      have hfull := PoolWorld.factory_full base block_size N P _ _ hinv (by simp [hlen])
      obtain ⟨hoy, hoth, _⟩ := unique_ptr.make_unique_null y P repy _ hfull
      refine ⟨by simp [unique_ptr.get, hoy], ?_⟩
      intro x hx z repz
      obtain ⟨r, hr, rfl⟩ := List.mem_map.1 hx
      have hxy : r.1 ≠ y := fun e => hy (e ▸ hx)
      have hox := hoth r.1 hxy
      have hown := howns r hr
      obtain ⟨_, _, _, hget⟩ :=
        unique_ptr.reset_then_make_unique (make_unique_from_pool y P repy
          (make_unique_many P reqs { objs := objs0, world := w })) r.1 z P repz hP
          (by rw [hox]; exact hown.1) (by rw [hox]; exact hown.2)
      refine ⟨by simp [unique_ptr.get, hox], ?_, hget⟩
      rw [hget]
      simp only [unique_ptr.get, hox]
      exact hown.1

/-- C14, at a concrete pool: three blocks of 16 bytes at 4096, the pool object at 512,
three factory calls into the object addresses 28672, 28688 and 28704; the fourth call
(into 28720) returns null, and after `reset()` of the second pointer the next call
(into 28736) returns the address that pointer held. -/
theorem pool_factory_integration_witness :
    (PoolAllocator.new 16 3 4096 (fun _ => 0) = some (examplePool, exampleMem) ∧
      1 ≤ 3 ∧ 16 * 3 < PTR_MOD ∧ (512 : Nat) ≠ 0 ∧ exampleWorld.pools 512 = examplePool ∧
      exampleWorld.mem = exampleMem ∧ exampleReqs.length = 3 ∧
      (exampleReqs.map Prod.fst).Nodup ∧ (∀ r ∈ exampleReqs, 0 < r.1 ∧ r.1 < PTR_MOD) ∧
      (∀ r ∈ exampleReqs, r.2.length = 16)) ∧
    (∃ st, make_shared_many 512 exampleReqs (shared_ptr.init exampleWorld) = some st ∧
      (∀ r ∈ exampleReqs, shared_ptr.get r.1 st ≠ 0) ∧
      (exampleReqs.map (fun r => shared_ptr.get r.1 st)).Nodup ∧
      ∃ st1, make_shared_from_pool 28720 512 [] st = some st1 ∧
        shared_ptr.get 28720 st1 = 0 ∧
        ∃ st2 st3, shared_ptr.reset poolFx 28688 0 st1 = some st2 ∧
          make_shared_from_pool 28736 512 (List.replicate 16 9) st2 = some st3 ∧
          shared_ptr.get 28736 st3 ≠ 0 ∧
          shared_ptr.get 28736 st3 = shared_ptr.get 28688 st1) ∧
    (∃ st, make_unique_many 512 exampleReqs { objs := exampleUFull.objs, world := exampleWorld }
        = st ∧
      (∀ r ∈ exampleReqs, unique_ptr.get r.1 st ≠ 0) ∧
      (exampleReqs.map (fun r => unique_ptr.get r.1 st)).Nodup ∧
      unique_ptr.get 28720 (make_unique_from_pool 28720 512 [] st) = 0 ∧
      unique_ptr.get 28736 (make_unique_from_pool 28736 512 (List.replicate 16 9)
          (unique_ptr.reset PoolDeleter.call 28688 0 (make_unique_from_pool 28720 512 [] st)))
        = unique_ptr.get 28688 (make_unique_from_pool 28720 512 [] st)) := by
  have key := pool_factory_integration 16 3 4096 (fun _ => 0) examplePool exampleMem rfl
    (by decide) (by decide) 512 (by decide) exampleWorld rfl rfl exampleReqs rfl (by decide)
    (by decide) (by decide)
  refine ⟨⟨rfl, by decide, by decide, by decide, rfl, rfl, rfl, by decide, by decide,
    by decide⟩, ?_, ?_⟩
  · obtain ⟨st, hm, h1, h2, h3⟩ := key.1
    obtain ⟨st1, hm1, hg1, h4⟩ := h3 28720 [] (by decide) (by decide) (by decide)
    obtain ⟨_, _, st2, st3, hr, hm3, hne, hg3⟩ :=
      h4 28688 (by decide) 28736 (List.replicate 16 9) (by decide) (by decide) (by decide)
        (by decide)
    exact ⟨st, hm, h1, h2, st1, hm1, hg1, st2, st3, hr, hm3, hne, hg3⟩
  · obtain ⟨st, hm, h1, h2, h3⟩ := key.2 exampleUFull.objs
    obtain ⟨hg1, h4⟩ := h3 28720 [] (by decide)
    obtain ⟨_, _, hg3⟩ := h4 28688 (by decide) 28736 (List.replicate 16 9)
    exact ⟨st, hm, h1, h2, hg1, hg3⟩

/-! ## PoolAllocator: the layout of the links in the buffer -/

namespace PoolAllocator

/-- A store of a link changes no byte outside of the link word. -/
theorem storePtr_outside (m : Memory) (a v x : Nat) (h : x < a ∨ a + PTR_SIZE ≤ x) :
    storePtr m a v x = m x := by
  unfold storePtr
  rw [if_neg (by omega)]

/-- The constructor's loop changes no byte outside of the link words of the blocks it
visits. -/
theorem initLoop_frame (bs base len : Nat) :
    ∀ (n i fl : Nat) (mem : Memory) (r : Nat × Memory),
      initLoop bs base len n i fl mem = some r →
      ∀ x, (∀ j, i ≤ j → j < i + n →
        x < blockAddr base bs j ∨ blockAddr base bs j + PTR_SIZE ≤ x) → r.2 x = mem x := by
  intro n
  induction n with
  | zero =>
    intro i fl mem r h x _
    simp only [initLoop, Option.some.injEq] at h
    subst h
    rfl
  | succ n ih =>
    intro i fl mem r h x hx
    simp only [initLoop] at h
    split at h
    · rw [ih (i + 1) _ _ r h x (fun j h1 h2 => hx j (by omega) (by omega))]
      exact storePtr_outside mem _ fl x (hx i (le_refl _) (by omega))
    · cases h

/-- The constructor's loop is defined when every link it writes lies inside the buffer. -/
theorem initLoop_isSome (bs base len : Nat) :
    ∀ (n i fl : Nat) (mem : Memory),
      (∀ j, i ≤ j → j < i + n → blockAddr base bs j + PTR_SIZE ≤ base + len) →
      (initLoop bs base len n i fl mem).isSome = true := by
  intro n
  induction n with
  | zero => intro i fl mem _; rfl
  | succ n ih =>
    intro i fl mem hb
    simp only [initLoop]
    rw [if_pos (hb i (le_refl _) (by omega))]
    exact ih (i + 1) _ _ (fun j h1 h2 => hb j (by omega) (by omega))

/-- Construction is defined exactly when operator new returned a non-null buffer inside
the address space and every link lies inside that buffer. -/
theorem new_isSome_iff (bs N base : Nat) (mem : Memory) :
    (PoolAllocator.new bs N base mem).isSome = true ↔
      base ≠ 0 ∧ base + (bs * N) % PTR_MOD ≤ PTR_MOD ∧
      ∀ i, i < N → blockAddr base bs i + PTR_SIZE ≤ base + (bs * N) % PTR_MOD := by
  constructor
  · intro h
    obtain ⟨⟨p, mem'⟩, hr⟩ := Option.isSome_iff_exists.1 h
    obtain ⟨_, _, _, hbase, hb, hfit, _⟩ := new_spec bs N base mem p mem' hr
    exact ⟨Nat.pos_iff_ne_zero.1 hbase, hfit, hb⟩
  · rintro ⟨hbase, hfit, hb⟩
    have hloop := initLoop_isSome bs base ((bs * N) % PTR_MOD) N 0 0 mem
      (fun j _ hj => hb j (by omega))
    unfold PoolAllocator.new
    simp only
    rw [if_neg (by omega)]
    revert hloop
    cases initLoop bs base ((bs * N) % PTR_MOD) N 0 0 mem with
    | none => intro h; cases h
    | some r => intro _; rfl

/-- In a free list every link leads to the next block of the list, the last one to
null. -/
theorem isFreeList_links (mem : Memory) :
    ∀ (l : List Nat) (head : Nat), IsFreeList mem head l →
      ∀ k, k < l.length → loadPtr mem (l.getD k 0) = l.getD (k + 1) 0 := by
  intro l
  induction l with
  | nil => intro head _ k hk; simp at hk
  | cons a l ih =>
    intro head h k hk
    obtain ⟨_, _, h3⟩ := h
    cases k with
    | zero =>
      cases l with
      | nil => simpa using h3
      | cons b l => simpa using h3.1
    | succ k =>
      have := ih _ h3 k (by simpa using hk)
      simpa using this

theorem blocks_reverse_getD (base bs N k : Nat) :
    (blocks base bs N).reverse.getD k 0
      = if k < N then blockAddr base bs (N - 1 - k) else 0 := by
  have hlen : ((blocks base bs N).reverse).length = N := by simp [blocks]
  by_cases hk : k < N
  · rw [if_pos hk, List.getD_eq_getElem _ _ (by omega)]
    simp only [List.getElem_reverse, blocks, List.getElem_map, List.getElem_range,
      List.length_map, List.length_range]
  · rw [if_neg hk, List.getD_eq_default _ _ (by omega)]

/-- With blocks too small for a link, the link of the last block ends after the end of
the buffer, whether or not `block_size * N` wraps around. -/
theorem last_link_outside (bs N base : Nat) (hN : 1 ≤ N) (hbs : bs < PTR_SIZE) :
    base + (bs * N) % PTR_MOD < blockAddr base bs (N - 1) + PTR_SIZE := by
  have e : bs * N = (N - 1) * bs + bs := by
    have : N = (N - 1) + 1 := by omega
    rw [Nat.mul_comm]
    nth_rewrite 1 [this]
    rw [Nat.add_mul, Nat.one_mul]
  unfold blockAddr
  rw [e, Nat.add_mod]
  have h1 : bs % PTR_MOD = bs := Nat.mod_eq_of_lt (by unfold PTR_SIZE at hbs; unfold PTR_MOD; omega)
  rw [h1]
  generalize ((N - 1) * bs) % PTR_MOD = off
  unfold PTR_SIZE at *
  unfold PTR_MOD
  omega

end PoolAllocator

namespace PoolAllocator

/-- C21 (block layout arithmetic). With `W = PTR_SIZE` bytes per link: the constructor
`PoolAllocator(block_size, N)` writes one link word at `m_memory_pool + i * block_size`
(a `size_t` product) for every `i < N`, into a buffer of `(block_size * N) % 2^64`
bytes. A construction that is defined leaves in the link word of block `i` the address
of block `i - 1` (null for block 0) and changes no byte outside of these link words, and
it is defined exactly when the buffer is non-null, lies in the address space and
contains every one of these link words. If `block_size ≥ W` and `block_size * N` does
not overflow, the link of block `i` is at `base + i * block_size` literally, all links
lie inside the buffer and the links of distinct blocks share no byte (so a buffer in the
address space is enough for the construction to be defined). If `N ≥ 1` and
`block_size < W`, the link word of the last block ends after the end of the buffer (also
when the products wrap around), so the construction is not defined: `block_size ≥ W` is
necessary for constructing a pool with at least one block. -/
theorem pool_block_layout (block_size N base : Nat) (mem : Memory) :
    (∀ p mem', PoolAllocator.new block_size N base mem = some (p, mem') →
      (∀ i, i < N → loadPtr mem' (blockAddr base block_size i)
          = if i = 0 then 0 else blockAddr base block_size (i - 1)) ∧
      (∀ x, (∀ i, i < N →
          x < blockAddr base block_size i ∨ blockAddr base block_size i + PTR_SIZE ≤ x) →
        mem' x = mem x)) ∧
    ((PoolAllocator.new block_size N base mem).isSome = true ↔
      base ≠ 0 ∧ base + (block_size * N) % PTR_MOD ≤ PTR_MOD ∧
      ∀ i, i < N →
        blockAddr base block_size i + PTR_SIZE ≤ base + (block_size * N) % PTR_MOD) ∧
    (PTR_SIZE ≤ block_size → block_size * N < PTR_MOD →
      (∀ i, i < N → blockAddr base block_size i = base + i * block_size ∧
        base + i * block_size + PTR_SIZE ≤ base + (block_size * N) % PTR_MOD) ∧
      (∀ i j, i < j → j < N → base + i * block_size + PTR_SIZE ≤ base + j * block_size) ∧
      (base ≠ 0 → base + block_size * N ≤ PTR_MOD →
        (PoolAllocator.new block_size N base mem).isSome = true)) ∧
    (1 ≤ N → block_size < PTR_SIZE →
      base + (block_size * N) % PTR_MOD < blockAddr base block_size (N - 1) + PTR_SIZE ∧
      PoolAllocator.new block_size N base mem = none) ∧
    (1 ≤ N → (PoolAllocator.new block_size N base mem).isSome = true →
      PTR_SIZE ≤ block_size) := by
  have hnone : 1 ≤ N → block_size < PTR_SIZE →
      PoolAllocator.new block_size N base mem = none := by
    intro hN hbs
    cases hnew : PoolAllocator.new block_size N base mem with
    | none => rfl
    | some r =>
      have hsome : (PoolAllocator.new block_size N base mem).isSome = true := by
        rw [hnew]
        rfl
      have hb := ((new_isSome_iff block_size N base mem).1 hsome).2.2 (N - 1) (by omega)
      have := last_link_outside block_size N base hN hbs
      omega
  refine ⟨?_, new_isSome_iff block_size N base mem, ?_, ?_, ?_⟩
  · intro p mem' h
    obtain ⟨_, _, _, _, _, _, hfl⟩ := new_spec block_size N base mem p mem' h
    constructor
    · intro i hi
      have hk := isFreeList_links mem' _ _ hfl (N - 1 - i) (by simp [blocks]; omega)
      rw [blocks_reverse_getD, blocks_reverse_getD, if_pos (by omega)] at hk
      have e : N - 1 - (N - 1 - i) = i := by omega
      rw [e] at hk
      rw [hk]
      by_cases h0 : i = 0
      · rw [if_pos h0, if_neg (by omega)]
      · rw [if_neg h0, if_pos (by omega)]
        congr 1
        omega
    · intro x hx
      unfold PoolAllocator.new at h
      simp only at h
      split at h
      · cases h
      · split at h
        · cases h
        · rename_i fl m2 hloop
          simp only [Option.some.injEq, Prod.mk.injEq] at h
          obtain ⟨_, rfl⟩ := h
          exact initLoop_frame block_size base _ N 0 0 mem _ hloop x
            (fun j _ hj => hx j (by omega))
  · intro hW hno
    have hlen : (block_size * N) % PTR_MOD = block_size * N := Nat.mod_eq_of_lt hno
    refine ⟨?_, ?_, ?_⟩
    · intro i hi
      obtain ⟨e, hin⟩ := blockAddr_eq base block_size N i hno hi
      exact ⟨e, by rw [hlen]; omega⟩
    · intro i j hij _
      have : (i + 1) * block_size ≤ j * block_size := Nat.mul_le_mul_right block_size (by omega)
      rw [Nat.add_mul, Nat.one_mul] at this
      omega
    · intro hbase hfit
      exact new_isSome block_size N base mem hW (Nat.pos_of_ne_zero hbase) hfit
  · intro hN hbs
    exact ⟨last_link_outside block_size N base hN hbs, hnone hN hbs⟩
  · intro hN hsome
    by_contra hlt
    rw [hnone hN (by omega)] at hsome
    cases hsome

/-- C21, at concrete pools: three blocks of 16 bytes at 4096 (links at 4096, 4112 and
4128, each leading to the block before it, inside the 48-byte buffer); and three blocks
of 4 bytes at 4096, where the link of the last block would end at 4112, after the end
4108 of the 12-byte buffer, so that no pool is constructed. -/
theorem pool_block_layout_witness :
    (PoolAllocator.new 16 3 4096 (fun _ => 0) = some (examplePool, exampleMem) ∧
      ((2 : Nat) < 3 ∧ PTR_SIZE ≤ 16 ∧ 16 * 3 < PTR_MOD ∧ (1 : Nat) < 2) ∧
      ((1 : Nat) ≤ 3 ∧ 4 < PTR_SIZE)) ∧
    (loadPtr exampleMem (blockAddr 4096 16 2)
      = if (2 : Nat) = 0 then 0 else blockAddr 4096 16 (2 - 1)) ∧
    (blockAddr 4096 16 2 = 4096 + 2 * 16 ∧
      4096 + 2 * 16 + PTR_SIZE ≤ 4096 + (16 * 3) % PTR_MOD) ∧
    4096 + 1 * 16 + PTR_SIZE ≤ 4096 + 2 * 16 ∧
    (4096 + (4 * 3) % PTR_MOD < blockAddr 4096 4 (3 - 1) + PTR_SIZE ∧
      PoolAllocator.new 4 3 4096 (fun _ => 0) = none) :=
  ⟨⟨rfl, ⟨by decide, by decide, by decide, by decide⟩, by decide, by decide⟩,
   ((pool_block_layout 16 3 4096 (fun _ => 0)).1 examplePool exampleMem rfl).1 2 (by decide),
   ((pool_block_layout 16 3 4096 (fun _ => 0)).2.2.1 (by decide) (by decide)).1 2 (by decide),
   ((pool_block_layout 16 3 4096 (fun _ => 0)).2.2.1 (by decide) (by decide)).2.1 1 2
     (by decide) (by decide),
   (pool_block_layout 4 3 4096 (fun _ => 0)).2.2.2.1 (by decide) (by decide)⟩

end PoolAllocator

end MemoryPool
